import Mathlib

/-!
Shallow embedding of the debugfs namespace-tree manager
(`fs/debugfs/inode.c`) and proofs about its claimed properties.

The dentry tree is represented as a flat store of `Dentry` records indexed
by allocation order (the index plays the role of the `struct dentry`
pointer).  A dentry keeps its identity after removal — exactly as a stale
kernel pointer would — with `inode = none` standing for a negative
(unhashed) dentry.  `children` mirrors `d_subdirs`; the kernel inserts new
dentries at the head of that list, so our lists are newest-first.  Parent
pointers (`d_parent`) are never cleared, matching the kernel.

Functions named after the source (`__create_file`, `__debugfs_remove`,
`debugfs_remove_recursive`, `debugfs_rename`, ...) are translated from
`src/fs/debugfs/inode.c`.  VFS helpers that live outside the provided
source (`simple_pin_fs`, `simple_release_fs`, `lookup_one_len`,
`simple_unlink`, `simple_rmdir`, `d_delete`, `d_move`, `lock_rename`,
`sha_transform`) are modelled from the specification, as flagged in their
doc comments.
-/

namespace Debugfs

/-- Node kinds, the S_IFMT dispatch of `debugfs_get_inode`. -/
inductive IKind where
  | dir
  | reg
  | lnk
  | special
deriving DecidableEq, Repr

/-- The inode part of a node: kind, link count and permission metadata. -/
structure Inode where
  kind : IKind
  nlink : Nat
  perm : Nat
  uid : Nat
  gid : Nat
deriving DecidableEq, Repr

/-- A dentry: name, parent back-reference (`d_parent`; `none` for the
root), the optional inode (`none` = negative dentry), the `d_subdirs`
child list (ids, newest first, positive children only) and the
`d_mountpoint` flag. -/
structure Dentry where
  name : String
  parent : Option Nat
  inode : Option Inode
  children : List Nat
  mnt : Bool
deriving DecidableEq, Repr

/-- Pin-call events, recording the calls to `simple_pin_fs` /
`simple_release_fs` made by an operation. -/
inductive Ev where
  | pin
  | unpin
deriving DecidableEq, Repr

/-- Mount options record (`struct debugfs_mount_opts`). -/
structure MountOpts where
  uid : Nat
  gid : Nat
  mode : Nat
  passwd : String
  privilege : Bool
deriving DecidableEq, Repr

/-- The whole filesystem state: the dentry store (index = identity),
`debugfs_mount_count`, whether the backing store is attached
(`debugfs_mount != NULL`), the pin-call log, and the mount options. -/
structure FS where
  dentries : List Dentry
  mountCount : Int
  mounted : Bool
  log : List Ev
  opts : MountOpts
deriving DecidableEq, Repr

/-- Dentry pointers handed to the API: NULL, an ERR_PTR, or a real
reference. -/
inductive Ref where
  | null
  | err (code : Int)
  | ptr (id : Nat)
deriving DecidableEq, Repr

def EPERM : Int := 1
def EEXIST : Int := 17
def ENOTEMPTY : Int := 39

/-- Dereference a dentry id. -/
def dent? (s : FS) (id : Nat) : Option Dentry :=
  s.dentries.get? id

/-- Overwrite the dentry at `id` (no-op when out of range). -/
def setDent (s : FS) (id : Nat) (d : Dentry) : FS :=
  { s with dentries := s.dentries.set id d }

/-- Update the dentry at `id` in place. -/
def modifyDent (s : FS) (id : Nat) (f : Dentry → Dentry) : FS :=
  match s.dentries.get? id with
  | some d => setDent s id (f d)
  | none => s

/-- `id->d_inode`. -/
def inode? (s : FS) (id : Nat) : Option Inode :=
  (dent? s id).bind Dentry.inode

/-- `debugfs_positive`: the dentry is backed by a live inode (and hashed;
in this model a removed dentry loses its inode, so the two conditions
coincide). -/
def debugfs_positive (s : FS) (id : Nat) : Bool :=
  (inode? s id).isSome

/-- `S_ISDIR(id->d_inode->i_mode)` for a positive dentry. -/
def isDirAt (s : FS) (id : Nat) : Bool :=
  match inode? s id with
  | some i => i.kind == IKind.dir
  | none => false

/-- `id->d_subdirs` as a list of ids. -/
def childrenOf (s : FS) (id : Nat) : List Nat :=
  match dent? s id with
  | some d => d.children
  | none => []

/-- Apply `f` to the inode at `id`, when present. -/
def mapInodeAt (s : FS) (id : Nat) (f : Inode → Inode) : FS :=
  modifyDent s id (fun d => { d with inode := d.inode.map f })

/-- `inc_nlink`. -/
def incNlinkAt (s : FS) (id : Nat) : FS :=
  mapInodeAt s id (fun i => { i with nlink := i.nlink + 1 })

/-- `drop_nlink`. -/
def dropNlinkAt (s : FS) (id : Nat) : FS :=
  mapInodeAt s id (fun i => { i with nlink := i.nlink - 1 })

/-- `d_mountpoint`. -/
def d_mountpoint (s : FS) (id : Nat) : Bool :=
  match dent? s id with
  | some d => d.mnt
  | none => false

/-- Modelled from the spec: `pin()` (`simple_pin_fs`, not in src/) —
under its own lock, increments the count; if the previous value was 0 it
performs the backing-store attach (which may fail, in which case the
count is rolled back and failure returned).  The call is recorded in the
log. -/
def simple_pin_fs (attachOk : Bool) (s : FS) : FS × Int :=
  let s := { s with log := s.log ++ [Ev.pin] }
  if s.mountCount = 0 then
    if attachOk then
      ({ s with mountCount := 1, mounted := true }, 0)
    else
      (s, -EPERM)
  else
    ({ s with mountCount := s.mountCount + 1 }, 0)

/-- Modelled from the spec: `unpin()` (`simple_release_fs`, not in
src/) — decrements the count and detaches the backing store when the new
value is 0. -/
def simple_release_fs (s : FS) : FS :=
  let c := s.mountCount - 1
  { s with
    mountCount := c,
    mounted := if c = 0 then false else s.mounted,
    log := s.log ++ [Ev.unpin] }

/-- `debugfs_get_inode`: a fresh inode; directory inodes start off with
`i_nlink == 2` (the extra `inc_nlink` for the "." entry). -/
def debugfs_get_inode (kind : IKind) (perm : Nat) : Inode :=
  let inode : Inode := { kind := kind, nlink := 1, perm := perm, uid := 0, gid := 0 }
  match kind with
  | IKind.dir => { inode with nlink := inode.nlink + 1 }
  | _ => inode

/-- Modelled from the spec: `lookup_one_len` — a name lookup among the
current Positive children of `dirId`.  (When nothing is found the kernel
returns a fresh negative dentry; we return `none` and let
`debugfs_mknod` allocate, which has the same net effect.) -/
def lookup_one_len (s : FS) (dirId : Nat) (name : String) : Option Nat :=
  match dent? s dirId with
  | none => none
  | some d =>
    d.children.find? (fun c =>
      match dent? s c with
      | some cd => cd.name == name && cd.inode.isSome
      | none => false)

/-- `debugfs_mknod`: fails with `-EEXIST` when the looked-up dentry is
already positive; otherwise allocates the inode (`allocOk` models
`new_inode` success; on failure the initial `error = -EPERM` is
returned) and instantiates the dentry, linking it at the head of the
parent's child list (kernel `d_subdirs` insertion order). -/
def debugfs_mknod (s : FS) (dirId : Nat) (found : Option Nat) (name : String)
    (kind : IKind) (perm : Nat) (allocOk : Bool) : FS × Int × Option Nat :=
  match found with
  | some _ => (s, -EEXIST, none)
  | none =>
    if allocOk then
      let ino := debugfs_get_inode kind perm
      let newId := s.dentries.length
      let s := { s with
        dentries := s.dentries ++
          [{ name := name, parent := some dirId, inode := some ino,
             children := [], mnt := false }] }
      let s := modifyDent s dirId (fun d => { d with children := newId :: d.children })
      (s, 0, some newId)
    else
      (s, -EPERM, none)

/-- `debugfs_mkdir`: mknod with directory mode; on success `inc_nlink`
on the parent. -/
def debugfs_mkdir (s : FS) (dirId : Nat) (found : Option Nat) (name : String)
    (perm : Nat) (allocOk : Bool) : FS × Int × Option Nat :=
  let r := debugfs_mknod s dirId found name IKind.dir perm allocOk
  match r with
  | (s, res, newId) =>
    if res = 0 then (incNlinkAt s dirId, res, newId)
    else (s, res, newId)

/-- `debugfs_link`: mknod with symlink mode. -/
def debugfs_link (s : FS) (dirId : Nat) (found : Option Nat) (name : String)
    (perm : Nat) (allocOk : Bool) : FS × Int × Option Nat :=
  debugfs_mknod s dirId found name IKind.lnk perm allocOk

/-- `debugfs_create`: mknod with regular-file mode. -/
def debugfs_create (s : FS) (dirId : Nat) (found : Option Nat) (name : String)
    (perm : Nat) (allocOk : Bool) : FS × Int × Option Nat :=
  debugfs_mknod s dirId found name IKind.reg perm allocOk

/-- `__create_file`: pin the filesystem, default a missing parent to the
root, look the name up, dispatch on the kind, and on any error release
the pin and return NULL. -/
def __create_file (s : FS) (name : String) (kind : IKind) (perm : Nat)
    (parent : Option Nat) (allocOk : Bool) (attachOk : Bool) : FS × Option Nat :=
  match simple_pin_fs attachOk s with
  | (s, error) =>
    if error ≠ 0 then (s, none)
    else
      let parentId := parent.getD 0
      let found := lookup_one_len s parentId name
      match (match kind with
             | IKind.dir => debugfs_mkdir s parentId found name perm allocOk
             | IKind.lnk => debugfs_link s parentId found name perm allocOk
             | _ => debugfs_create s parentId found name perm allocOk) with
      | (s, error, newId) =>
        if error ≠ 0 then (simple_release_fs s, none)
        else (s, newId)

/-- `debugfs_create_file` (the mode switch admits only regular files). -/
def debugfs_create_file (s : FS) (name : String) (perm : Nat)
    (parent : Option Nat) (allocOk : Bool) (attachOk : Bool) : FS × Option Nat :=
  __create_file s name IKind.reg perm parent allocOk attachOk

/-- `debugfs_create_dir` (mode `S_IFDIR | S_IRWXU | S_IRUGO | S_IXUGO`). -/
def debugfs_create_dir (s : FS) (name : String) (parent : Option Nat)
    (allocOk : Bool) (attachOk : Bool) : FS × Option Nat :=
  __create_file s name IKind.dir 0o755 parent allocOk attachOk

/-- `debugfs_create_symlink`: `kstrdup` the target first (`strdupOk`
models its success; on failure NULL is returned before anything else
happens). -/
def debugfs_create_symlink (s : FS) (name : String) (parent : Option Nat)
    (strdupOk : Bool) (allocOk : Bool) (attachOk : Bool) : FS × Option Nat :=
  if !strdupOk then (s, none)
  else __create_file s name IKind.lnk 0o777 parent allocOk attachOk

/-- `simple_empty` on our model: no (positive) children. -/
def simple_empty (s : FS) (id : Nat) : Bool :=
  (childrenOf s id).isEmpty

/-- Modelled from the spec: `simple_unlink` (libfs, not in src/) — drops
the victim's link count; the actual detach happens in `d_delete`. -/
def simple_unlink (s : FS) (dirId : Nat) (id : Nat) : FS × Int :=
  (dropNlinkAt s id, 0)

/-- Modelled from the spec: `simple_rmdir` (libfs, not in src/) — fails
with `-ENOTEMPTY` on a non-empty directory, otherwise drops the victim's
extra link, unlinks it and drops the parent's link. -/
def simple_rmdir (s : FS) (dirId : Nat) (id : Nat) : FS × Int :=
  if !(simple_empty s id) then (s, -ENOTEMPTY)
  else
    let s := dropNlinkAt s id
    match simple_unlink s dirId id with
    | (s, _) => (dropNlinkAt s dirId, 0)

/-- Modelled from the spec: `d_delete` (dcache, not in src/) — the node
transitions to Negative: it is detached from its parent's child list and
loses its inode.  Its own record (name, stale parent pointer) survives,
like a kernel dentry kept alive by a caller's reference. -/
def d_delete (s : FS) (id : Nat) : FS :=
  match dent? s id with
  | none => s
  | some d =>
    let s :=
      match d.parent with
      | some p => modifyDent s p (fun pd => { pd with children := pd.children.erase id })
      | none => s
    modifyDent s id (fun dd => { dd with inode := none })

/-- `__debugfs_remove`: no-op (returning 0) on a non-positive dentry;
`simple_rmdir` for directories (which can fail), `simple_unlink` for the
rest (return value ignored, `ret` stays 0); `d_delete` when `ret == 0`. -/
def __debugfs_remove (s : FS) (id : Nat) (parentId : Nat) : FS × Int :=
  if debugfs_positive s id then
    match (if isDirAt s id then simple_rmdir s parentId id
           else
             match simple_unlink s parentId id with
             | (s, _) => (s, 0)) with
    | (s, ret) =>
      if ret = 0 then (d_delete s id, ret) else (s, ret)
  else (s, 0)

/-- `debugfs_remove`: guard against NULL/ERR pointers and a missing or
inode-less parent, then `__debugfs_remove` under the parent lock,
releasing one pin when the primitive returned 0. -/
def debugfs_remove (s : FS) (r : Ref) : FS :=
  match r with
  | Ref.null => s
  | Ref.err _ => s
  | Ref.ptr id =>
    match dent? s id with
    | none => s
    | some d =>
      match d.parent with
      | none => s
      | some p =>
        match inode? s p with
        | none => s
        | some _ =>
          match __debugfs_remove s id p with
          | (s, ret) => if ret = 0 then simple_release_fs s else s

/-- The elements of `l` strictly after the first occurrence of `x`
(`x->d_child.next` onward). -/
def afterElem : List Nat → Nat → List Nat
  | [], _ => []
  | a :: t, x => if a = x then t else afterElem t x

/-- The loop of `debugfs_remove_recursive` (labels `down`/`up`), made
total by a fuel argument.  `t` is the dentry passed by the caller,
`parentId` the cursor directory, `work` the remaining portion of the
cursor's `d_subdirs` iteration.  Returns the final state together with
the list of dentries actually removed, in removal order (ghost
instrumentation used only to state ordering properties).

A step either skips a non-positive child (`continue`), descends into a
child that has children of its own (`goto down`), removes a childless
child and releases a pin, or — when the iteration is exhausted — ascends
to the cursor's parent, removes the now-empty cursor and resumes the
parent's iteration after it (`goto up`), until the cursor is `t` itself,
which is removed last. -/
def drr_loop (t : Nat) : Nat → FS → Nat → List Nat → FS × List Nat
  | 0, s, _, _ => (s, [])
  | fuel + 1, s, parentId, work =>
    match work with
    | child :: next =>
      if !(debugfs_positive s child) then
        drr_loop t fuel s parentId next
      else if !(childrenOf s child).isEmpty then
        drr_loop t fuel s child (childrenOf s child)
      else
        match __debugfs_remove s child parentId with
        | (s1, ret) =>
          let s2 := if ret = 0 then simple_release_fs s1 else s1
          match drr_loop t fuel s2 parentId next with
          | (s3, tr) => (s3, (if ret = 0 then [child] else []) ++ tr)
    | [] =>
      let child := parentId
      match dent? s child with
      | none => (s, [])
      | some cd =>
        match cd.parent with
        | none => (s, [])
        | some gp =>
          if child ≠ t then
            let next := afterElem (childrenOf s gp) child
            let removed := debugfs_positive s child
            match __debugfs_remove s child gp with
            | (s1, ret) =>
              let s2 := if ret = 0 then simple_release_fs s1 else s1
              match drr_loop t fuel s2 gp next with
              | (s3, tr) => (s3, (if removed && ret == 0 then [child] else []) ++ tr)
          else
            let removed := debugfs_positive s child
            match __debugfs_remove s child gp with
            | (s1, ret) =>
              let s2 := if ret = 0 then simple_release_fs s1 else s1
              (s2, if removed && ret == 0 then [child] else [])

/-- Fuel that suffices for any well-formed tree (proved below): at most
one descent and one removal per positive node plus the final step. -/
def drrFuel (s : FS) : Nat :=
  3 * s.dentries.length + 3

/-- `debugfs_remove_recursive` with its removal trace: the same
NULL/ERR/parent guards as `debugfs_remove`, then the `down`/`up` loop
starting with `parent = dentry`. -/
def debugfs_remove_recursive_trace (s : FS) (r : Ref) : FS × List Nat :=
  match r with
  | Ref.null => (s, [])
  | Ref.err _ => (s, [])
  | Ref.ptr id =>
    match dent? s id with
    | none => (s, [])
    | some d =>
      match d.parent with
      | none => (s, [])
      | some p =>
        match inode? s p with
        | none => (s, [])
        | some _ => drr_loop id (drrFuel s) s id (childrenOf s id)

/-- `debugfs_remove_recursive`. -/
def debugfs_remove_recursive (s : FS) (r : Ref) : FS :=
  (debugfs_remove_recursive_trace s r).1

/-- `id->d_parent` as an id. -/
def parentOf (s : FS) (id : Nat) : Option Nat :=
  (dent? s id).bind Dentry.parent

/-- Iterate `d_parent` `n` times. -/
def parentIter (s : FS) : Nat → Nat → Option Nat
  | 0, id => some id
  | n + 1, id =>
    match parentOf s id with
    | some p => parentIter s n p
    | none => none

/-- `b` lies in the subtree rooted at `a`: some number of `d_parent`
steps leads from `b` to `a`. -/
def Desc (s : FS) (a b : Nat) : Prop :=
  ∃ n, parentIter s n b = some a

/-- Fuel-bounded check that the parent chain from `id` reaches a node
without a parent (the root). -/
def chainToRoot (s : FS) : Nat → Nat → Bool
  | 0, _ => false
  | f + 1, id =>
    match dent? s id with
    | none => false
    | some d =>
      match d.parent with
      | none => true
      | some p => chainToRoot s f p

/-- Executable, fuel-bounded version of `Desc`. -/
def inSub (s : FS) : Nat → Nat → Nat → Bool
  | 0, a, b => a == b
  | f + 1, a, b =>
    a == b ||
      (match parentOf s b with
       | some p => inSub s f a p
       | none => false)

/-- `Descb s a b`: `b` is in the subtree of `a`, with fuel sufficient
for any rooted store. -/
def Descb (s : FS) (a b : Nat) : Bool :=
  inSub s s.dentries.length a b

/-- The nodes visited by `k` steps of `d_parent` from `x` (including
`x`), for counting arguments. -/
def iterList (s : FS) : Nat → Nat → List Nat
  | 0, x => [x]
  | k + 1, x =>
    x :: (match parentOf s x with
          | some p => iterList s k p
          | none => [])

/-- Modelled from the spec: `d_ancestor(a, b)` (dcache, not in src/) —
when `a` is a proper ancestor of `b`, the child of `a` on the chain down
to `b`; otherwise `none`.  Computed by walking `b`'s parent chain. -/
def d_ancestor (s : FS) : Nat → Nat → Nat → Option Nat
  | 0, _, _ => none
  | f + 1, a, b =>
    match parentOf s b with
    | none => none
    | some p => if p = a then some b else d_ancestor s f a p

/-- Modelled from the spec: the "trap" dentry returned by
`lock_rename(new_dir, old_dir)` (namei, not in src/) — when one parent
is an ancestor of the other, the common-ancestor-side child on the path
between them, used for cycle detection; `none` otherwise. -/
def lock_rename_trap (s : FS) (newDir oldDir : Nat) : Option Nat :=
  if newDir = oldDir then none
  else
    match d_ancestor s s.dentries.length oldDir newDir with
    | some t => some t
    | none => d_ancestor s s.dentries.length newDir oldDir

/-- Modelled from the spec (Renamer step 4): the link-count part of
libfs `simple_rename` (not in src/).  The target dentry is always a
fresh negative one here, so the `-ENOTEMPTY` branch never fires and no
target is unlinked; for a directory the old parent loses a link and the
new parent gains one (a wash when they are the same directory). -/
def simple_rename (s : FS) (oldDir : Nat) (oldId : Nat) (newDir : Nat) : FS × Int :=
  let dirs := isDirAt s oldId
  let s := if dirs then incNlinkAt (dropNlinkAt s oldDir) newDir else s
  (s, 0)

/-- Modelled from the spec (Renamer step 4): `d_move` (dcache, not in
src/) — detach the dentry from its current parent's child list, rename
it, re-parent it and attach it at the head of the new parent's child
list. -/
def d_move (s : FS) (id : Nat) (newDir : Nat) (newName : String) : FS :=
  match dent? s id with
  | none => s
  | some d =>
    let s :=
      match d.parent with
      | some p => modifyDent s p (fun pd => { pd with children := pd.children.erase id })
      | none => s
    let s := modifyDent s id (fun dd => { dd with name := newName, parent := some newDir })
    modifyDent s newDir (fun nd => { nd with children := id :: nd.children })

/-- `debugfs_rename`: compute the trap, reject missing parent inodes, a
negative / trapped / mountpoint source, and a target lookup that is the
trap or already positive; otherwise `simple_rename` + `d_move` and
return the (renamed) source dentry. -/
def debugfs_rename (s : FS) (oldDir : Nat) (oldId : Nat) (newDir : Nat)
    (newName : String) : FS × Option Nat :=
  let trap := lock_rename_trap s newDir oldDir
  if (inode? s oldDir).isNone || (inode? s newDir).isNone then (s, none)
  else if (inode? s oldId).isNone || trap == some oldId || d_mountpoint s oldId then
    (s, none)
  else
    match lookup_one_len s newDir newName with
    | some _ => (s, none)
    | none =>
      match simple_rename s oldDir oldId newDir with
      | (s1, error) =>
        if error ≠ 0 then (s1, none)
        else (d_move s1 oldId newDir newName, some oldId)

/-- Compiled-in reference digest (`CONFIG_DEBUG_FS_DIGEST0..4`; all five
default to 0 when not configured). -/
structure Digest where
  d0 : Nat
  d1 : Nat
  d2 : Nat
  d3 : Nat
  d4 : Nat
deriving DecidableEq, Repr

/-- Modelled from the spec: the fixed-output hash of the passwd string
(`sha_init` + `sha_transform` over the option buffer, lib/sha1.c, not in
src/).  Only its fixed-output nature matters here. -/
def sha_model (passwd : String) : Nat × Nat × Nat × Nat × Nat :=
  let h := passwd.data.foldl (fun a c => (a * 131 + c.toNat + 1) % 4294967296) 1
  (h, (h + 1) % 4294967296, (h + 2) % 4294967296,
   (h + 3) % 4294967296, (h + 4) % 4294967296)

/-- `debugfs_check_passwd`: when no digest is compiled in
(`CONFIG_DEBUG_FS_DIGEST0 == 0`) the check is disabled and every passwd
is accepted; otherwise the digest of the passwd is compared word by word
against the compiled-in reference. -/
def debugfs_check_passwd (cfg : Digest) (passwd : String) : Bool :=
  if cfg.d0 = 0 then true
  else
    match sha_model passwd with
    | (g0, g1, g2, g3, g4) =>
      if g0 ≠ cfg.d0 then false
      else if g1 ≠ cfg.d1 then false
      else if g2 ≠ cfg.d2 then false
      else if g3 ≠ cfg.d3 then false
      else if g4 ≠ cfg.d4 then false
      else true

/-- `debugfs_apply_options`: set `opts->privilege` from the passwd
check and push mode/uid/gid onto the root inode. -/
def debugfs_apply_options (cfg : Digest) (s : FS) : FS :=
  let opts := { s.opts with privilege := debugfs_check_passwd cfg s.opts.passwd }
  let s := { s with opts := opts }
  mapInodeAt s 0 (fun i => { i with perm := opts.mode, uid := opts.uid, gid := opts.gid })

def DEBUGFS_DEFAULT_MODE : Nat := 0o755

/-- The root inode made by `simple_fill_super` (a directory, link count
2). -/
def rootInode : Inode :=
  { kind := IKind.dir, nlink := 2, perm := DEBUGFS_DEFAULT_MODE, uid := 0, gid := 0 }

/-- The root dentry (`sb->s_root`); its `d_parent`, which the kernel
encodes as a self-pointer, is modelled as `none`. -/
def rootDentry : Dentry :=
  { name := "", parent := none, inode := some rootInode, children := [], mnt := false }

def defaultOpts : MountOpts :=
  { uid := 0, gid := 0, mode := DEBUGFS_DEFAULT_MODE, passwd := "", privilege := false }

/-- The pristine filesystem: just the root, nothing pinned. -/
def initFS : FS :=
  { dentries := [rootDentry], mountCount := 0, mounted := false, log := [], opts := defaultOpts }

/-! ### Well-formedness -/

/-- Child `c` of `p` is positive and points back at `p`. -/
def childOkAt (s : FS) (p : Nat) (c : Nat) : Bool :=
  match dent? s c with
  | some cd => cd.parent == some p && cd.inode.isSome
  | none => false

/-- Every listed child is positive with the right back-pointer. -/
def childrenOkb (s : FS) : Bool :=
  (List.range s.dentries.length).all fun p =>
    (childrenOf s p).all fun c => childOkAt s p c

/-- Every positive dentry is listed by its parent; a positive dentry
without a parent is the root. -/
def memChildb (s : FS) : Bool :=
  (List.range s.dentries.length).all fun c =>
    match dent? s c with
    | some cd =>
      if cd.inode.isSome then
        match cd.parent with
        | some p => decide (c ∈ childrenOf s p)
        | none => c == 0
      else true
    | none => true

/-- Child lists have no duplicates. -/
def nodupb (s : FS) : Bool :=
  (List.range s.dentries.length).all fun p => decide ((childrenOf s p).Nodup)

/-- The root dentry is a parentless directory. -/
def rootOkb (s : FS) : Bool :=
  match dent? s 0 with
  | some d =>
    d.parent == none &&
      (match d.inode with
       | some i => i.kind == IKind.dir
       | none => false)
  | none => false

/-- Every dentry's parent chain reaches the root. -/
def rootedb (s : FS) : Bool :=
  (List.range s.dentries.length).all fun id => chainToRoot s s.dentries.length id

/-- Only directories carry children (in particular negative dentries are
childless). -/
def dirChildrenb (s : FS) : Bool :=
  (List.range s.dentries.length).all fun id =>
    (childrenOf s id).isEmpty || isDirAt s id

/-- Well-formedness of the dentry store. -/
def WFb (s : FS) : Bool :=
  rootOkb s && childrenOkb s && memChildb s && nodupb s && rootedb s && dirChildrenb s

/-- Every directory's link count is 2 plus its number of positive child
directories. -/
def linkOkAt (s : FS) (id : Nat) : Bool :=
  match inode? s id with
  | some i =>
    if i.kind == IKind.dir then
      i.nlink == 2 + (childrenOf s id).countP (fun c => isDirAt s c)
    else true
  | none => true

/-- The link-count invariant over the whole store. -/
def linkb (s : FS) : Bool :=
  (List.range s.dentries.length).all fun id => linkOkAt s id

/-- The number of live (positive, non-root) nodes — what the Mount Pin
Counter should equal. -/
def liveCount (s : FS) : Nat :=
  (List.range s.dentries.length).countP fun id =>
    id ≠ 0 && debugfs_positive s id

/-- Pin balance: the mount count equals the number of live nodes and the
backing store is attached exactly while that is positive. -/
def PinBal (s : FS) : Prop :=
  s.mountCount = (liveCount s : Int) ∧ s.mounted = decide (0 < liveCount s)

/-! ### Operation traces (for the pin-balance claim) -/

/-- One API call: a creation (with its non-determinism flags) or a
single-node removal. -/
inductive COp where
  | cfile (name : String) (perm : Nat) (parent : Option Nat) (allocOk attachOk : Bool)
  | cdir (name : String) (parent : Option Nat) (allocOk attachOk : Bool)
  | clink (name : String) (parent : Option Nat) (strdupOk allocOk attachOk : Bool)
  | rm (id : Nat)
deriving DecidableEq, Repr

/-- Execute one call. -/
def runOp (s : FS) : COp → FS
  | COp.cfile name perm parent aOk tOk => (debugfs_create_file s name perm parent aOk tOk).1
  | COp.cdir name parent aOk tOk => (debugfs_create_dir s name parent aOk tOk).1
  | COp.clink name parent sOk aOk tOk => (debugfs_create_symlink s name parent sOk aOk tOk).1
  | COp.rm id => debugfs_remove s (Ref.ptr id)

/-- Execute a call sequence. -/
def runOps (s : FS) : List COp → FS
  | [] => s
  | op :: rest => runOps (runOp s op) rest

/-- A removal that actually removes: the target is positive, below a
live parent, not the root, and already childless (all nodes created
under it were removed before it, as in the claimed interleavings). -/
def rmOk (s : FS) (id : Nat) : Bool :=
  match dent? s id with
  | none => false
  | some d =>
    (match d.parent with
     | none => false
     | some p => (inode? s p).isSome && decide (p ≠ id)) &&
    d.inode.isSome && decide (id ≠ 0) &&
    d.children.isEmpty

/-- Every removal in the sequence actually removes at the state where it
runs (creations are unconstrained). -/
def ValidOps : FS → List COp → Prop
  | _, [] => True
  | s, op :: rest =>
    (match op with
     | COp.rm id => rmOk s id = true
     | _ => True) ∧ ValidOps (runOp s op) rest

/-! ### Reachable states (all claims about "every reachable state") -/

/-- States reachable from the pristine filesystem through the public
API.  Creations are invoked per the documented contract (the parent, when
given, is a directory dentry); renames likewise pass the true parent of
the moved dentry and two directory dentries.  Removal arguments are
unconstrained. -/
inductive Reachable : FS → Prop where
  | init : Reachable initFS
  | cfile (s : FS) (h : Reachable s) (name : String) (perm : Nat) (parent : Option Nat)
      (allocOk attachOk : Bool)
      (hp : match parent with
            | some p => isDirAt s p = true
            | none => True) :
      Reachable (debugfs_create_file s name perm parent allocOk attachOk).1
  | cdir (s : FS) (h : Reachable s) (name : String) (parent : Option Nat)
      (allocOk attachOk : Bool)
      (hp : match parent with
            | some p => isDirAt s p = true
            | none => True) :
      Reachable (debugfs_create_dir s name parent allocOk attachOk).1
  | clink (s : FS) (h : Reachable s) (name : String) (parent : Option Nat)
      (strdupOk allocOk attachOk : Bool)
      (hp : match parent with
            | some p => isDirAt s p = true
            | none => True) :
      Reachable (debugfs_create_symlink s name parent strdupOk allocOk attachOk).1
  | rm (s : FS) (h : Reachable s) (r : Ref) : Reachable (debugfs_remove s r)
  | rmrec (s : FS) (h : Reachable s) (r : Ref) : Reachable (debugfs_remove_recursive s r)
  | ren (s : FS) (h : Reachable s) (oldDir oldId newDir : Nat) (newName : String)
      (hpar : parentOf s oldId = some oldDir)
      (hod : isDirAt s oldDir = true) (hnd : isDirAt s newDir = true) :
      Reachable (debugfs_rename s oldDir oldId newDir newName).1

/-! ### Auxiliary predicates used by the statements and proofs -/

/-- The number of positive nodes in the subtree of `t`. -/
def posUnder (s : FS) (t : Nat) : Nat :=
  (List.range s.dentries.length).countP fun j =>
    debugfs_positive s j && Descb s t j

/-- The ancestor chain from a cursor up to `t`: `IsChain s t c l` says
that following `d_parent` from `c` visits exactly the nodes of `l` and
ends at `t`, and that each chain node below its parent sits at the head
of that parent's child list (the position the recursive-removal loop
maintains: everything before the cursor's branch is already removed). -/
def IsChain (s : FS) (t : Nat) : Nat → List Nat → Prop
  | c, [] => c = t
  | c, p :: rest =>
    parentOf s c = some p ∧ (∃ tail, childrenOf s p = c :: tail) ∧
      debugfs_positive s p = true ∧ IsChain s t p rest

/-- Postcondition bundle of the recursive-removal loop, relative to the
state `s` it starts from: sizes and parent pointers survive, negativity
is monotone, the whole subtree of `t` ends up negative, everything
outside the subtree except `t`'s parent is untouched, `t`'s parent loses
exactly the child `t` (and a link when `t` is a directory),
well-formedness and the link invariant survive, and the removal trace
lists subtree nodes with no node preceding one of its own strict
descendants. -/
def MLPost (s : FS) (t pt : Nat) (out : FS × List Nat) : Prop :=
  out.1.dentries.length = s.dentries.length ∧
  (∀ j, (dent? out.1 j).map Dentry.parent = (dent? s j).map Dentry.parent) ∧
  (∀ j, debugfs_positive s j = false → debugfs_positive out.1 j = false) ∧
  (∀ j, Descb s t j = true → debugfs_positive out.1 j = false) ∧
  (∀ j, Descb s t j = false → j ≠ pt → dent? out.1 j = dent? s j) ∧
  (∃ pd, dent? s pt = some pd ∧
    dent? out.1 pt = some { pd with
      children := pd.children.erase t,
      inode := pd.inode.map fun i =>
        if isDirAt s t then { i with nlink := i.nlink - 1 } else i }) ∧
  (WFb out.1 = true ∧ linkb out.1 = true) ∧
  (∀ x ∈ out.2, Descb s t x = true ∧ debugfs_positive s x = true) ∧
  out.2.Pairwise fun a b => ¬(Descb s a b = true ∧ a ≠ b)

/-- Flip only the privileged flag of a state (used to express that the
flag gates nothing). -/
def setPrivilege (s : FS) (b : Bool) : FS :=
  { s with opts := { s.opts with privilege := b } }

/-- The node kind `__create_file` actually instantiates: the `switch`
default turns everything that is not a directory or symlink into a
regular file (`debugfs_create` ors in `S_IFREG`). -/
def effectiveKind : IKind → IKind
  | IKind.dir => IKind.dir
  | IKind.lnk => IKind.lnk
  | _ => IKind.reg

/-- The dentry a successful creation appends. -/
def newDentry (pid : Nat) (name : String) (kind : IKind) (perm : Nat) : Dentry :=
  { name := name, parent := some pid,
    inode := some (debugfs_get_inode (effectiveKind kind) perm),
    children := [], mnt := false }

/-- What `__debugfs_remove` does to the store when it removes the
childless positive dentry `c` (recorded as `cd`) from its parent `p`:
`c` goes negative, `p` loses the child `c` (and one link when `c` was a
directory), everything else is untouched. -/
def RemovedState (s : FS) (c p : Nat) (cd : Dentry) (s' : FS) : Prop :=
  s'.dentries.length = s.dentries.length ∧
  s'.mountCount = s.mountCount ∧ s'.mounted = s.mounted ∧
  s'.log = s.log ∧ s'.opts = s.opts ∧
  ∀ j, dent? s' j =
    if j = c then some { cd with inode := none }
    else if j = p then
      (dent? s p).map fun pd =>
        { pd with
          children := pd.children.erase c,
          inode := pd.inode.map fun i =>
            if isDirAt s c then { i with nlink := i.nlink - 1 } else i }
    else dent? s j

/-! ### Concrete states for witnesses and counterexamples -/

/-- Scenario: dir `a` under root. -/
def stA : FS := (debugfs_create_dir initFS "a" none true true).1

/-- Scenario: file `b` under `a`. -/
def stAB : FS := (debugfs_create_file stA "b" 0o644 (some 1) true true).1

/-- Scenario: dir `c` under `a`. -/
def stABC : FS := (debugfs_create_dir stAB "c" (some 1) true true).1

/-- Scenario: file `d` under `c` — the spec's concrete removal tree. -/
def stABCD : FS := (debugfs_create_file stABC "d" 0o644 (some 3) true true).1

/-- A single file `f` under root. -/
def stF : FS := (debugfs_create_file initFS "f" 0o644 none true true).1

/-- `stF` after removing the file. -/
def stFRemoved : FS := debugfs_remove stF (Ref.ptr 1)

/-- `stFRemoved` after a second, no-op removal of the same dentry. -/
def stFRemovedTwice : FS := debugfs_remove stFRemoved (Ref.ptr 1)

/-- Dir `a` and file `b` under it, then `remove(a)` (fails, non-empty)
and `remove(b)`: two creations and two removals of the created nodes. -/
def stUnbalanced : FS :=
  debugfs_remove (debugfs_remove stAB (Ref.ptr 1)) (Ref.ptr 2)

/-- Sibling dirs `x` and `z` under root (rename scenario). -/
def stXZ : FS :=
  (debugfs_create_dir (debugfs_create_dir initFS "x" none true true).1 "z" none true true).1

/-- Dir `x` under root with dir `y` inside it (cycle-rename scenario). -/
def stXY : FS :=
  (debugfs_create_dir (debugfs_create_dir initFS "x" none true true).1 "y" (some 1) true true).1

/-- A state whose id 1 has a parent (id 0) that lost its inode: the
"parent has no live inode" guard case. -/
def stDeadParent : FS :=
  { dentries :=
      [{ name := "p", parent := none, inode := none, children := [], mnt := false },
       { name := "q", parent := some 0,
         inode := some { kind := IKind.reg, nlink := 1, perm := 0, uid := 0, gid := 0 },
         children := [], mnt := false }],
    mountCount := 1, mounted := true, log := [], opts := defaultOpts }

/-! ## Theorems.  First, plumbing lemmas about the dentry store. -/

theorem dent?_eq_some_of_lt {s : FS} {id : Nat} (h : id < s.dentries.length) :
    ∃ d, dent? s id = some d := by
  rcases List.get?_eq_get h with h'
  exact ⟨_, h'⟩

theorem lt_of_dent?_eq_some {s : FS} {id : Nat} {d : Dentry}
    (h : dent? s id = some d) : id < s.dentries.length :=
  List.get?_eq_some.mp h |>.1

theorem dent?_eq_none_of_le {s : FS} {id : Nat} (h : s.dentries.length ≤ id) :
    dent? s id = none :=
  List.get?_eq_none.mpr h

theorem setDent_dentries_length (s : FS) (id : Nat) (d : Dentry) :
    (setDent s id d).dentries.length = s.dentries.length := by
  simp [setDent]

theorem dent?_setDent_self {s : FS} {id : Nat} {d : Dentry}
    (h : id < s.dentries.length) : dent? (setDent s id d) id = some d := by
  simp only [dent?, setDent, List.get?_eq_getElem?]
  exact List.getElem?_set_eq_of_lt d h

theorem dent?_setDent_ne {s : FS} {id j : Nat} {d : Dentry} (h : j ≠ id) :
    dent? (setDent s id d) j = dent? s j := by
  simp only [dent?, setDent, List.get?_eq_getElem?]
  exact List.getElem?_set_ne (Ne.symm h)

theorem modifyDent_dentries_length (s : FS) (id : Nat) (f : Dentry → Dentry) :
    (modifyDent s id f).dentries.length = s.dentries.length := by
  unfold modifyDent
  cases h : s.dentries.get? id with
  | none => rfl
  | some d => simp [setDent]

theorem dent?_modifyDent_self (s : FS) (id : Nat) (f : Dentry → Dentry) :
    dent? (modifyDent s id f) id = (dent? s id).map f := by
  unfold modifyDent
  cases h : s.dentries.get? id with
  | none => simp only [dent?, h, Option.map_none']
  | some d =>
    have hlt : id < s.dentries.length := lt_of_dent?_eq_some h
    rw [dent?_setDent_self hlt]
    show _ = (s.dentries.get? id).map f
    rw [h]
    rfl

theorem dent?_modifyDent_ne (s : FS) {id j : Nat} (f : Dentry → Dentry) (h : j ≠ id) :
    dent? (modifyDent s id f) j = dent? s j := by
  unfold modifyDent
  cases h' : s.dentries.get? id with
  | none => rfl
  | some d => exact dent?_setDent_ne h

theorem modifyDent_mountCount (s : FS) (id : Nat) (f : Dentry → Dentry) :
    (modifyDent s id f).mountCount = s.mountCount := by
  unfold modifyDent
  cases s.dentries.get? id <;> rfl

theorem modifyDent_mounted (s : FS) (id : Nat) (f : Dentry → Dentry) :
    (modifyDent s id f).mounted = s.mounted := by
  unfold modifyDent
  cases s.dentries.get? id <;> rfl

theorem modifyDent_log (s : FS) (id : Nat) (f : Dentry → Dentry) :
    (modifyDent s id f).log = s.log := by
  unfold modifyDent
  cases s.dentries.get? id <;> rfl

theorem modifyDent_opts (s : FS) (id : Nat) (f : Dentry → Dentry) :
    (modifyDent s id f).opts = s.opts := by
  unfold modifyDent
  cases s.dentries.get? id <;> rfl

theorem mapInodeAt_dentries_length (s : FS) (id : Nat) (f : Inode → Inode) :
    (mapInodeAt s id f).dentries.length = s.dentries.length :=
  modifyDent_dentries_length ..

theorem dent?_mapInodeAt_self (s : FS) (id : Nat) (f : Inode → Inode) :
    dent? (mapInodeAt s id f) id =
      (dent? s id).map fun d => { d with inode := d.inode.map f } :=
  dent?_modifyDent_self ..

theorem dent?_mapInodeAt_ne (s : FS) {id j : Nat} (f : Inode → Inode) (h : j ≠ id) :
    dent? (mapInodeAt s id f) j = dent? s j :=
  dent?_modifyDent_ne _ _ h

theorem incNlinkAt_eq (s : FS) (id : Nat) :
    incNlinkAt s id = mapInodeAt s id (fun i => { i with nlink := i.nlink + 1 }) := rfl

theorem mapInodeAt_mountCount (s : FS) (id : Nat) (f : Inode → Inode) :
    (mapInodeAt s id f).mountCount = s.mountCount :=
  modifyDent_mountCount ..

theorem mapInodeAt_mounted (s : FS) (id : Nat) (f : Inode → Inode) :
    (mapInodeAt s id f).mounted = s.mounted :=
  modifyDent_mounted ..

theorem mapInodeAt_log (s : FS) (id : Nat) (f : Inode → Inode) :
    (mapInodeAt s id f).log = s.log :=
  modifyDent_log ..

theorem mapInodeAt_opts (s : FS) (id : Nat) (f : Inode → Inode) :
    (mapInodeAt s id f).opts = s.opts :=
  modifyDent_opts ..

/-! ### Parent chains: congruence, composition, acyclicity -/

theorem parentIter_zero (s : FS) (id : Nat) : parentIter s 0 id = some id := rfl

theorem parentIter_succ (s : FS) (n id : Nat) :
    parentIter s (n + 1) id =
      match parentOf s id with
      | some p => parentIter s n p
      | none => none := rfl

theorem chainToRoot_succ (s : FS) (f id : Nat) :
    chainToRoot s (f + 1) id =
      match dent? s id with
      | none => false
      | some d =>
        match d.parent with
        | none => true
        | some p => chainToRoot s f p := rfl

theorem inSub_succ (s : FS) (f a b : Nat) :
    inSub s (f + 1) a b =
      (a == b ||
        match parentOf s b with
        | some p => inSub s f a p
        | none => false) := rfl

theorem d_ancestor_succ (s : FS) (f a b : Nat) :
    d_ancestor s (f + 1) a b =
      match parentOf s b with
      | none => none
      | some p => if p = a then some b else d_ancestor s f a p := rfl

theorem parentOf_eq_of_dent? {s : FS} {id : Nat} {d : Dentry}
    (h : dent? s id = some d) : parentOf s id = d.parent := by
  unfold parentOf
  rw [h]
  rfl

theorem parentOf_congr {s s' : FS}
    (hsh : ∀ j, (dent? s' j).map Dentry.parent = (dent? s j).map Dentry.parent)
    (j : Nat) : parentOf s' j = parentOf s j := by
  have h := hsh j
  unfold parentOf
  cases h1 : dent? s' j <;> cases h2 : dent? s j <;>
    rw [h1, h2] at h <;> simp_all

theorem parentIter_congr {s s' : FS}
    (hsh : ∀ j, (dent? s' j).map Dentry.parent = (dent? s j).map Dentry.parent) :
    ∀ n j, parentIter s' n j = parentIter s n j := by
  intro n
  induction n with
  | zero => intro j; rfl
  | succ n ih =>
    intro j
    rw [parentIter_succ, parentIter_succ, parentOf_congr hsh j]
    cases parentOf s j with
    | none => rfl
    | some p => simp only [ih p]

theorem chainToRoot_congr {s s' : FS}
    (hsh : ∀ j, (dent? s' j).map Dentry.parent = (dent? s j).map Dentry.parent) :
    ∀ f j, chainToRoot s' f j = chainToRoot s f j := by
  intro f
  induction f with
  | zero => intro j; rfl
  | succ f ih =>
    intro j
    have h := hsh j
    rw [chainToRoot_succ, chainToRoot_succ]
    cases h1 : dent? s' j with
    | none =>
      cases h2 : dent? s j with
      | none => rfl
      | some d => rw [h1, h2] at h; simp at h
    | some d' =>
      cases h2 : dent? s j with
      | none => rw [h1, h2] at h; simp at h
      | some d =>
        rw [h1, h2] at h
        simp only [Option.map_some'] at h
        have hp : d'.parent = d.parent := Option.some.inj h
        simp only [hp]
        cases d.parent with
        | none => rfl
        | some p => simp only [ih p]

theorem inSub_congr {s s' : FS}
    (hsh : ∀ j, (dent? s' j).map Dentry.parent = (dent? s j).map Dentry.parent) :
    ∀ f a b, inSub s' f a b = inSub s f a b := by
  intro f
  induction f with
  | zero => intro a b; rfl
  | succ f ih =>
    intro a b
    rw [inSub_succ, inSub_succ, parentOf_congr hsh b]
    cases parentOf s b with
    | none => rfl
    | some p => simp only [ih a p]

theorem Descb_congr {s s' : FS}
    (hlen : s'.dentries.length = s.dentries.length)
    (hsh : ∀ j, (dent? s' j).map Dentry.parent = (dent? s j).map Dentry.parent)
    (a b : Nat) : Descb s' a b = Descb s a b := by
  unfold Descb
  rw [hlen, inSub_congr hsh]

theorem rootedb_congr {s s' : FS}
    (hlen : s'.dentries.length = s.dentries.length)
    (hsh : ∀ j, (dent? s' j).map Dentry.parent = (dent? s j).map Dentry.parent) :
    rootedb s' = rootedb s := by
  unfold rootedb
  rw [hlen]
  exact congrArg _ (funext fun id => by rw [chainToRoot_congr hsh])

theorem parentIter_add (s : FS) (m n j : Nat) :
    parentIter s (m + n) j =
      (parentIter s m j).bind (fun y => parentIter s n y) := by
  induction m generalizing j with
  | zero => simp [parentIter_zero]
  | succ m ih =>
    have hs : m + 1 + n = m + n + 1 := by omega
    rw [hs, parentIter_succ, parentIter_succ]
    cases parentOf s j with
    | none => rfl
    | some p => exact ih p

theorem cycleFree {s : FS} :
    ∀ f id, chainToRoot s f id = true →
      ∀ k, parentIter s (k + 1) id ≠ some id := by
  intro f
  induction f with
  | zero => intro id h; simp [chainToRoot] at h
  | succ f ih =>
    intro id h k hcyc
    rw [chainToRoot_succ] at h
    cases hd : dent? s id with
    | none => rw [hd] at h; simp at h
    | some d =>
      rw [hd] at h
      simp only [] at h
      have hpar : parentOf s id = d.parent := parentOf_eq_of_dent? hd
      cases hp : d.parent with
      | none =>
        rw [hp] at hpar
        rw [parentIter_succ, hpar] at hcyc
        simp at hcyc
      | some p =>
        rw [hp] at h hpar
        simp only [] at h
        rw [parentIter_succ, hpar] at hcyc
        simp only [] at hcyc
        have hone : parentIter s 1 id = some p := by
          rw [parentIter_succ, hpar]
          rfl
        have hcyc' : parentIter s (k + 1) p = some p := by
          rw [parentIter_add s k 1 p, hcyc]
          exact hone
        exact ih p h k hcyc'

theorem chainToRoot_dist {s : FS} :
    ∀ f id, chainToRoot s f id = true →
      ∃ k r, k < f ∧ parentIter s k id = some r ∧ parentOf s r = none := by
  intro f
  induction f with
  | zero => intro id h; simp [chainToRoot] at h
  | succ f ih =>
    intro id h
    rw [chainToRoot_succ] at h
    cases hd : dent? s id with
    | none => rw [hd] at h; simp at h
    | some d =>
      rw [hd] at h
      simp only [] at h
      have hpar : parentOf s id = d.parent := parentOf_eq_of_dent? hd
      cases hp : d.parent with
      | none =>
        rw [hp] at hpar
        exact ⟨0, id, Nat.succ_pos f, rfl, hpar⟩
      | some p =>
        rw [hp] at h hpar
        simp only [] at h
        obtain ⟨k, r, hk, hit, hr⟩ := ih p h
        refine ⟨k + 1, r, Nat.succ_lt_succ hk, ?_, hr⟩
        rw [parentIter_succ, hpar]
        exact hit

theorem parentIter_le_dist {s : FS} {c t r n k : Nat}
    (hn : parentIter s n c = some t) (hk : parentIter s k c = some r)
    (hr : parentOf s r = none) : n ≤ k := by
  by_contra hlt
  push_neg at hlt
  have hdecomp := parentIter_add s k (n - k) c
  rw [Nat.add_sub_cancel' (Nat.le_of_lt hlt)] at hdecomp
  rw [hn, hk] at hdecomp
  have hbind : Option.bind (some r) (fun y => parentIter s (n - k) y) =
      parentIter s (n - k) r := rfl
  rw [hbind] at hdecomp
  have hpos : 0 < n - k := Nat.sub_pos_of_lt hlt
  obtain ⟨m, hm⟩ := Nat.exists_eq_succ_of_ne_zero (Nat.pos_iff_ne_zero.mp hpos)
  rw [hm, Nat.succ_eq_add_one] at hdecomp
  rw [parentIter_succ, hr] at hdecomp
  exact Option.noConfusion hdecomp

theorem inSub_of_parentIter {s : FS} :
    ∀ n b a f, parentIter s n b = some a → n < f → inSub s f a b = true := by
  intro n
  induction n with
  | zero =>
    intro b a f h hf
    obtain ⟨f', rfl⟩ := Nat.exists_eq_succ_of_ne_zero (Nat.pos_iff_ne_zero.mp hf)
    rw [parentIter_zero] at h
    have : b = a := Option.some.inj h
    simp [inSub_succ, this]
  | succ n ih =>
    intro b a f h hf
    obtain ⟨f', rfl⟩ := Nat.exists_eq_succ_of_ne_zero
      (Nat.pos_iff_ne_zero.mp (Nat.lt_of_le_of_lt (Nat.zero_le _) hf))
    rw [parentIter_succ] at h
    cases hp : parentOf s b with
    | none => rw [hp] at h; exact Option.noConfusion h
    | some p =>
      rw [hp] at h
      simp only [] at h
      have := ih p a f' h (Nat.lt_of_succ_lt_succ hf)
      simp [inSub_succ, hp, this]

theorem parentIter_of_inSub {s : FS} :
    ∀ f a b, inSub s f a b = true → ∃ n, n ≤ f ∧ parentIter s n b = some a := by
  intro f
  induction f with
  | zero =>
    intro a b h
    simp [inSub] at h
    exact ⟨0, Nat.le_refl 0, by simp [parentIter_zero, h]⟩
  | succ f ih =>
    intro a b h
    rw [inSub_succ, Bool.or_eq_true] at h
    cases h with
    | inl h =>
      rw [beq_iff_eq] at h
      exact ⟨0, Nat.zero_le _, by simp [parentIter_zero, h]⟩
    | inr h =>
      cases hp : parentOf s b with
      | none => rw [hp] at h; exact absurd h (by simp)
      | some p =>
        rw [hp] at h
        simp only [] at h
        obtain ⟨n, hn, hit⟩ := ih a p h
        refine ⟨n + 1, Nat.succ_le_succ hn, ?_⟩
        rw [parentIter_succ, hp]
        exact hit

/-! ### Well-formedness: accessors and consequences -/

theorem WFb_iff (s : FS) :
    WFb s = true ↔
      rootOkb s = true ∧ childrenOkb s = true ∧ memChildb s = true ∧
        nodupb s = true ∧ rootedb s = true ∧ dirChildrenb s = true := by
  simp [WFb, Bool.and_eq_true, and_assoc]

theorem childrenOkb_iff (s : FS) :
    childrenOkb s = true ↔
      ∀ p c, c ∈ childrenOf s p → childOkAt s p c = true := by
  unfold childrenOkb
  rw [List.all_eq_true]
  constructor
  · intro h p c hc
    have hne : childrenOf s p ≠ [] := by
      intro he
      rw [he] at hc
      exact List.not_mem_nil c hc
    have hd : dent? s p ≠ none := by
      intro he
      apply hne
      unfold childrenOf
      rw [he]
    have hlt : p < s.dentries.length := by
      by_contra hge
      exact hd (dent?_eq_none_of_le (Nat.le_of_not_lt hge))
    have := h p (List.mem_range.mpr hlt)
    rw [List.all_eq_true] at this
    exact this c hc
  · intro h p _
    rw [List.all_eq_true]
    intro c hc
    exact h p c hc

theorem childOkAt_iff (s : FS) (p c : Nat) :
    childOkAt s p c = true ↔
      ∃ cd, dent? s c = some cd ∧ cd.parent = some p ∧ cd.inode.isSome = true := by
  unfold childOkAt
  cases h : dent? s c with
  | none => simp
  | some cd =>
    simp only [Bool.and_eq_true, beq_iff_eq]
    constructor
    · intro ⟨h1, h2⟩
      exact ⟨cd, rfl, h1, h2⟩
    · intro ⟨cd', he, h1, h2⟩
      cases Option.some.inj he
      exact ⟨h1, h2⟩

theorem memChildb_iff (s : FS) :
    memChildb s = true ↔
      ∀ c cd, dent? s c = some cd → cd.inode.isSome = true →
        (match cd.parent with
         | some p => c ∈ childrenOf s p
         | none => c = 0) := by
  unfold memChildb
  rw [List.all_eq_true]
  constructor
  · intro h c cd hc hpos
    have hlt : c < s.dentries.length := lt_of_dent?_eq_some hc
    have := h c (List.mem_range.mpr hlt)
    rw [hc] at this
    simp only [hpos, if_true] at this
    cases hp : cd.parent with
    | some p =>
      rw [hp] at this
      simp only [] at this
      exact of_decide_eq_true this
    | none =>
      rw [hp] at this
      simp only [] at this
      rwa [beq_iff_eq] at this
  · intro h c _
    cases hc : dent? s c with
    | none => rfl
    | some cd =>
      by_cases hpos : cd.inode.isSome = true
      · simp only [hpos, if_true]
        have := h c cd hc hpos
        cases hp : cd.parent with
        | some p => rw [hp] at this; exact decide_eq_true this
        | none =>
          rw [hp] at this
          show (c == 0) = true
          rwa [beq_iff_eq]
      · simp only [Bool.not_eq_true] at hpos
        simp [hpos]

theorem nodupb_iff (s : FS) :
    nodupb s = true ↔ ∀ p, (childrenOf s p).Nodup := by
  unfold nodupb
  rw [List.all_eq_true]
  constructor
  · intro h p
    by_cases hlt : p < s.dentries.length
    · exact of_decide_eq_true (h p (List.mem_range.mpr hlt))
    · have : childrenOf s p = [] := by
        unfold childrenOf
        rw [dent?_eq_none_of_le (Nat.le_of_not_lt hlt)]
      rw [this]
      exact List.nodup_nil
  · intro h p _
    exact decide_eq_true (h p)

theorem rootedb_iff (s : FS) :
    rootedb s = true ↔
      ∀ id, id < s.dentries.length → chainToRoot s s.dentries.length id = true := by
  unfold rootedb
  rw [List.all_eq_true]
  constructor
  · intro h id hlt
    exact h id (List.mem_range.mpr hlt)
  · intro h id hm
    exact h id (List.mem_range.mp hm)

theorem dirChildrenb_iff (s : FS) :
    dirChildrenb s = true ↔
      ∀ id, childrenOf s id ≠ [] → isDirAt s id = true := by
  unfold dirChildrenb
  rw [List.all_eq_true]
  constructor
  · intro h id hne
    have hd : dent? s id ≠ none := by
      intro he
      apply hne
      unfold childrenOf
      rw [he]
    have hlt : id < s.dentries.length := by
      by_contra hge
      exact hd (dent?_eq_none_of_le (Nat.le_of_not_lt hge))
    have := h id (List.mem_range.mpr hlt)
    rw [Bool.or_eq_true] at this
    cases this with
    | inl h' => exact absurd (List.isEmpty_iff.mp h') hne
    | inr h' => exact h'
  · intro h id _
    rw [Bool.or_eq_true]
    by_cases hne : childrenOf s id = []
    · exact Or.inl (by rw [hne]; rfl)
    · exact Or.inr (h id hne)

theorem rootOkb_iff (s : FS) :
    rootOkb s = true ↔
      ∃ d i, dent? s 0 = some d ∧ d.parent = none ∧ d.inode = some i ∧
        i.kind = IKind.dir := by
  unfold rootOkb
  cases h : dent? s 0 with
  | none => simp
  | some d =>
    simp only [Bool.and_eq_true, beq_iff_eq]
    constructor
    · intro ⟨h1, h2⟩
      cases hi : d.inode with
      | none => rw [hi] at h2; exact absurd h2 (by simp)
      | some i =>
        rw [hi] at h2
        exact ⟨d, i, rfl, h1, hi, by rwa [beq_iff_eq] at h2⟩
    · intro ⟨d', i, he, h1, h2, h3⟩
      cases Option.some.inj he
      refine ⟨h1, ?_⟩
      rw [h2]
      show (i.kind == IKind.dir) = true
      rw [beq_iff_eq]
      exact h3

theorem linkb_iff (s : FS) :
    linkb s = true ↔ ∀ id, linkOkAt s id = true := by
  unfold linkb
  rw [List.all_eq_true]
  constructor
  · intro h id
    by_cases hlt : id < s.dentries.length
    · exact h id (List.mem_range.mpr hlt)
    · unfold linkOkAt
      have : inode? s id = none := by
        unfold inode?
        rw [dent?_eq_none_of_le (Nat.le_of_not_lt hlt)]
        rfl
      rw [this]
  · intro h id _
    exact h id

theorem linkOkAt_dir {s : FS} {id : Nat} {i : Inode}
    (h : linkOkAt s id = true) (hi : inode? s id = some i)
    (hk : i.kind = IKind.dir) :
    i.nlink = 2 + (childrenOf s id).countP (fun c => isDirAt s c) := by
  unfold linkOkAt at h
  rw [hi] at h
  simp only [] at h
  rw [hk] at h
  simp at h
  exact h

/-- A positive dentry's listed membership: from `memChildb`. -/
theorem mem_children_of_positive {s : FS} {c p : Nat} {cd : Dentry}
    (hm : memChildb s = true) (hc : dent? s c = some cd)
    (hpos : cd.inode.isSome = true) (hp : cd.parent = some p) :
    c ∈ childrenOf s p := by
  have := (memChildb_iff s).mp hm c cd hc hpos
  rw [hp] at this
  exact this

/-- A listed child is positive with the right back-pointer: from
`childrenOkb`. -/
theorem child_facts {s : FS} {c p : Nat}
    (hw : childrenOkb s = true) (hc : c ∈ childrenOf s p) :
    ∃ cd, dent? s c = some cd ∧ cd.parent = some p ∧ cd.inode.isSome = true :=
  (childOkAt_iff s p c).mp ((childrenOkb_iff s).mp hw p c hc)

/-- A node cannot be its own strict ancestor (from rootedness). -/
theorem not_self_iter {s : FS} {id k : Nat}
    (hroot : rootedb s = true) (hlt : id < s.dentries.length) :
    parentIter s (k + 1) id ≠ some id :=
  cycleFree s.dentries.length id ((rootedb_iff s).mp hroot id hlt) k

/-- The parent of `t` is never inside `t`'s subtree. -/
theorem parent_not_descb {s : FS} {t pt : Nat}
    (hroot : rootedb s = true) (hlt : t < s.dentries.length)
    (hp : parentOf s t = some pt) : Descb s t pt = false := by
  by_contra h
  rw [Bool.not_eq_false] at h
  obtain ⟨n, _, hit⟩ := parentIter_of_inSub _ _ _ h
  have : parentIter s (n + 1) t = some t := by
    rw [parentIter_succ, hp]
    exact hit
  exact not_self_iter hroot hlt this

/-- `Descb` is reflexive (for a nonempty store). -/
theorem Descb_refl {s : FS} (h : 0 < s.dentries.length) (a : Nat) :
    Descb s a a = true := by
  unfold Descb
  obtain ⟨f, hf⟩ := Nat.exists_eq_succ_of_ne_zero (Nat.pos_iff_ne_zero.mp h)
  rw [hf]
  simp [inSub_succ]

/-- Transitivity: a child of a node in the subtree of `t` is in the
subtree of `t`. -/
theorem Descb_step {s : FS} {t c p : Nat}
    (hroot : rootedb s = true) (hc : c < s.dentries.length)
    (hp : parentOf s c = some p) (hd : Descb s t p = true) :
    Descb s t c = true := by
  obtain ⟨n, _, hit⟩ := parentIter_of_inSub _ _ _ hd
  have hit' : parentIter s (n + 1) c = some t := by
    rw [parentIter_succ, hp]
    exact hit
  obtain ⟨k, r, hk, hkit, hr⟩ :=
    chainToRoot_dist s.dentries.length c ((rootedb_iff s).mp hroot c hc)
  have hle : n + 1 ≤ k := parentIter_le_dist hit' hkit hr
  exact inSub_of_parentIter (n + 1) c t s.dentries.length hit'
    (Nat.lt_of_le_of_lt hle hk)

/-- Members of a subtree are below its root:
`Descb s t j = true` and `j ≠ t` imply `j`'s parent is also under `t`. -/
theorem Descb_parent {s : FS} {t j : Nat}
    (hd : Descb s t j = true) (hne : j ≠ t) :
    ∃ p, parentOf s j = some p ∧ Descb s t p = true := by
  obtain ⟨n, hn, hit⟩ := parentIter_of_inSub _ _ _ hd
  cases n with
  | zero =>
    rw [parentIter_zero] at hit
    exact absurd (Option.some.inj hit) hne
  | succ n =>
    rw [parentIter_succ] at hit
    cases hp : parentOf s j with
    | none => rw [hp] at hit; exact Option.noConfusion hit
    | some p =>
      rw [hp] at hit
      simp only [] at hit
      exact ⟨p, rfl, inSub_of_parentIter n p t s.dentries.length hit
        (Nat.lt_of_lt_of_le (Nat.lt_of_succ_le hn) (Nat.le_refl _))⟩

/-! ### The single removal step -/

theorem inode?_eq_of_dent? {s : FS} {id : Nat} {d : Dentry}
    (h : dent? s id = some d) : inode? s id = d.inode := by
  unfold inode?
  rw [h]
  rfl

theorem childrenOf_eq_of_dent? {s : FS} {id : Nat} {d : Dentry}
    (h : dent? s id = some d) : childrenOf s id = d.children := by
  unfold childrenOf
  rw [h]

theorem childrenOf_eq_nil_of_none {s : FS} {id : Nat}
    (h : dent? s id = none) : childrenOf s id = [] := by
  unfold childrenOf
  rw [h]

theorem dent?_dropNlinkAt_self (s : FS) (x : Nat) :
    dent? (dropNlinkAt s x) x =
      (dent? s x).map fun d =>
        { d with inode := d.inode.map fun i => { i with nlink := i.nlink - 1 } } :=
  dent?_mapInodeAt_self ..

theorem dent?_dropNlinkAt_ne (s : FS) {x j : Nat} (h : j ≠ x) :
    dent? (dropNlinkAt s x) j = dent? s j :=
  dent?_mapInodeAt_ne _ _ h

theorem dropNlinkAt_meta (s : FS) (x : Nat) :
    (dropNlinkAt s x).mountCount = s.mountCount ∧
    (dropNlinkAt s x).mounted = s.mounted ∧
    (dropNlinkAt s x).log = s.log ∧
    (dropNlinkAt s x).opts = s.opts ∧
    (dropNlinkAt s x).dentries.length = s.dentries.length :=
  ⟨modifyDent_mountCount .., modifyDent_mounted .., modifyDent_log ..,
   modifyDent_opts .., modifyDent_dentries_length ..⟩

theorem d_delete_char {s : FS} {c p : Nat} {cd : Dentry}
    (hc : dent? s c = some cd) (hpar : cd.parent = some p) (hcp : c ≠ p) :
    (∀ j, dent? (d_delete s c) j =
      if j = c then some { cd with inode := none }
      else if j = p then
        (dent? s p).map fun pd => { pd with children := pd.children.erase c }
      else dent? s j) ∧
    (d_delete s c).mountCount = s.mountCount ∧
    (d_delete s c).mounted = s.mounted ∧
    (d_delete s c).log = s.log ∧
    (d_delete s c).opts = s.opts ∧
    (d_delete s c).dentries.length = s.dentries.length := by
  unfold d_delete
  rw [hc]
  simp only []
  rw [hpar]
  simp only []
  refine ⟨?_, ?_, ?_, ?_, ?_, ?_⟩
  · intro j
    by_cases hjc : j = c
    · subst hjc
      rw [dent?_modifyDent_self, dent?_modifyDent_ne _ _ hcp, hc]
      simp [hpar]
    · by_cases hjp : j = p
      · subst hjp
        rw [dent?_modifyDent_ne _ _ hjc, dent?_modifyDent_self]
        simp [hjc, if_neg (Ne.symm hcp)]
      · rw [dent?_modifyDent_ne _ _ hjc, dent?_modifyDent_ne _ _ hjp]
        simp [hjc, hjp]
  · rw [modifyDent_mountCount, modifyDent_mountCount]
  · rw [modifyDent_mounted, modifyDent_mounted]
  · rw [modifyDent_log, modifyDent_log]
  · rw [modifyDent_opts, modifyDent_opts]
  · rw [modifyDent_dentries_length, modifyDent_dentries_length]

theorem __debugfs_remove_spec {s : FS} {c p : Nat} {cd : Dentry}
    (hc : dent? s c = some cd) (hpar : cd.parent = some p)
    (hino : cd.inode.isSome = true) (hleaf : cd.children = [])
    (hcp : c ≠ p) :
    (__debugfs_remove s c p).2 = 0 ∧
      RemovedState s c p cd (__debugfs_remove s c p).1 := by
  have hpos : debugfs_positive s c = true := by
    unfold debugfs_positive
    rw [inode?_eq_of_dent? hc]
    exact hino
  have hchildren : childrenOf s c = [] := by
    rw [childrenOf_eq_of_dent? hc, hleaf]
  by_cases hdir : isDirAt s c = true
  · have hrm : __debugfs_remove s c p =
        (d_delete (dropNlinkAt (dropNlinkAt (dropNlinkAt s c) c) p) c, 0) := by
      simp only [__debugfs_remove, simple_rmdir, simple_empty, simple_unlink,
        hpos, hdir, hchildren, List.isEmpty_nil, Bool.not_true, if_true,
        Bool.false_eq_true, if_false, ite_true, ite_false]
    rw [hrm]
    refine ⟨rfl, ?_⟩
    set s1 := dropNlinkAt s c with hs1
    set s2 := dropNlinkAt s1 c with hs2
    set s3 := dropNlinkAt s2 p with hs3
    have hc3 : dent? s3 c = some { cd with
        inode := (cd.inode.map fun i => { i with nlink := i.nlink - 1 }).map
          fun i => { i with nlink := i.nlink - 1 } } := by
      rw [hs3, dent?_dropNlinkAt_ne _ hcp, hs2, dent?_dropNlinkAt_self, hs1,
        dent?_dropNlinkAt_self, hc]
      rfl
    obtain ⟨hchar, hmc, hmt, hlg, hop, hlen⟩ := d_delete_char hc3 hpar hcp
    have hm1 := dropNlinkAt_meta s c
    have hm2 := dropNlinkAt_meta s1 c
    have hm3 := dropNlinkAt_meta s2 p
    refine ⟨?_, ?_, ?_, ?_, ?_, ?_⟩
    · rw [hlen, hs3, hm3.2.2.2.2, hs2, hm2.2.2.2.2, hs1, hm1.2.2.2.2]
    · rw [hmc, hs3, hm3.1, hs2, hm2.1, hs1, hm1.1]
    · rw [hmt, hs3, hm3.2.1, hs2, hm2.2.1, hs1, hm1.2.1]
    · rw [hlg, hs3, hm3.2.2.1, hs2, hm2.2.2.1, hs1, hm1.2.2.1]
    · rw [hop, hs3, hm3.2.2.2.1, hs2, hm2.2.2.2.1, hs1, hm1.2.2.2.1]
    · intro j
      rw [hchar j]
      by_cases hjc : j = c
      · simp [hjc]
      · by_cases hjp : j = p
        · subst hjp
          simp only [hjc, if_false, if_pos rfl]
          rw [hs3, dent?_dropNlinkAt_self, hs2, dent?_dropNlinkAt_ne _ (Ne.symm hcp),
            hs1, dent?_dropNlinkAt_ne _ (Ne.symm hcp)]
          cases hpd : dent? s j with
          | none => rfl
          | some pd =>
            simp only [Option.map_some', hdir, if_true]
        · simp only [hjc, hjp, if_false]
          rw [hs3, dent?_dropNlinkAt_ne _ hjp, hs2, dent?_dropNlinkAt_ne _ hjc,
            hs1, dent?_dropNlinkAt_ne _ hjc]
  · rw [Bool.not_eq_true] at hdir
    have hrm : __debugfs_remove s c p = (d_delete (dropNlinkAt s c) c, 0) := by
      simp only [__debugfs_remove, simple_rmdir, simple_empty, simple_unlink,
        hpos, hdir, hchildren, List.isEmpty_nil, Bool.not_true, if_true,
        Bool.false_eq_true, if_false, ite_true, ite_false]
    rw [hrm]
    refine ⟨rfl, ?_⟩
    set s1 := dropNlinkAt s c with hs1
    have hc1 : dent? s1 c = some { cd with
        inode := cd.inode.map fun i => { i with nlink := i.nlink - 1 } } := by
      rw [hs1, dent?_dropNlinkAt_self, hc]
      rfl
    obtain ⟨hchar, hmc, hmt, hlg, hop, hlen⟩ := d_delete_char hc1 hpar hcp
    have hm1 := dropNlinkAt_meta s c
    refine ⟨hlen.trans hm1.2.2.2.2, hmc.trans hm1.1, hmt.trans hm1.2.1,
      hlg.trans hm1.2.2.1, hop.trans hm1.2.2.2.1, ?_⟩
    intro j
    rw [hchar j]
    by_cases hjc : j = c
    · simp [hjc]
    · by_cases hjp : j = p
      · subst hjp
        simp only [hjc, if_false, if_pos rfl]
        rw [hs1, dent?_dropNlinkAt_ne _ (Ne.symm hcp)]
        cases hpd : dent? s j with
        | none => rfl
        | some pd =>
          simp only [Option.map_some', hdir, Bool.false_eq_true, if_false]
          cases pd.inode <;> rfl
      · simp only [hjc, hjp, if_false]
        rw [hs1, dent?_dropNlinkAt_ne _ hjc]

theorem countP_congr_mem {l : List Nat} {p q : Nat → Bool}
    (h : ∀ a ∈ l, p a = q a) : l.countP p = l.countP q := by
  induction l with
  | nil => rfl
  | cons a t ih =>
    rw [List.countP_cons, List.countP_cons, h a (List.mem_cons_self a t),
      ih (fun x hx => h x (List.mem_cons_of_mem a hx))]

theorem countP_erase_mem {l : List Nat} {c : Nat} (p : Nat → Bool) (hmem : c ∈ l) :
    l.countP p = (l.erase c).countP p + (if p c then 1 else 0) := by
  have hperm := List.perm_cons_erase hmem
  rw [hperm.countP_eq p, List.countP_cons]

theorem dent?_of_children_ne_nil {s : FS} {p : Nat} (h : childrenOf s p ≠ []) :
    ∃ pd, dent? s p = some pd := by
  unfold childrenOf at h
  cases hd : dent? s p with
  | none => rw [hd] at h; exact absurd rfl h
  | some pd => exact ⟨pd, rfl⟩

/-! Consequences of `RemovedState`. -/

theorem RemovedState_parent_shape {s s' : FS} {c p : Nat} {cd : Dentry}
    (h : RemovedState s c p cd s') (hc : dent? s c = some cd) :
    ∀ j, (dent? s' j).map Dentry.parent = (dent? s j).map Dentry.parent := by
  obtain ⟨_, _, _, _, _, hchar⟩ := h
  intro j
  rw [hchar j]
  by_cases hjc : j = c
  · subst hjc
    rw [if_pos rfl, hc]
    rfl
  · rw [if_neg hjc]
    by_cases hjp : j = p
    · subst hjp
      rw [if_pos rfl]
      cases dent? s j <;> rfl
    · rw [if_neg hjp]

theorem RemovedState_positive {s s' : FS} {c p : Nat} {cd : Dentry}
    (h : RemovedState s c p cd s') :
    ∀ j, debugfs_positive s' j = if j = c then false else debugfs_positive s j := by
  obtain ⟨_, _, _, _, _, hchar⟩ := h
  intro j
  unfold debugfs_positive inode?
  rw [hchar j]
  by_cases hjc : j = c
  · simp [hjc]
  · rw [if_neg hjc, if_neg hjc]
    by_cases hjp : j = p
    · subst hjp
      rw [if_pos rfl]
      cases dent? s j with
      | none => rfl
      | some pd =>
        simp only [Option.map_some', Option.bind]
        cases pd.inode <;> rfl
    · rw [if_neg hjp]

theorem RemovedState_isDir {s s' : FS} {c p : Nat} {cd : Dentry}
    (h : RemovedState s c p cd s') :
    ∀ j, isDirAt s' j = if j = c then false else isDirAt s j := by
  obtain ⟨_, _, _, _, _, hchar⟩ := h
  intro j
  unfold isDirAt inode?
  rw [hchar j]
  by_cases hjc : j = c
  · simp [hjc]
  · rw [if_neg hjc, if_neg hjc]
    by_cases hjp : j = p
    · subst hjp
      rw [if_pos rfl]
      cases dent? s j with
      | none => rfl
      | some pd =>
        simp only [Option.map_some', Option.bind]
        cases pd.inode with
        | none => rfl
        | some i =>
          simp only [Option.map_some']
          by_cases hdc : isDirAt s c = true
          · rw [hdc]
            simp
          · rw [Bool.not_eq_true] at hdc
            rw [hdc]
            simp
    · rw [if_neg hjp]

theorem RemovedState_children {s s' : FS} {c p : Nat} {cd : Dentry}
    (h : RemovedState s c p cd s') (hc : dent? s c = some cd) :
    ∀ j, childrenOf s' j =
      if j = c then cd.children
      else if j = p then (childrenOf s p).erase c
      else childrenOf s j := by
  obtain ⟨_, _, _, _, _, hchar⟩ := h
  intro j
  unfold childrenOf
  rw [hchar j]
  by_cases hjc : j = c
  · simp [hjc]
  · rw [if_neg hjc, if_neg hjc]
    by_cases hjp : j = p
    · subst hjp
      rw [if_pos rfl, if_pos rfl]
      cases dent? s j <;> rfl
    · rw [if_neg hjp, if_neg hjp]

theorem RemovedState_WF {s s' : FS} {c p : Nat} {cd : Dentry}
    (hw : WFb s = true) (h : RemovedState s c p cd s')
    (hc : dent? s c = some cd) (hpar : cd.parent = some p)
    (hino : cd.inode.isSome = true) (hleaf : cd.children = [])
    (hcp : c ≠ p) : WFb s' = true := by
  obtain ⟨hroot, hcok, hmem, hnd, hrtd, hdc⟩ := (WFb_iff s).mp hw
  have hlen : s'.dentries.length = s.dentries.length := h.1
  have hchar := h.2.2.2.2.2
  have hshape := RemovedState_parent_shape h hc
  have hposf := RemovedState_positive h
  have hdirf := RemovedState_isDir h
  have hchf := RemovedState_children h hc
  have hclt : c < s.dentries.length := lt_of_dent?_eq_some hc
  have hcmem : c ∈ childrenOf s p := mem_children_of_positive hmem hc hino hpar
  have hpne : childrenOf s p ≠ [] := fun he => by rw [he] at hcmem; cases hcmem
  obtain ⟨pd, hpd⟩ := dent?_of_children_ne_nil hpne
  have hplt : p < s.dentries.length := lt_of_dent?_eq_some hpd
  have hc0 : c ≠ 0 := by
    intro he
    subst he
    obtain ⟨d0, i0, hd0, hp0, _, _⟩ := (rootOkb_iff s).mp hroot
    rw [hc] at hd0
    cases Option.some.inj hd0
    rw [hpar] at hp0
    exact Option.noConfusion hp0
  have hnoself : ∀ q, q < s.dentries.length → parentOf s q ≠ some q := by
    intro q hq hself
    have : parentIter s (0 + 1) q = some q := by
      rw [parentIter_succ, hself]
      rfl
    exact not_self_iter hrtd hq this
  have hppos : debugfs_positive s p = true := by
    have := (dirChildrenb_iff s).mp hdc p hpne
    unfold isDirAt at this
    unfold debugfs_positive
    cases hip : inode? s p with
    | none => rw [hip] at this; simp at this
    | some i => rfl
  rw [WFb_iff]
  refine ⟨?_, ?_, ?_, ?_, ?_, ?_⟩
  · -- rootOkb
    rw [rootOkb_iff]
    obtain ⟨d0, i0, hd0, hp0, hi0, hk0⟩ := (rootOkb_iff s).mp hroot
    rw [hchar 0, if_neg (Ne.symm hc0)]
    by_cases h0p : (0 : Nat) = p
    · subst h0p
      rw [if_pos rfl]
      rw [hd0] at hpd
      cases Option.some.inj hpd
      rw [hd0]
      simp only [Option.map_some']
      refine ⟨_,
        (if isDirAt s c = true then { i0 with nlink := i0.nlink - 1 } else i0),
        rfl, hp0, ?_, ?_⟩
      · rw [hi0]
        rfl
      · split <;> exact hk0
    · rw [if_neg h0p]
      exact ⟨d0, i0, hd0, hp0, hi0, hk0⟩
  · -- childrenOkb
    rw [childrenOkb_iff]
    intro q x hx
    rw [hchf q] at hx
    rw [childOkAt_iff]
    by_cases hqc : q = c
    · rw [if_pos hqc, hleaf] at hx
      cases hx
    · rw [if_neg hqc] at hx
      by_cases hqp : q = p
      · subst hqp
        rw [if_pos rfl] at hx
        have hxmem : x ∈ childrenOf s q := List.mem_of_mem_erase hx
        have hxnec : x ≠ c := ((List.Nodup.mem_erase_iff ((nodupb_iff s).mp hnd q)).mp hx).1
        obtain ⟨xd, hxd, hxp, hxi⟩ := child_facts hcok hxmem
        have hxneq : x ≠ q := by
          intro he
          subst he
          exact hnoself x (lt_of_dent?_eq_some hxd) (by
            rw [parentOf_eq_of_dent? hxd, hxp])
        refine ⟨xd, ?_, hxp, hxi⟩
        rw [hchar x, if_neg hxnec, if_neg hxneq]
        exact hxd
      · rw [if_neg hqp] at hx
        obtain ⟨xd, hxd, hxp, hxi⟩ := child_facts hcok hx
        have hxnec : x ≠ c := by
          intro he
          subst he
          rw [hc] at hxd
          cases Option.some.inj hxd
          rw [hpar] at hxp
          exact hqp (Option.some.inj hxp).symm
        by_cases hxp' : x = p
        · have hxd' : dent? s' x = some { xd with
              children := xd.children.erase c,
              inode := xd.inode.map fun i =>
                if isDirAt s c = true then { i with nlink := i.nlink - 1 } else i } := by
            have hxdp : dent? s p = some xd := by rw [← hxp']; exact hxd
            rw [hchar x, if_neg hxnec, if_pos hxp', hxdp]
            rfl
          refine ⟨_, hxd', hxp, ?_⟩
          cases hxio : xd.inode with
          | none => rw [hxio] at hxi; cases hxi
          | some i => rfl
        · refine ⟨xd, ?_, hxp, hxi⟩
          rw [hchar x, if_neg hxnec, if_neg hxp']
          exact hxd
  · -- memChildb
    rw [memChildb_iff]
    intro x xd' hx hxpos
    rw [hchar x] at hx
    by_cases hxc : x = c
    · rw [if_pos hxc] at hx
      cases Option.some.inj hx
      simp at hxpos
    · rw [if_neg hxc] at hx
      by_cases hxp : x = p
      · subst hxp
        rw [if_pos rfl, hpd] at hx
        simp only [Option.map_some'] at hx
        cases Option.some.inj hx
        have hpdpos : pd.inode.isSome = true := by
          cases hio : pd.inode with
          | none => simp [hio] at hxpos
          | some i => rfl
        have := (memChildb_iff s).mp hmem x pd hpd hpdpos
        cases hq : pd.parent with
        | none =>
          rw [hq] at this
          simp only []
          exact this
        | some q =>
          rw [hq] at this
          simp only []
          have hqnec : q ≠ c := by
            intro he
            subst he
            have : x ∈ childrenOf s q := this
            rw [childrenOf_eq_of_dent? hc, hleaf] at this
            cases this
          have hqnex : q ≠ x := by
            intro he
            rw [he] at hq
            exact hnoself x hplt (by rw [parentOf_eq_of_dent? hpd, hq])
          rw [hchf q, if_neg hqnec, if_neg (fun he : q = x => hqnex he)]
          exact this
      · rw [if_neg hxp] at hx
        have := (memChildb_iff s).mp hmem x xd' hx hxpos
        cases hq : xd'.parent with
        | none =>
          rw [hq] at this
          simp only []
          exact this
        | some q =>
          rw [hq] at this
          simp only []
          have hqnec : q ≠ c := by
            intro he
            subst he
            have hm : x ∈ childrenOf s q := this
            rw [childrenOf_eq_of_dent? hc, hleaf] at hm
            cases hm
          rw [hchf q, if_neg hqnec]
          by_cases hqp : q = p
          · subst hqp
            rw [if_pos rfl]
            exact List.mem_erase_of_ne hxc |>.mpr this
          · rw [if_neg hqp]
            exact this
  · -- nodupb
    rw [nodupb_iff]
    intro q
    rw [hchf q]
    by_cases hqc : q = c
    · rw [if_pos hqc, hleaf]
      exact List.nodup_nil
    · rw [if_neg hqc]
      by_cases hqp : q = p
      · rw [if_pos hqp]
        exact List.Nodup.erase c ((nodupb_iff s).mp hnd p)
      · rw [if_neg hqp]
        exact (nodupb_iff s).mp hnd q
  · -- rootedb
    rw [rootedb_congr hlen hshape]
    exact hrtd
  · -- dirChildrenb
    rw [dirChildrenb_iff]
    intro q hq
    rw [hchf q] at hq
    rw [hdirf q]
    by_cases hqc : q = c
    · rw [if_pos hqc, hleaf] at hq
      exact absurd rfl hq
    · rw [if_neg hqc] at hq
      rw [if_neg hqc]
      by_cases hqp : q = p
      · subst hqp
        rw [if_pos rfl] at hq
        have : childrenOf s q ≠ [] := by
          intro he
          rw [he] at hq
          simp at hq
        exact (dirChildrenb_iff s).mp hdc q this
      · rw [if_neg hqp] at hq
        exact (dirChildrenb_iff s).mp hdc q hq

theorem linkOkAt_intro {s : FS} {id : Nat}
    (h : ∀ i, inode? s id = some i → i.kind = IKind.dir →
      i.nlink = 2 + (childrenOf s id).countP (fun x => isDirAt s x)) :
    linkOkAt s id = true := by
  unfold linkOkAt
  cases hi : inode? s id with
  | none => rfl
  | some i =>
    simp only []
    by_cases hk : i.kind = IKind.dir
    · simp only [hk, beq_self_eq_true, if_true]
      rw [beq_iff_eq]
      exact h i hi hk
    · have hne : (i.kind == IKind.dir) = false := by
        rw [beq_eq_false_iff_ne]
        exact hk
      rw [hne]
      simp

theorem RemovedState_linkb {s s' : FS} {c p : Nat} {cd : Dentry}
    (hw : WFb s = true) (hl : linkb s = true) (h : RemovedState s c p cd s')
    (hc : dent? s c = some cd) (hpar : cd.parent = some p)
    (hino : cd.inode.isSome = true) (hleaf : cd.children = [])
    (hcp : c ≠ p) : linkb s' = true := by
  obtain ⟨hroot, hcok, hmem, hnd, hrtd, hdc⟩ := (WFb_iff s).mp hw
  have hchar := h.2.2.2.2.2
  have hdirf := RemovedState_isDir h
  have hchf := RemovedState_children h hc
  have hposf := RemovedState_positive h
  have hcmem : c ∈ childrenOf s p := mem_children_of_positive hmem hc hino hpar
  obtain ⟨pd, hpd⟩ := dent?_of_children_ne_nil
    (fun he => by rw [he] at hcmem; cases hcmem)
  rw [linkb_iff]
  intro id
  apply linkOkAt_intro
  intro i' hi' hk'
  by_cases hidc : id = c
  · exfalso
    have hneg : debugfs_positive s' id = false := by
      rw [hposf id, if_pos hidc]
    unfold debugfs_positive at hneg
    rw [hi'] at hneg
    simp at hneg
  · by_cases hidp : id = p
    · rw [hidp] at hi' ⊢
      unfold inode? at hi'
      rw [hchar p, if_neg (Ne.symm hcp), if_pos rfl, hpd] at hi'
      simp only [Option.map_some'] at hi'
      have hmap : pd.inode.map (fun i =>
          if isDirAt s c = true then { i with nlink := i.nlink - 1 } else i) =
          some i' := hi'
      cases hpio : pd.inode with
      | none => rw [hpio] at hmap; simp at hmap
      | some i =>
        rw [hpio] at hmap
        simp only [Option.map_some'] at hmap
        have hieq := Option.some.inj hmap
        have hkind : i.kind = IKind.dir := by
          rw [← hk', ← hieq]
          split <;> rfl
        have hold : i.nlink = 2 + (childrenOf s p).countP (fun x => isDirAt s x) := by
          refine linkOkAt_dir ((linkb_iff s).mp hl p) ?_ hkind
          rw [inode?_eq_of_dent? hpd, hpio]
        have hsplit := countP_erase_mem (l := childrenOf s p) (c := c)
          (fun x => isDirAt s x) hcmem
        simp only [] at hsplit
        have hcongr : ((childrenOf s p).erase c).countP (fun x => isDirAt s' x) =
            ((childrenOf s p).erase c).countP (fun x => isDirAt s x) := by
          apply countP_congr_mem
          intro x hx
          have hxnec : x ≠ c :=
            ((List.Nodup.mem_erase_iff ((nodupb_iff s).mp hnd p)).mp hx).1
          rw [hdirf x, if_neg hxnec]
        rw [hchf p, if_neg (Ne.symm hcp), if_pos rfl, hcongr]
        rw [← hieq]
        by_cases hdcc : isDirAt s c = true
        · simp only [hdcc, eq_self_iff_true, if_true] at hsplit ⊢
          show i.nlink - 1 = 2 + List.countP (fun x => isDirAt s x) ((childrenOf s p).erase c)
          omega
        · rw [Bool.not_eq_true] at hdcc
          simp only [hdcc, Bool.false_eq_true, if_false] at hsplit ⊢
          omega
    · unfold inode? at hi'
      rw [hchar id, if_neg hidc, if_neg hidp] at hi'
      have hi'' : inode? s id = some i' := hi'
      have hold : i'.nlink = 2 + (childrenOf s id).countP (fun x => isDirAt s x) :=
        linkOkAt_dir ((linkb_iff s).mp hl id) hi'' hk'
      have hcnotin : c ∉ childrenOf s id := by
        intro hcin
        obtain ⟨cd', hcd', hcp', _⟩ := child_facts hcok hcin
        rw [hc] at hcd'
        cases Option.some.inj hcd'
        rw [hpar] at hcp'
        exact hidp (Option.some.inj hcp').symm
      have hcongr : (childrenOf s id).countP (fun x => isDirAt s' x) =
          (childrenOf s id).countP (fun x => isDirAt s x) := by
        apply countP_congr_mem
        intro x hx
        have hxnec : x ≠ c := fun he => hcnotin (he ▸ hx)
        rw [hdirf x, if_neg hxnec]
      rw [hchf id, if_neg hidc, if_neg hidp, hcongr]
      exact hold

theorem countP_range_flip {len c : Nat} {pr pr' : Nat → Bool}
    (hclt : c < len) (hprc : pr c = true)
    (hflip : ∀ x, pr' x = if x = c then false else pr x) :
    (List.range len).countP pr = (List.range len).countP pr' + 1 := by
  have hcmem : c ∈ List.range len := List.mem_range.mpr hclt
  have h1 := countP_erase_mem pr hcmem
  have h2 := countP_erase_mem pr' hcmem
  rw [hprc] at h1
  rw [hflip c, if_pos rfl] at h2
  simp only [eq_self_iff_true, if_true, Bool.false_eq_true, if_false] at h1 h2
  have hcongr : ((List.range len).erase c).countP pr' =
      ((List.range len).erase c).countP pr := by
    apply countP_congr_mem
    intro x hx
    have hxnec : x ≠ c :=
      ((List.Nodup.mem_erase_iff (List.nodup_range len)).mp hx).1
    rw [hflip x, if_neg hxnec]
  omega

theorem RemovedState_liveCount {s s' : FS} {c p : Nat} {cd : Dentry}
    (h : RemovedState s c p cd s') (hc : dent? s c = some cd)
    (hino : cd.inode.isSome = true) (hc0 : c ≠ 0) :
    liveCount s = liveCount s' + 1 := by
  have hposf := RemovedState_positive h
  unfold liveCount
  rw [h.1]
  refine countP_range_flip (lt_of_dent?_eq_some hc) ?_ ?_
  · have : debugfs_positive s c = true := by
      unfold debugfs_positive
      rw [inode?_eq_of_dent? hc]
      exact hino
    simp [hc0, this]
  · intro x
    rw [hposf x]
    by_cases hxc : x = c
    · simp [hxc]
    · simp [hxc]

theorem RemovedState_posUnder {s s' : FS} {c p t : Nat} {cd : Dentry}
    (h : RemovedState s c p cd s') (hc : dent? s c = some cd)
    (hino : cd.inode.isSome = true) (hdesc : Descb s t c = true) :
    posUnder s t = posUnder s' t + 1 := by
  have hposf := RemovedState_positive h
  have hdescc : ∀ a b, Descb s' a b = Descb s a b :=
    Descb_congr h.1 (RemovedState_parent_shape h hc)
  unfold posUnder
  rw [h.1]
  refine countP_range_flip (lt_of_dent?_eq_some hc) ?_ ?_
  · have : debugfs_positive s c = true := by
      unfold debugfs_positive
      rw [inode?_eq_of_dent? hc]
      exact hino
    simp [this, hdesc]
  · intro x
    rw [hposf x, hdescc t x]
    by_cases hxc : x = c
    · simp [hxc]
    · simp [hxc]

/-! ### Removal entry points -/

theorem __debugfs_remove_negative {s : FS} {id p : Nat}
    (h : debugfs_positive s id = false) : __debugfs_remove s id p = (s, 0) := by
  unfold __debugfs_remove
  rw [h]
  simp

/-- C10: `debugfs_remove` and `debugfs_remove_recursive` return
immediately, touching nothing, when handed a NULL or ERR pointer, a
dentry with no parent, or one whose parent has no live inode. -/
theorem C10_noop_guards (s : FS) (id : Nat) (d : Dentry) (e : Int) :
    debugfs_remove s Ref.null = s ∧
    debugfs_remove s (Ref.err e) = s ∧
    debugfs_remove_recursive s Ref.null = s ∧
    debugfs_remove_recursive s (Ref.err e) = s ∧
    (dent? s id = some d → d.parent = none →
      debugfs_remove s (Ref.ptr id) = s ∧
      debugfs_remove_recursive s (Ref.ptr id) = s) ∧
    (∀ p, dent? s id = some d → d.parent = some p → inode? s p = none →
      debugfs_remove s (Ref.ptr id) = s ∧
      debugfs_remove_recursive s (Ref.ptr id) = s) := by
  refine ⟨rfl, rfl, rfl, rfl, ?_, ?_⟩
  · intro hd hp
    constructor
    · unfold debugfs_remove
      simp only []
      rw [hd]
      simp only []
      rw [hp]
    · unfold debugfs_remove_recursive debugfs_remove_recursive_trace
      simp only []
      rw [hd]
      simp only []
      rw [hp]
  · intro p hd hp hip
    constructor
    · unfold debugfs_remove
      simp only []
      rw [hd]
      simp only []
      rw [hp]
      simp only []
      rw [hip]
    · unfold debugfs_remove_recursive debugfs_remove_recursive_trace
      simp only []
      rw [hd]
      simp only []
      rw [hp]
      simp only []
      rw [hip]

/-- C10 witness: a concrete state whose node 1 sits under a parent with
no live inode; both removal functions leave it untouched. -/
theorem C10_witness :
    inode? stDeadParent 0 = none ∧
    debugfs_remove stDeadParent (Ref.ptr 1) = stDeadParent ∧
    debugfs_remove_recursive stDeadParent (Ref.ptr 1) = stDeadParent := by
  have h := (C10_noop_guards stDeadParent 1
    { name := "q", parent := some 0,
      inode := some { kind := IKind.reg, nlink := 1, perm := 0, uid := 0, gid := 0 },
      children := [], mnt := false } (-2)).2.2.2.2.2 0 rfl rfl rfl
  exact ⟨rfl, h.1, h.2⟩

/-- C3 counterexample: after creating file `f` and removing it, a second
`debugfs_remove` on the stale pointer changes the observable state: the
dentry tree is untouched but the mount pin counter drops from 0 to −1 —
`simple_release_fs` runs on the no-op call because `__debugfs_remove`
returns 0 for a negative dentry too. -/
theorem C3_counterexample :
    stFRemoved.mountCount = 0 ∧
    stFRemovedTwice.mountCount = -1 ∧
    stFRemovedTwice.dentries = stFRemoved.dentries ∧
    stFRemovedTwice ≠ stFRemoved := by
  refine ⟨rfl, rfl, rfl, ?_⟩
  decide

/-- C3 (amended): a second removal of an already-removed (negative)
dentry leaves the dentry tree unchanged, and `__debugfs_remove` reports
0 — "success" — for the no-op as well, so `debugfs_remove` invokes
`simple_release_fs` again and the pin counter drops by one more. -/
theorem C3_second_remove (s : FS) (id p : Nat) (d : Dentry) (i : Inode)
    (hc : dent? s id = some d) (hneg : d.inode = none)
    (hp : d.parent = some p) (hip : inode? s p = some i) :
    __debugfs_remove s id p = (s, 0) ∧
    debugfs_remove s (Ref.ptr id) = simple_release_fs s ∧
    (debugfs_remove s (Ref.ptr id)).dentries = s.dentries ∧
    (debugfs_remove s (Ref.ptr id)).mountCount = s.mountCount - 1 := by
  have hpos : debugfs_positive s id = false := by
    unfold debugfs_positive
    rw [inode?_eq_of_dent? hc, hneg]
    rfl
  have hrm := __debugfs_remove_negative (p := p) hpos
  have hfull : debugfs_remove s (Ref.ptr id) = simple_release_fs s := by
    unfold debugfs_remove
    simp only []
    rw [hc]
    simp only []
    rw [hp]
    simp only []
    rw [hip]
    simp only []
    rw [hrm]
    rfl
  refine ⟨hrm, hfull, ?_, ?_⟩
  · rw [hfull]
    rfl
  · rw [hfull]
    rfl

/-- C3 witness: the amended statement instantiated on the concrete
removed-file state. -/
theorem C3_witness :
    dent? stFRemoved 1 = some { name := "f", parent := some 0, inode := none,
                                children := [], mnt := false } ∧
    stFRemovedTwice.mountCount = stFRemoved.mountCount - 1 := by
  have h := C3_second_remove stFRemoved 1 0
    { name := "f", parent := some 0, inode := none, children := [], mnt := false }
    rootInode rfl rfl rfl rfl
  exact ⟨rfl, h.2.2.2⟩

/-- C2: `debugfs_rename` fails, returning NULL with the tree completely
unchanged, whenever the target name already denotes a positive child of
the new parent (which is also the only way the looked-up dentry can be
the trap), or the source dentry is the trap, is negative, or is a
mountpoint. -/
theorem C2_rename_rejects (s : FS) (oldDir oldId newDir : Nat) (newName : String)
    (h : (∃ c, lookup_one_len s newDir newName = some c) ∨
         lock_rename_trap s newDir oldDir = some oldId ∨
         inode? s oldId = none ∨
         d_mountpoint s oldId = true) :
    debugfs_rename s oldDir oldId newDir newName = (s, none) := by
  unfold debugfs_rename
  by_cases g1 : ((inode? s oldDir).isNone || (inode? s newDir).isNone) = true
  · rw [if_pos g1]
  · rw [if_neg g1]
    by_cases g2 : ((inode? s oldId).isNone ||
        (lock_rename_trap s newDir oldDir == some oldId) ||
        d_mountpoint s oldId) = true
    · rw [if_pos g2]
    · rw [if_neg g2]
      cases hlk : lookup_one_len s newDir newName with
      | some c => simp only []
      | none =>
        exfalso
        rw [Bool.not_eq_true] at g2
        rw [Bool.or_eq_false_iff, Bool.or_eq_false_iff] at g2
        obtain ⟨⟨gneg, gtrap⟩, gmnt⟩ := g2
        cases h with
        | inl h => obtain ⟨c, hch⟩ := h; rw [hch] at hlk; exact Option.noConfusion hlk
        | inr h =>
          cases h with
          | inl h =>
            rw [beq_eq_false_iff_ne] at gtrap
            exact gtrap h
          | inr h =>
            cases h with
            | inl h =>
              rw [h] at gneg
              simp at gneg
            | inr h =>
              rw [h] at gmnt
              exact Bool.noConfusion gmnt

/-- C2 witness: the cyclic rename from the concrete two-directory
scenario (`x` with child `y`; moving `x` under `y`) is rejected with the
tree unchanged. -/
theorem C2_witness :
    lock_rename_trap stXY 2 0 = some 1 ∧
    debugfs_rename stXY 0 1 2 "x2" = (stXY, none) := by
  refine ⟨rfl, ?_⟩
  exact C2_rename_rejects stXY 0 1 2 "x2" (Or.inr (Or.inl rfl))

/-! ### Creation paths -/

theorem simple_pin_fs_fail {s : FS} {a : Bool}
    (hm : s.mountCount = 0) (ha : a = false) :
    simple_pin_fs a s = ({ s with log := s.log ++ [Ev.pin] }, -EPERM) := by
  unfold simple_pin_fs
  rw [ha]
  simp [hm]

theorem simple_pin_fs_attach {s : FS} {a : Bool}
    (hm : s.mountCount = 0) (ha : a = true) :
    simple_pin_fs a s =
      ({ s with mountCount := 1, mounted := true, log := s.log ++ [Ev.pin] }, 0) := by
  unfold simple_pin_fs
  rw [ha]
  simp [hm]

theorem simple_pin_fs_again {s : FS} {a : Bool} (hm : s.mountCount ≠ 0) :
    simple_pin_fs a s =
      ({ s with mountCount := s.mountCount + 1, log := s.log ++ [Ev.pin] }, 0) := by
  unfold simple_pin_fs
  simp [hm]

theorem simple_release_fs_eq (s : FS) :
    simple_release_fs s =
      { s with
        mountCount := s.mountCount - 1,
        mounted := if s.mountCount - 1 = 0 then false else s.mounted,
        log := s.log ++ [Ev.unpin] } := rfl

theorem lookup_congr {s s' : FS} (h : s'.dentries = s.dentries)
    (dirId : Nat) (name : String) :
    lookup_one_len s' dirId name = lookup_one_len s dirId name := by
  unfold lookup_one_len dent?
  rw [h]

theorem dent?_congr_dentries {s s' : FS} (h : s'.dentries = s.dentries)
    (j : Nat) : dent? s' j = dent? s j := by
  unfold dent?
  rw [h]

theorem debugfs_mknod_found (s : FS) (dirId : Nat) (c : Nat) (name : String)
    (kind : IKind) (perm : Nat) (aOk : Bool) :
    debugfs_mknod s dirId (some c) name kind perm aOk = (s, -EEXIST, none) := rfl

theorem debugfs_mknod_nomem (s : FS) (dirId : Nat) (name : String)
    (kind : IKind) (perm : Nat) :
    debugfs_mknod s dirId none name kind perm false = (s, -EPERM, none) := rfl

/-- The store after a successful `debugfs_mknod`: the fresh dentry is
appended and consed onto the parent's child list. -/
theorem debugfs_mknod_char (s : FS) (dirId : Nat) (name : String)
    (kind : IKind) (perm : Nat) (hdlt : dirId < s.dentries.length) :
    (debugfs_mknod s dirId none name kind perm true).2.1 = 0 ∧
    (debugfs_mknod s dirId none name kind perm true).2.2 = some s.dentries.length ∧
    (debugfs_mknod s dirId none name kind perm true).1.dentries.length =
      s.dentries.length + 1 ∧
    (debugfs_mknod s dirId none name kind perm true).1.mountCount = s.mountCount ∧
    (debugfs_mknod s dirId none name kind perm true).1.mounted = s.mounted ∧
    (debugfs_mknod s dirId none name kind perm true).1.log = s.log ∧
    (debugfs_mknod s dirId none name kind perm true).1.opts = s.opts ∧
    ∀ j, dent? (debugfs_mknod s dirId none name kind perm true).1 j =
      if j = s.dentries.length then
        some { name := name, parent := some dirId,
               inode := some (debugfs_get_inode kind perm),
               children := [], mnt := false }
      else if j = dirId then
        (dent? s j).map fun d =>
          { d with children := s.dentries.length :: d.children }
      else dent? s j := by
  have hne : dirId ≠ s.dentries.length := Nat.ne_of_lt hdlt
  have hEq : debugfs_mknod s dirId none name kind perm true =
      (modifyDent { s with dentries := s.dentries ++
          [{ name := name, parent := some dirId,
             inode := some (debugfs_get_inode kind perm),
             children := [], mnt := false }] } dirId
        (fun d => { d with children := s.dentries.length :: d.children }),
       0, some s.dentries.length) := rfl
  rw [hEq]
  set sApp : FS := { s with dentries := s.dentries ++
    [{ name := name, parent := some dirId,
       inode := some (debugfs_get_inode kind perm),
       children := [], mnt := false }] } with hsApp
  have hAppLen : sApp.dentries.length = s.dentries.length + 1 := by
    rw [hsApp]
    simp
  have hApp : ∀ j, dent? sApp j =
      if j = s.dentries.length then
        some { name := name, parent := some dirId,
               inode := some (debugfs_get_inode kind perm),
               children := [], mnt := false }
      else dent? s j := by
    intro j
    by_cases hj : j = s.dentries.length
    · subst hj
      rw [if_pos rfl]
      show (s.dentries ++ [_]).get? s.dentries.length = _
      rw [List.get?_concat_length]
    · rw [if_neg hj]
      rcases Nat.lt_or_ge j s.dentries.length with hlt | hge
      · show (s.dentries ++ [_]).get? j = s.dentries.get? j
        rw [List.get?_append hlt]
      · have hgt : s.dentries.length < j := Nat.lt_of_le_of_ne hge (Ne.symm hj)
        have h1 : dent? sApp j = none := by
          apply dent?_eq_none_of_le
          rw [hAppLen]
          omega
        have h2 : dent? s j = none := dent?_eq_none_of_le (Nat.le_of_lt hgt)
        rw [h1, h2]
  refine ⟨rfl, rfl, ?_, ?_, ?_, ?_, ?_, ?_⟩
  · rw [modifyDent_dentries_length, hAppLen]
  · rw [modifyDent_mountCount]
  · rw [modifyDent_mounted]
  · rw [modifyDent_log]
  · rw [modifyDent_opts]
  · intro j
    by_cases hjd : j = dirId
    · subst hjd
      rw [dent?_modifyDent_self, hApp j, if_neg hne, if_neg hne, if_pos rfl]
    · rw [dent?_modifyDent_ne _ _ hjd, hApp j]
      by_cases hjn : j = s.dentries.length
      · rw [if_pos hjn, if_pos hjn]
      · rw [if_neg hjn, if_neg hjn, if_neg hjd]

theorem debugfs_mkdir_eq (s : FS) (dirId : Nat) (found : Option Nat)
    (name : String) (perm : Nat) (aOk : Bool) :
    debugfs_mkdir s dirId found name perm aOk =
      (match debugfs_mknod s dirId found name IKind.dir perm aOk with
       | (s', res, newId) =>
         if res = 0 then (incNlinkAt s' dirId, res, newId) else (s', res, newId)) := rfl

theorem debugfs_mknod_eq (s : FS) (dirId : Nat) (name : String)
    (kind : IKind) (perm : Nat) :
    debugfs_mknod s dirId none name kind perm true =
      (modifyDent { s with dentries := s.dentries ++
          [{ name := name, parent := some dirId,
             inode := some (debugfs_get_inode kind perm),
             children := [], mnt := false }] } dirId
        (fun d => { d with children := s.dentries.length :: d.children }),
       0, some s.dentries.length) := rfl

theorem debugfs_link_eq (s : FS) (dirId : Nat) (found : Option Nat)
    (name : String) (perm : Nat) (aOk : Bool) :
    debugfs_link s dirId found name perm aOk =
      debugfs_mknod s dirId found name IKind.lnk perm aOk := rfl

theorem debugfs_create_eq (s : FS) (dirId : Nat) (found : Option Nat)
    (name : String) (perm : Nat) (aOk : Bool) :
    debugfs_create s dirId found name perm aOk =
      debugfs_mknod s dirId found name IKind.reg perm aOk := rfl

theorem simple_pin_fs_ok {s : FS} {tOk : Bool} (h : s.mountCount = 0 → tOk = true) :
    simple_pin_fs tOk s =
      ({ s with
          mountCount := s.mountCount + 1,
          mounted := if s.mountCount = 0 then true else s.mounted,
          log := s.log ++ [Ev.pin] }, 0) := by
  by_cases hm : s.mountCount = 0
  · rw [simple_pin_fs_attach hm (h hm)]
    rw [hm]
    simp
  · rw [simple_pin_fs_again hm]
    simp [hm]

theorem pin_then_release (s : FS) :
    simple_release_fs { s with
        mountCount := s.mountCount + 1,
        mounted := if s.mountCount = 0 then true else s.mounted,
        log := s.log ++ [Ev.pin] } =
      { s with
          mounted := if s.mountCount = 0 then false else s.mounted,
          log := s.log ++ [Ev.pin, Ev.unpin] } := by
  rw [simple_release_fs_eq]
  simp only [Int.add_sub_cancel, List.append_assoc]
  by_cases hm : s.mountCount = 0
  · simp [hm]
  · simp [hm]

theorem __create_file_pin_fail (s : FS) (name : String) (kind : IKind)
    (perm : Nat) (parent : Option Nat) (aOk : Bool)
    (hm : s.mountCount = 0) :
    __create_file s name kind perm parent aOk false =
      ({ s with log := s.log ++ [Ev.pin] }, none) := by
  unfold __create_file
  rw [simple_pin_fs_fail hm rfl]
  simp only []
  rw [if_pos (by decide : (-EPERM : Int) ≠ 0)]

theorem __create_file_exists {s : FS} {name : String} {parent : Option Nat} {c : Nat}
    (kind : IKind) (perm : Nat) (aOk : Bool) {tOk : Bool}
    (hp : s.mountCount = 0 → tOk = true)
    (hlk : lookup_one_len s (parent.getD 0) name = some c) :
    __create_file s name kind perm parent aOk tOk =
      ({ s with
          mounted := if s.mountCount = 0 then false else s.mounted,
          log := s.log ++ [Ev.pin, Ev.unpin] }, none) := by
  unfold __create_file
  rw [simple_pin_fs_ok hp]
  simp only []
  rw [if_neg (fun h : (0 : Int) ≠ 0 => h rfl)]
  have hlk' : lookup_one_len { s with
      mountCount := s.mountCount + 1,
      mounted := if s.mountCount = 0 then true else s.mounted,
      log := s.log ++ [Ev.pin] } (parent.getD 0) name = some c := by
    rw [lookup_congr rfl]
    exact hlk
  rw [hlk']
  cases kind with
  | dir =>
    rw [debugfs_mkdir_eq, debugfs_mknod_found]
    simp only []
    rw [if_neg (by decide : ¬(-EEXIST : Int) = 0)]
    simp only []
    rw [if_pos (by decide : (-EEXIST : Int) ≠ 0), pin_then_release]
  | lnk =>
    rw [debugfs_link_eq, debugfs_mknod_found]
    simp only []
    rw [if_pos (by decide : (-EEXIST : Int) ≠ 0), pin_then_release]
  | reg =>
    rw [debugfs_create_eq, debugfs_mknod_found]
    simp only []
    rw [if_pos (by decide : (-EEXIST : Int) ≠ 0), pin_then_release]
  | special =>
    rw [debugfs_create_eq, debugfs_mknod_found]
    simp only []
    rw [if_pos (by decide : (-EEXIST : Int) ≠ 0), pin_then_release]

theorem __create_file_nomem {s : FS} {name : String} {parent : Option Nat}
    (kind : IKind) (perm : Nat) {tOk : Bool}
    (hp : s.mountCount = 0 → tOk = true)
    (hlk : lookup_one_len s (parent.getD 0) name = none) :
    __create_file s name kind perm parent false tOk =
      ({ s with
          mounted := if s.mountCount = 0 then false else s.mounted,
          log := s.log ++ [Ev.pin, Ev.unpin] }, none) := by
  unfold __create_file
  rw [simple_pin_fs_ok hp]
  simp only []
  rw [if_neg (fun h : (0 : Int) ≠ 0 => h rfl)]
  have hlk' : lookup_one_len { s with
      mountCount := s.mountCount + 1,
      mounted := if s.mountCount = 0 then true else s.mounted,
      log := s.log ++ [Ev.pin] } (parent.getD 0) name = none := by
    rw [lookup_congr rfl]
    exact hlk
  rw [hlk']
  cases kind with
  | dir =>
    rw [debugfs_mkdir_eq, debugfs_mknod_nomem]
    simp only []
    rw [if_neg (by decide : ¬(-EPERM : Int) = 0)]
    simp only []
    rw [if_pos (by decide : (-EPERM : Int) ≠ 0), pin_then_release]
  | lnk =>
    rw [debugfs_link_eq, debugfs_mknod_nomem]
    simp only []
    rw [if_pos (by decide : (-EPERM : Int) ≠ 0), pin_then_release]
  | reg =>
    rw [debugfs_create_eq, debugfs_mknod_nomem]
    simp only []
    rw [if_pos (by decide : (-EPERM : Int) ≠ 0), pin_then_release]
  | special =>
    rw [debugfs_create_eq, debugfs_mknod_nomem]
    simp only []
    rw [if_pos (by decide : (-EPERM : Int) ≠ 0), pin_then_release]

/-- The successful creation path, characterized: the result is the fresh
id, one pin is retained, and the store gains exactly the new dentry,
consed onto the parent's child list (with the parent's link count bumped
for a new directory). -/
theorem __create_file_success {s : FS} {name : String} {parent : Option Nat}
    (kind : IKind) (perm : Nat) {tOk : Bool}
    (hp : s.mountCount = 0 → tOk = true)
    (hlk : lookup_one_len s (parent.getD 0) name = none)
    (hplt : parent.getD 0 < s.dentries.length) :
    (__create_file s name kind perm parent true tOk).2 = some s.dentries.length ∧
    (__create_file s name kind perm parent true tOk).1.mountCount = s.mountCount + 1 ∧
    (__create_file s name kind perm parent true tOk).1.mounted =
      (if s.mountCount = 0 then true else s.mounted) ∧
    (__create_file s name kind perm parent true tOk).1.log = s.log ++ [Ev.pin] ∧
    (__create_file s name kind perm parent true tOk).1.opts = s.opts ∧
    (__create_file s name kind perm parent true tOk).1.dentries.length =
      s.dentries.length + 1 ∧
    ∀ j, dent? (__create_file s name kind perm parent true tOk).1 j =
      if j = s.dentries.length then some (newDentry (parent.getD 0) name kind perm)
      else if j = parent.getD 0 then
        (dent? s j).map fun d =>
          { d with
            children := s.dentries.length :: d.children,
            inode := if kind = IKind.dir then
                d.inode.map (fun i => { i with nlink := i.nlink + 1 })
              else d.inode }
      else dent? s j := by
  set pid := parent.getD 0 with hpid
  set sP : FS := { s with
    mountCount := s.mountCount + 1,
    mounted := if s.mountCount = 0 then true else s.mounted,
    log := s.log ++ [Ev.pin] } with hsP
  have hPdent : sP.dentries = s.dentries := rfl
  have hPlen : sP.dentries.length = s.dentries.length := rfl
  have hplt' : pid < sP.dentries.length := by rw [hPlen]; exact hplt
  have hlk' : lookup_one_len sP pid name = none := by
    rw [lookup_congr hPdent]
    exact hlk
  have hbody : ∀ knd,
      (match (match knd with
              | IKind.dir => debugfs_mkdir sP pid (lookup_one_len sP pid name) name perm true
              | IKind.lnk => debugfs_link sP pid (lookup_one_len sP pid name) name perm true
              | _ => debugfs_create sP pid (lookup_one_len sP pid name) name perm true) with
       | (s, error, newId) =>
         if error ≠ 0 then (simple_release_fs s, none) else (s, newId)) =
      __create_file s name knd perm parent true tOk := by
    intro knd
    unfold __create_file
    rw [simple_pin_fs_ok hp]
    simp only []
    rw [if_neg (fun h : (0 : Int) ≠ 0 => h rfl)]
  cases kind with
  | dir =>
    obtain ⟨_, _, hclen, hcmc, hcmt, hclg, hcop, hcd⟩ :=
      debugfs_mknod_char sP pid name IKind.dir perm hplt'
    have heq : __create_file s name IKind.dir perm parent true tOk =
        (incNlinkAt (debugfs_mknod sP pid none name IKind.dir perm true).1 pid,
         some sP.dentries.length) := by
      rw [← hbody IKind.dir, hlk']
      rfl
    rw [heq, incNlinkAt_eq]
    refine ⟨rfl, ?_, ?_, ?_, ?_, ?_, ?_⟩
    · rw [mapInodeAt_mountCount, hcmc]
    · rw [mapInodeAt_mounted, hcmt]
    · rw [mapInodeAt_log, hclg]
    · rw [mapInodeAt_opts, hcop]
    · rw [mapInodeAt_dentries_length, hclen, hPlen]
    · intro j
      have hnewne : ¬ pid = sP.dentries.length := Nat.ne_of_lt hplt'
      have hnewne' : ¬ pid = s.dentries.length := Nat.ne_of_lt hplt
      by_cases hjp : j = pid
      · rw [hjp, dent?_mapInodeAt_self, hcd pid, if_neg hnewne, if_pos rfl,
          if_neg hnewne', if_pos rfl]
        rw [show dent? sP pid = dent? s pid from rfl]
        cases dent? s pid with
        | none => rfl
        | some d => simp
      · rw [dent?_mapInodeAt_ne _ _ hjp, hcd j]
        by_cases hjn : j = sP.dentries.length
        · have hjn' : j = s.dentries.length := hjn
          rw [if_pos hjn, if_pos hjn']
          rfl
        · have hjn' : ¬ j = s.dentries.length := hjn
          rw [if_neg hjn, if_neg hjp, if_neg hjn', if_neg hjp]
          rfl
  | lnk =>
    obtain ⟨_, _, hclen, hcmc, hcmt, hclg, hcop, hcd⟩ :=
      debugfs_mknod_char sP pid name IKind.lnk perm hplt'
    have heq : __create_file s name IKind.lnk perm parent true tOk =
        ((debugfs_mknod sP pid none name IKind.lnk perm true).1,
         some sP.dentries.length) := by
      rw [← hbody IKind.lnk, hlk']
      rfl
    rw [heq]
    refine ⟨rfl, hcmc, hcmt, hclg, hcop, by rw [hclen, hPlen], ?_⟩
    intro j
    rw [hcd j, hPlen]
    have hids : IKind.lnk ≠ IKind.dir := by decide
    by_cases hjn : j = s.dentries.length
    · rw [if_pos hjn, if_pos hjn]
      rfl
    · rw [if_neg hjn, if_neg hjn]
      by_cases hjp : j = pid
      · rw [if_pos hjp, if_pos hjp]
        rw [show dent? sP j = dent? s j from rfl]
        cases dent? s j with
        | none => rfl
        | some d => simp [hids]
      · rw [if_neg hjp, if_neg hjp]
        rfl
  | reg =>
    obtain ⟨_, _, hclen, hcmc, hcmt, hclg, hcop, hcd⟩ :=
      debugfs_mknod_char sP pid name IKind.reg perm hplt'
    have heq : __create_file s name IKind.reg perm parent true tOk =
        ((debugfs_mknod sP pid none name IKind.reg perm true).1,
         some sP.dentries.length) := by
      rw [← hbody IKind.reg, hlk']
      rfl
    rw [heq]
    refine ⟨rfl, hcmc, hcmt, hclg, hcop, by rw [hclen, hPlen], ?_⟩
    intro j
    rw [hcd j, hPlen]
    have hids : IKind.reg ≠ IKind.dir := by decide
    by_cases hjn : j = s.dentries.length
    · rw [if_pos hjn, if_pos hjn]
      rfl
    · rw [if_neg hjn, if_neg hjn]
      by_cases hjp : j = pid
      · rw [if_pos hjp, if_pos hjp]
        rw [show dent? sP j = dent? s j from rfl]
        cases dent? s j with
        | none => rfl
        | some d => simp [hids]
      · rw [if_neg hjp, if_neg hjp]
        rfl
  | special =>
    obtain ⟨_, _, hclen, hcmc, hcmt, hclg, hcop, hcd⟩ :=
      debugfs_mknod_char sP pid name IKind.reg perm hplt'
    have heq : __create_file s name IKind.special perm parent true tOk =
        ((debugfs_mknod sP pid none name IKind.reg perm true).1,
         some sP.dentries.length) := by
      rw [← hbody IKind.special, hlk']
      rfl
    rw [heq]
    refine ⟨rfl, hcmc, hcmt, hclg, hcop, by rw [hclen, hPlen], ?_⟩
    intro j
    rw [hcd j, hPlen]
    have hids : IKind.special ≠ IKind.dir := by decide
    by_cases hjn : j = s.dentries.length
    · rw [if_pos hjn, if_pos hjn]
      rfl
    · rw [if_neg hjn, if_neg hjn]
      by_cases hjp : j = pid
      · rw [if_pos hjp, if_pos hjp]
        rw [show dent? sP j = dent? s j from rfl]
        cases dent? s j with
        | none => rfl
        | some d => simp [hids]
      · rw [if_neg hjp, if_neg hjp]
        rfl

/-- C5: with a positive child of the requested name already present,
every creation operation fails — `debugfs_mknod` reports `-EEXIST` and
the API returns NULL — leaving the dentry store (hence the parent's
child set) unchanged; with no such child present, creation succeeds and
exactly one new positive node is linked at the insertion end of the
parent's child list. -/
theorem C5_create_unique (s : FS) (name : String) (perm : Nat)
    (parent : Option Nat) (tOk : Bool)
    (hp : s.mountCount = 0 → tOk = true)
    (hplt : parent.getD 0 < s.dentries.length) :
    (∀ c, lookup_one_len s (parent.getD 0) name = some c →
      (∀ kind aOk,
        debugfs_mknod s (parent.getD 0) (some c) name kind perm aOk =
          (s, -EEXIST, none)) ∧
      (∀ aOk, (debugfs_create_file s name perm parent aOk tOk).2 = none ∧
        (debugfs_create_file s name perm parent aOk tOk).1.dentries = s.dentries) ∧
      (∀ aOk, (debugfs_create_dir s name parent aOk tOk).2 = none ∧
        (debugfs_create_dir s name parent aOk tOk).1.dentries = s.dentries) ∧
      (∀ sOk aOk, (debugfs_create_symlink s name parent sOk aOk tOk).2 = none ∧
        (debugfs_create_symlink s name parent sOk aOk tOk).1.dentries = s.dentries)) ∧
    (lookup_one_len s (parent.getD 0) name = none →
      ((debugfs_create_file s name perm parent true tOk).2 =
          some s.dentries.length ∧
        childrenOf (debugfs_create_file s name perm parent true tOk).1
            (parent.getD 0) =
          s.dentries.length :: childrenOf s (parent.getD 0) ∧
        debugfs_positive (debugfs_create_file s name perm parent true tOk).1
          s.dentries.length = true) ∧
      ((debugfs_create_dir s name parent true tOk).2 = some s.dentries.length ∧
        childrenOf (debugfs_create_dir s name parent true tOk).1 (parent.getD 0) =
          s.dentries.length :: childrenOf s (parent.getD 0) ∧
        debugfs_positive (debugfs_create_dir s name parent true tOk).1
          s.dentries.length = true) ∧
      ((debugfs_create_symlink s name parent true true tOk).2 =
          some s.dentries.length ∧
        childrenOf (debugfs_create_symlink s name parent true true tOk).1
            (parent.getD 0) =
          s.dentries.length :: childrenOf s (parent.getD 0) ∧
        debugfs_positive (debugfs_create_symlink s name parent true true tOk).1
          s.dentries.length = true)) := by
  obtain ⟨pd, hpd⟩ := dent?_eq_some_of_lt hplt
  constructor
  · intro c hlk
    refine ⟨fun kind aOk => debugfs_mknod_found .., ?_, ?_, ?_⟩
    · intro aOk
      unfold debugfs_create_file
      rw [__create_file_exists IKind.reg perm aOk hp hlk]
      exact ⟨rfl, rfl⟩
    · intro aOk
      unfold debugfs_create_dir
      rw [__create_file_exists IKind.dir 0o755 aOk hp hlk]
      exact ⟨rfl, rfl⟩
    · intro sOk aOk
      unfold debugfs_create_symlink
      cases sOk with
      | false => exact ⟨rfl, rfl⟩
      | true =>
        rw [show (!true) = false from rfl]
        rw [if_neg (fun h : false = true => Bool.noConfusion h)]
        rw [__create_file_exists IKind.lnk 0o777 aOk hp hlk]
        exact ⟨rfl, rfl⟩
  · intro hlk
    have hfile := @__create_file_success s name parent IKind.reg perm tOk hp hlk hplt
    have hdir := @__create_file_success s name parent IKind.dir 0o755 tOk hp hlk hplt
    have hlnk := @__create_file_success s name parent IKind.lnk 0o777 tOk hp hlk hplt
    have hgen : ∀ kind perm',
        (∀ j, dent? (__create_file s name kind perm' parent true tOk).1 j =
          if j = s.dentries.length then
            some (newDentry (parent.getD 0) name kind perm')
          else if j = parent.getD 0 then
            (dent? s j).map fun d =>
              { d with
                children := s.dentries.length :: d.children,
                inode := if kind = IKind.dir then
                    d.inode.map (fun i => { i with nlink := i.nlink + 1 })
                  else d.inode }
          else dent? s j) →
        childrenOf (__create_file s name kind perm' parent true tOk).1
            (parent.getD 0) =
          s.dentries.length :: childrenOf s (parent.getD 0) ∧
        debugfs_positive (__create_file s name kind perm' parent true tOk).1
          s.dentries.length = true := by
      intro kind perm' hcd
      constructor
      · unfold childrenOf
        rw [hcd (parent.getD 0), if_neg (Nat.ne_of_lt hplt), if_pos rfl, hpd]
        simp only [Option.map_some']
      · unfold debugfs_positive inode?
        rw [hcd s.dentries.length, if_pos rfl]
        rfl
    refine ⟨⟨hfile.1, hgen IKind.reg perm hfile.2.2.2.2.2.2⟩,
      ⟨hdir.1, hgen IKind.dir 0o755 hdir.2.2.2.2.2.2⟩, ⟨?_, ?_⟩⟩
    · show (__create_file s name IKind.lnk 0o777 parent true tOk).2 = _
      exact hlnk.1
    · have := hgen IKind.lnk 0o777 hlnk.2.2.2.2.2.2
      exact this

/-- C5 witness: in the `a`/`b` tree, creating `b` under `a` again fails
with the child list untouched, while creating a fresh `e` under `a`
succeeds and links exactly one new positive node. -/
theorem C5_witness :
    (stAB.mountCount = 0 → true = true) ∧
    (some 1 : Option Nat).getD 0 < stAB.dentries.length ∧
    lookup_one_len stAB 1 "b" = some 2 ∧
    (debugfs_create_file stAB "b" 420 (some 1) true true).2 = none ∧
    (debugfs_create_file stAB "b" 420 (some 1) true true).1.dentries = stAB.dentries ∧
    lookup_one_len stAB 1 "e" = none ∧
    (debugfs_create_file stAB "e" 420 (some 1) true true).2 = some 3 ∧
    childrenOf (debugfs_create_file stAB "e" 420 (some 1) true true).1 1 =
      3 :: childrenOf stAB 1 := by
  have h := C5_create_unique stAB "b" 420 (some 1) true (fun _ => rfl) (by decide)
  have h2 := C5_create_unique stAB "e" 420 (some 1) true (fun _ => rfl) (by decide)
  refine ⟨fun _ => rfl, by decide, rfl, ((h.1 2 rfl).2.1 true).1,
    ((h.1 2 rfl).2.1 true).2, rfl, (h2.2 rfl).1.1, (h2.2 rfl).1.2.1⟩

/-- C6 counterexample: when the backing-store attach fails, the creation
returns NULL having called `pin()` only — `simple_pin_fs` rolls its own
increment back internally and `__create_file` exits without calling
`unpin()`, contradicting "on every failure path calls unpin() before
returning". -/
theorem C6_counterexample :
    (__create_file initFS "x" IKind.reg 420 none true false).2 = none ∧
    (__create_file initFS "x" IKind.reg 420 none true false).1.log = [Ev.pin] ∧
    Ev.unpin ∉ (__create_file initFS "x" IKind.reg 420 none true false).1.log := by
  refine ⟨rfl, rfl, by decide⟩

/-- C6 (amended): `__create_file` calls `pin()` first on every path.  On
the failure paths that follow a successful pin (name exists,
out-of-memory) it calls `unpin()` before returning NULL; when the pin
itself fails it returns NULL at once with no `unpin()` (the pin already
rolled back internally).  Every failure leaves the pin count net
unchanged, and success returns the new node with exactly one pin
retained. -/
theorem C6_create_pin_discipline (s : FS) (name : String) (kind : IKind)
    (perm : Nat) (parent : Option Nat) (aOk tOk : Bool)
    (hplt : parent.getD 0 < s.dentries.length) :
    ((__create_file s name kind perm parent aOk tOk).2 = none →
      (__create_file s name kind perm parent aOk tOk).1.mountCount = s.mountCount ∧
      ((__create_file s name kind perm parent aOk tOk).1.log = s.log ++ [Ev.pin] ∨
       (__create_file s name kind perm parent aOk tOk).1.log =
         s.log ++ [Ev.pin, Ev.unpin])) ∧
    (∀ id, (__create_file s name kind perm parent aOk tOk).2 = some id →
      (__create_file s name kind perm parent aOk tOk).1.mountCount =
        s.mountCount + 1 ∧
      (__create_file s name kind perm parent aOk tOk).1.log =
        s.log ++ [Ev.pin]) := by
  by_cases hpin : s.mountCount = 0 ∧ tOk = false
  · obtain ⟨hm, ht⟩ := hpin
    rw [ht, __create_file_pin_fail s name kind perm parent aOk hm]
    exact ⟨fun _ => ⟨rfl, Or.inl rfl⟩, fun id h => Option.noConfusion h⟩
  · have hp : s.mountCount = 0 → tOk = true := by
      intro hm
      cases htv : tOk with
      | true => rfl
      | false => exact absurd ⟨hm, htv⟩ hpin
    cases hlk : lookup_one_len s (parent.getD 0) name with
    | some c =>
      rw [__create_file_exists kind perm aOk hp hlk]
      exact ⟨fun _ => ⟨rfl, Or.inr rfl⟩, fun id h => Option.noConfusion h⟩
    | none =>
      cases aOk with
      | false =>
        rw [__create_file_nomem kind perm hp hlk]
        exact ⟨fun _ => ⟨rfl, Or.inr rfl⟩, fun id h => Option.noConfusion h⟩
      | true =>
        have hs := __create_file_success kind perm hp hlk hplt
        constructor
        · intro hnone
          rw [hs.1] at hnone
          exact Option.noConfusion hnone
        · intro id _
          exact ⟨hs.2.1, hs.2.2.2.1⟩

/-- C6 witness: the amended statement on the pristine state — a
successful creation retains exactly one pin; a duplicate-name creation
pins then unpins. -/
theorem C6_witness :
    (0 : Nat) < initFS.dentries.length ∧
    (__create_file initFS "y" IKind.reg 420 none true true).2 = some 1 ∧
    (__create_file initFS "y" IKind.reg 420 none true true).1.mountCount =
      initFS.mountCount + 1 ∧
    (__create_file initFS "y" IKind.reg 420 none true true).1.log =
      initFS.log ++ [Ev.pin] := by
  have h := (C6_create_pin_discipline initFS "y" IKind.reg 420 none true true
    (by decide)).2 1 rfl
  exact ⟨by decide, rfl, h.1, h.2⟩

/-! ### Pin balance over call sequences (C4) -/

theorem positive_eq_of_dentries {s s' : FS} (h : s'.dentries = s.dentries)
    (j : Nat) : debugfs_positive s' j = debugfs_positive s j := by
  unfold debugfs_positive inode? dent?
  rw [h]

theorem positive_modifyDent {s : FS} {id : Nat} {f : Dentry → Dentry}
    (hf : ∀ d, ((f d).inode).isSome = d.inode.isSome) (j : Nat) :
    debugfs_positive (modifyDent s id f) j = debugfs_positive s j := by
  unfold debugfs_positive inode?
  by_cases hj : j = id
  · rw [hj, dent?_modifyDent_self]
    cases hd : dent? s id with
    | none => rfl
    | some d =>
      simp only [Option.map_some']
      show ((f d).inode).isSome = d.inode.isSome
      exact hf d
  · rw [dent?_modifyDent_ne _ _ hj]

theorem positive_mapInodeAt (s : FS) (id : Nat) (f : Inode → Inode) (j : Nat) :
    debugfs_positive (mapInodeAt s id f) j = debugfs_positive s j := by
  unfold mapInodeAt
  exact positive_modifyDent (f := fun d => { d with inode := d.inode.map f })
    (fun d => by show (d.inode.map f).isSome = d.inode.isSome
                 cases d.inode <;> rfl) j

theorem positive_append {s : FS} {d : Dentry}
    (hpos : d.inode.isSome = true) (j : Nat) :
    debugfs_positive { s with dentries := s.dentries ++ [d] } j =
      if j = s.dentries.length then true else debugfs_positive s j := by
  unfold debugfs_positive inode?
  by_cases hj : j = s.dentries.length
  · rw [if_pos hj]
    have : dent? { s with dentries := s.dentries ++ [d] } j = some d := by
      show (s.dentries ++ [d]).get? j = some d
      rw [hj, List.get?_concat_length]
    rw [this]
    exact hpos
  · rw [if_neg hj]
    rcases Nat.lt_or_ge j s.dentries.length with hlt | hge
    · have : dent? { s with dentries := s.dentries ++ [d] } j = dent? s j := by
        show (s.dentries ++ [d]).get? j = s.dentries.get? j
        rw [List.get?_append hlt]
      rw [this]
    · have hgt : s.dentries.length < j := Nat.lt_of_le_of_ne hge (Ne.symm hj)
      have h1 : dent? { s with dentries := s.dentries ++ [d] } j = none := by
        apply dent?_eq_none_of_le
        show (s.dentries ++ [d]).length ≤ j
        simp only [List.length_append, List.length_cons, List.length_nil]
        omega
      have h2 : dent? s j = none := dent?_eq_none_of_le (Nat.le_of_lt hgt)
      rw [h1, h2]

/-- The successful creation path without any validity assumption on the
parent pointer: what it does to the counters and to positivity. -/
theorem __create_file_success_meta {s : FS} {name : String} {parent : Option Nat}
    (kind : IKind) (perm : Nat) {tOk : Bool}
    (hp : s.mountCount = 0 → tOk = true)
    (hlk : lookup_one_len s (parent.getD 0) name = none) :
    (__create_file s name kind perm parent true tOk).2 = some s.dentries.length ∧
    (__create_file s name kind perm parent true tOk).1.mountCount =
      s.mountCount + 1 ∧
    (__create_file s name kind perm parent true tOk).1.mounted =
      (if s.mountCount = 0 then true else s.mounted) ∧
    (__create_file s name kind perm parent true tOk).1.dentries.length =
      s.dentries.length + 1 ∧
    ∀ j, debugfs_positive (__create_file s name kind perm parent true tOk).1 j =
      if j = s.dentries.length then true else debugfs_positive s j := by
  set pid := parent.getD 0 with hpid
  set sP : FS := { s with
    mountCount := s.mountCount + 1,
    mounted := if s.mountCount = 0 then true else s.mounted,
    log := s.log ++ [Ev.pin] } with hsP
  have hlk' : lookup_one_len sP pid name = none := by
    rw [lookup_congr rfl]
    exact hlk
  have hbody : ∀ knd,
      (match (match knd with
              | IKind.dir => debugfs_mkdir sP pid (lookup_one_len sP pid name) name perm true
              | IKind.lnk => debugfs_link sP pid (lookup_one_len sP pid name) name perm true
              | _ => debugfs_create sP pid (lookup_one_len sP pid name) name perm true) with
       | (s, error, newId) =>
         if error ≠ 0 then (simple_release_fs s, none) else (s, newId)) =
      __create_file s name knd perm parent true tOk := by
    intro knd
    unfold __create_file
    rw [simple_pin_fs_ok hp]
    simp only []
    rw [if_neg (fun h : (0 : Int) ≠ 0 => h rfl)]
  set sApp : FS → IKind → FS := fun sb k => { sb with dentries := sb.dentries ++
    [{ name := name, parent := some pid,
       inode := some (debugfs_get_inode k perm),
       children := [], mnt := false }] } with hsApp
  have hposM : ∀ k j,
      debugfs_positive
        (modifyDent (sApp sP k) pid
          (fun d => { d with children := sP.dentries.length :: d.children })) j =
      if j = s.dentries.length then true else debugfs_positive s j := by
    intro k j
    rw [positive_modifyDent
      (f := fun d => { d with children := sP.dentries.length :: d.children })
      (fun d => rfl) j]
    rw [hsApp]
    simp only []
    have := positive_append (s := sP)
      (d := { name := name, parent := some pid,
              inode := some (debugfs_get_inode k perm),
              children := [], mnt := false }) rfl j
    rw [this]
    rw [@positive_eq_of_dentries s sP rfl j]
  cases kind with
  | dir =>
    have heq : __create_file s name IKind.dir perm parent true tOk =
        (incNlinkAt (modifyDent (sApp sP IKind.dir) pid
          (fun d => { d with children := sP.dentries.length :: d.children })) pid,
         some sP.dentries.length) := by
      rw [← hbody IKind.dir, hlk']
      rfl
    rw [heq, incNlinkAt_eq]
    refine ⟨rfl, ?_, ?_, ?_, ?_⟩
    · rw [mapInodeAt_mountCount, modifyDent_mountCount]
    · rw [mapInodeAt_mounted, modifyDent_mounted]
    · rw [mapInodeAt_dentries_length, modifyDent_dentries_length]
      show (sP.dentries ++ [_]).length = s.dentries.length + 1
      simp
    · intro j
      rw [positive_mapInodeAt]
      exact hposM IKind.dir j
  | lnk =>
    have heq : __create_file s name IKind.lnk perm parent true tOk =
        (modifyDent (sApp sP IKind.lnk) pid
          (fun d => { d with children := sP.dentries.length :: d.children }),
         some sP.dentries.length) := by
      rw [← hbody IKind.lnk, hlk']
      rfl
    rw [heq]
    refine ⟨rfl, ?_, ?_, ?_, fun j => hposM IKind.lnk j⟩
    · rw [modifyDent_mountCount]
    · rw [modifyDent_mounted]
    · rw [modifyDent_dentries_length]
      show (sP.dentries ++ [_]).length = s.dentries.length + 1
      simp
  | reg =>
    have heq : __create_file s name IKind.reg perm parent true tOk =
        (modifyDent (sApp sP IKind.reg) pid
          (fun d => { d with children := sP.dentries.length :: d.children }),
         some sP.dentries.length) := by
      rw [← hbody IKind.reg, hlk']
      rfl
    rw [heq]
    refine ⟨rfl, ?_, ?_, ?_, fun j => hposM IKind.reg j⟩
    · rw [modifyDent_mountCount]
    · rw [modifyDent_mounted]
    · rw [modifyDent_dentries_length]
      show (sP.dentries ++ [_]).length = s.dentries.length + 1
      simp
  | special =>
    have heq : __create_file s name IKind.special perm parent true tOk =
        (modifyDent (sApp sP IKind.reg) pid
          (fun d => { d with children := sP.dentries.length :: d.children }),
         some sP.dentries.length) := by
      rw [← hbody IKind.special, hlk']
      rfl
    rw [heq]
    refine ⟨rfl, ?_, ?_, ?_, fun j => hposM IKind.reg j⟩
    · rw [modifyDent_mountCount]
    · rw [modifyDent_mounted]
    · rw [modifyDent_dentries_length]
      show (sP.dentries ++ [_]).length = s.dentries.length + 1
      simp

theorem liveCount_congr {s s' : FS} (h : s'.dentries = s.dentries) :
    liveCount s' = liveCount s := by
  unfold liveCount
  rw [h]
  exact countP_congr_mem fun a _ => by rw [positive_eq_of_dentries h a]

theorem liveCount_succ {s s' : FS}
    (hlen : s'.dentries.length = s.dentries.length + 1)
    (hpos : ∀ j, debugfs_positive s' j =
      if j = s.dentries.length then true else debugfs_positive s j)
    (h0 : 0 < s.dentries.length) :
    liveCount s' = liveCount s + 1 := by
  unfold liveCount
  rw [hlen, List.range_succ, List.countP_append]
  have h1 : (List.range s.dentries.length).countP
      (fun id => id ≠ 0 && debugfs_positive s' id) =
      (List.range s.dentries.length).countP
      (fun id => id ≠ 0 && debugfs_positive s id) := by
    refine countP_congr_mem fun a ha => ?_
    have halt : a < s.dentries.length := List.mem_range.mp ha
    simp only [hpos a, if_neg (Nat.ne_of_lt halt)]
  rw [h1]
  have hne : s.dentries.length ≠ 0 := Nat.pos_iff_ne_zero.mp h0
  have hp1 : debugfs_positive s' s.dentries.length = true := by
    rw [hpos s.dentries.length, if_pos rfl]
  have h2 : ([s.dentries.length].countP
      fun id => id ≠ 0 && debugfs_positive s' id) = 1 := by
    simp [List.countP_cons, hp1, hne]
  rw [h2]

theorem PinBal_mask {s : FS} (s' : FS) (hd : s'.dentries = s.dentries)
    (hmc : s'.mountCount = s.mountCount)
    (hmt : s'.mounted = if s.mountCount = 0 then false else s.mounted)
    (h : PinBal s) : PinBal s' := by
  obtain ⟨hc, hm⟩ := h
  refine ⟨?_, ?_⟩
  · rw [hmc, liveCount_congr hd]
    exact hc
  · rw [hmt, liveCount_congr hd]
    by_cases hm0 : s.mountCount = 0
    · have hlc : liveCount s = 0 := by
        rw [hm0] at hc
        omega
      simp [hm0, hlc]
    · rw [if_neg hm0]
      exact hm

theorem rmOk_elim {s : FS} {id : Nat} (h : rmOk s id = true) :
    ∃ cd p, dent? s id = some cd ∧ cd.parent = some p ∧
      (inode? s p).isSome = true ∧ p ≠ id ∧ cd.inode.isSome = true ∧
      id ≠ 0 ∧ cd.children = [] := by
  unfold rmOk at h
  cases hd : dent? s id with
  | none =>
    rw [hd] at h
    exact absurd h (by simp)
  | some cd =>
    rw [hd] at h
    simp only [] at h
    cases hp : cd.parent with
    | none =>
      rw [hp] at h
      simp at h
    | some p =>
      rw [hp] at h
      simp only [Bool.and_eq_true, decide_eq_true_eq, List.isEmpty_iff] at h
      exact ⟨cd, p, rfl, hp, h.1.1.1.1, h.1.1.1.2, h.1.1.2, h.1.2, h.2⟩

theorem debugfs_remove_rm {s : FS} {id p : Nat} {cd : Dentry}
    (hd : dent? s id = some cd) (hpar : cd.parent = some p)
    (hip : (inode? s p).isSome = true)
    (hret : (__debugfs_remove s id p).2 = 0) :
    debugfs_remove s (Ref.ptr id) =
      simple_release_fs (__debugfs_remove s id p).1 := by
  unfold debugfs_remove
  simp only []
  rw [hd]
  simp only []
  rw [hpar]
  simp only []
  obtain ⟨i, hi⟩ := Option.isSome_iff_exists.mp hip
  rw [hi]
  simp only []
  have hpair : __debugfs_remove s id p =
      ((__debugfs_remove s id p).1, 0) := by
    rw [← hret]
  rw [hpair]
  simp

theorem PinBal_create {s : FS} (name : String) (kind : IKind) (perm : Nat)
    (parent : Option Nat) (aOk tOk : Bool)
    (hpb : PinBal s) (h0 : 0 < s.dentries.length) :
    PinBal (__create_file s name kind perm parent aOk tOk).1 ∧
    0 < (__create_file s name kind perm parent aOk tOk).1.dentries.length := by
  by_cases hfail : s.mountCount = 0 ∧ tOk = false
  · obtain ⟨hm0, htk⟩ := hfail
    obtain ⟨hc, hm⟩ := hpb
    have hlc : liveCount s = 0 := by
      rw [hm0] at hc
      omega
    have hmf : s.mounted = false := by
      rw [hm, hlc]
      rfl
    rw [htk, __create_file_pin_fail s name kind perm parent aOk hm0]
    refine ⟨PinBal_mask (s := s) _ rfl rfl ?_ ⟨hc, hm⟩, h0⟩
    show s.mounted = if s.mountCount = 0 then false else s.mounted
    rw [if_pos hm0, hmf]
  · have hp : s.mountCount = 0 → tOk = true := by
      intro hm0
      cases htk : tOk with
      | false => exact absurd ⟨hm0, htk⟩ hfail
      | true => rfl
    cases hlk : lookup_one_len s (parent.getD 0) name with
    | some c =>
      rw [__create_file_exists kind perm aOk hp hlk]
      exact ⟨PinBal_mask (s := s) _ rfl rfl rfl hpb, h0⟩
    | none =>
      cases haOk : aOk with
      | false =>
        rw [__create_file_nomem kind perm hp hlk]
        exact ⟨PinBal_mask (s := s) _ rfl rfl rfl hpb, h0⟩
      | true =>
        obtain ⟨h2, hmc, hmt, hlen, hposf⟩ :=
          __create_file_success_meta kind perm hp hlk
        obtain ⟨hc, hm⟩ := hpb
        have hlcs : liveCount (__create_file s name kind perm parent true tOk).1 =
            liveCount s + 1 := liveCount_succ hlen hposf h0
        refine ⟨⟨?_, ?_⟩, ?_⟩
        · rw [hmc, hlcs, hc]
          omega
        · rw [hmt, hlcs]
          by_cases hm0 : s.mountCount = 0
          · rw [if_pos hm0]
            simp
          · rw [if_neg hm0, hm]
            have hlpos : 0 < liveCount s := by
              rw [hc] at hm0
              omega
            simp [hlpos]
        · rw [hlen]
          omega

theorem PinBal_step {s : FS} (op : COp)
    (hok : match op with | COp.rm id => rmOk s id = true | _ => True)
    (hpb : PinBal s) (h0 : 0 < s.dentries.length) :
    PinBal (runOp s op) ∧ 0 < (runOp s op).dentries.length := by
  cases op with
  | cfile name perm parent aOk tOk =>
    exact PinBal_create name IKind.reg perm parent aOk tOk hpb h0
  | cdir name parent aOk tOk =>
    exact PinBal_create name IKind.dir 0o755 parent aOk tOk hpb h0
  | clink name parent sOk aOk tOk =>
    cases sOk with
    | false => exact ⟨hpb, h0⟩
    | true => exact PinBal_create name IKind.lnk 0o777 parent aOk tOk hpb h0
  | rm id =>
    have hok' : rmOk s id = true := hok
    obtain ⟨cd, p, hd, hpar, hip, hpi, hino, hid0, hch⟩ := rmOk_elim hok'
    obtain ⟨hret, hrs⟩ := __debugfs_remove_spec hd hpar hino hch (Ne.symm hpi)
    have hgoal : runOp s (COp.rm id) =
        simple_release_fs (__debugfs_remove s id p).1 :=
      debugfs_remove_rm hd hpar hip hret
    rw [hgoal]
    set sr := (__debugfs_remove s id p).1 with hsr
    have hmc' : sr.mountCount = s.mountCount := hrs.2.1
    have hmt' : sr.mounted = s.mounted := hrs.2.2.1
    have hlen' : sr.dentries.length = s.dentries.length := hrs.1
    have hlc : liveCount s = liveCount sr + 1 :=
      RemovedState_liveCount hrs hd hino hid0
    obtain ⟨hc, hm⟩ := hpb
    have hflc : liveCount (simple_release_fs sr) = liveCount sr :=
      liveCount_congr rfl
    have hfc : (simple_release_fs sr).mountCount = sr.mountCount - 1 := rfl
    have hfm : (simple_release_fs sr).mounted =
        if sr.mountCount - 1 = 0 then false else sr.mounted := rfl
    refine ⟨⟨?_, ?_⟩, ?_⟩
    · rw [hfc, hflc, hmc', hc, hlc]
      omega
    · rw [hfm, hflc, hmc']
      have hcond : (s.mountCount - 1 = 0) ↔ (liveCount sr = 0) := by
        rw [hc, hlc]
        omega
      by_cases hl0 : liveCount sr = 0
      · rw [if_pos (hcond.mpr hl0), hl0]
        rfl
      · rw [if_neg (fun hh => hl0 (hcond.mp hh)), hmt', hm, hlc]
        simp [Nat.pos_of_ne_zero hl0]
    · show 0 < (simple_release_fs sr).dentries.length
      have : (simple_release_fs sr).dentries.length = sr.dentries.length := rfl
      rw [this, hlen']
      exact h0

theorem PinBal_run {ops : List COp} : ∀ {s : FS}, ValidOps s ops →
    PinBal s → 0 < s.dentries.length →
    PinBal (runOps s ops) ∧ 0 < (runOps s ops).dentries.length := by
  induction ops with
  | nil =>
    intro s _ hpb h0
    exact ⟨hpb, h0⟩
  | cons op rest ih =>
    intro s hv hpb h0
    obtain ⟨hop, hrest⟩ := hv
    obtain ⟨hpb', h0'⟩ := PinBal_step op hop hpb h0
    exact ih hrest hpb' h0'

theorem ValidOps_take {ops : List COp} : ∀ {s : FS} (n : Nat),
    ValidOps s ops → ValidOps s (ops.take n) := by
  induction ops with
  | nil =>
    intro s n _
    rw [List.take_nil]
    exact trivial
  | cons op rest ih =>
    intro s n hv
    cases n with
    | zero => exact trivial
    | succ m =>
      obtain ⟨hop, hrest⟩ := hv
      exact ⟨hop, ih m hrest⟩

theorem PinBal_init : PinBal initFS :=
  ⟨by decide, by decide⟩

/-- C4 counterexample to the literal claim: the trace creates dir `a` and
file `b` under it (two successful creations) and then removes both
created nodes, each removal after its creation — yet the mount count ends
at 1 with the backing store still attached, because `remove(a)` fails on
the non-empty directory without releasing a pin. -/
theorem C4_counterexample :
    runOps initFS [COp.cdir "a" none true true,
      COp.cfile "b" 420 (some 1) true true, COp.rm 1, COp.rm 2] =
      stUnbalanced ∧
    stUnbalanced.mountCount = 1 ∧ stUnbalanced.mounted = true := by
  refine ⟨rfl, by decide, by decide⟩

/-- C4: pin balance for sequences whose removals each actually remove
(positive non-root target under a live parent, already childless).  Along
every prefix of such a trace the mount count equals the number of live
non-root nodes — in particular it never goes negative — and whenever all
created nodes have been removed again the count is back to 0 and the
backing store is detached. -/
theorem C4_pin_balance (ops : List COp) (hv : ValidOps initFS ops) (n : Nat) :
    PinBal (runOps initFS (ops.take n)) ∧
    0 ≤ (runOps initFS (ops.take n)).mountCount ∧
    (liveCount (runOps initFS (ops.take n)) = 0 →
      (runOps initFS (ops.take n)).mountCount = 0 ∧
      (runOps initFS (ops.take n)).mounted = false) := by
  have hpb := PinBal_run (ValidOps_take n hv) PinBal_init (by decide)
  obtain ⟨⟨hc, hm⟩, _⟩ := hpb
  refine ⟨⟨hc, hm⟩, ?_, ?_⟩
  · rw [hc]
    omega
  · intro hl0
    constructor
    · rw [hc, hl0]
      rfl
    · rw [hm, hl0]
      rfl

theorem C4_witness :
    ValidOps initFS [COp.cdir "a" none true true, COp.rm 1] ∧
    (runOps initFS ([COp.cdir "a" none true true, COp.rm 1].take 2)).mountCount = 0 ∧
    (runOps initFS ([COp.cdir "a" none true true, COp.rm 1].take 2)).mounted = false := by
  have hv : ValidOps initFS [COp.cdir "a" none true true, COp.rm 1] := by
    refine ⟨trivial, ?_, trivial⟩
    decide
  have h := C4_pin_balance [COp.cdir "a" none true true, COp.rm 1] hv 2
  exact ⟨hv, (h.2.2 (by decide)).1, (h.2.2 (by decide)).2⟩

/-! ### The recursive-removal loop: equations and congruence toolkit -/

theorem drr_loop_zero (t : Nat) (s : FS) (pid : Nat) (work : List Nat) :
    drr_loop t 0 s pid work = (s, []) := rfl

theorem drr_loop_cons (t fuel : Nat) (s : FS) (pid child : Nat) (next : List Nat) :
    drr_loop t (fuel + 1) s pid (child :: next) =
      (if !(debugfs_positive s child) then
        drr_loop t fuel s pid next
      else if !(childrenOf s child).isEmpty then
        drr_loop t fuel s child (childrenOf s child)
      else
        match __debugfs_remove s child pid with
        | (s1, ret) =>
          let s2 := if ret = 0 then simple_release_fs s1 else s1
          match drr_loop t fuel s2 pid next with
          | (s3, tr) => (s3, (if ret = 0 then [child] else []) ++ tr)) := rfl

theorem drr_loop_nil (t fuel : Nat) (s : FS) (pid : Nat) :
    drr_loop t (fuel + 1) s pid [] =
      (match dent? s pid with
       | none => (s, [])
       | some cd =>
         match cd.parent with
         | none => (s, [])
         | some gp =>
           if pid ≠ t then
             let next := afterElem (childrenOf s gp) pid
             let removed := debugfs_positive s pid
             match __debugfs_remove s pid gp with
             | (s1, ret) =>
               let s2 := if ret = 0 then simple_release_fs s1 else s1
               match drr_loop t fuel s2 gp next with
               | (s3, tr) => (s3, (if removed && ret == 0 then [pid] else []) ++ tr)
           else
             let removed := debugfs_positive s pid
             match __debugfs_remove s pid gp with
             | (s1, ret) =>
               let s2 := if ret = 0 then simple_release_fs s1 else s1
               (s2, if removed && ret == 0 then [pid] else [])) := rfl

theorem afterElem_cons_self (c : Nat) (tail : List Nat) :
    afterElem (c :: tail) c = tail := by
  simp [afterElem]

theorem childrenOf_congr {s s' : FS} (h : s'.dentries = s.dentries) (j : Nat) :
    childrenOf s' j = childrenOf s j := by
  unfold childrenOf
  rw [dent?_congr_dentries h]

theorem isDirAt_congr {s s' : FS} (h : s'.dentries = s.dentries) (j : Nat) :
    isDirAt s' j = isDirAt s j := by
  unfold isDirAt inode?
  rw [dent?_congr_dentries h]

theorem inode?_congr_dentries {s s' : FS} (h : s'.dentries = s.dentries) (j : Nat) :
    inode? s' j = inode? s j := by
  unfold inode?
  rw [dent?_congr_dentries h]

theorem childOkAt_congr {s s' : FS} (h : s'.dentries = s.dentries) (p c : Nat) :
    childOkAt s' p c = childOkAt s p c := by
  unfold childOkAt
  rw [dent?_congr_dentries h]

theorem parent_shape_congr {s s' : FS} (h : s'.dentries = s.dentries) (j : Nat) :
    (dent? s' j).map Dentry.parent = (dent? s j).map Dentry.parent := by
  rw [dent?_congr_dentries h]

theorem dentries_length_congr {s s' : FS} (h : s'.dentries = s.dentries) :
    s'.dentries.length = s.dentries.length := by
  rw [h]

theorem WFb_congr {s s' : FS} (h : s'.dentries = s.dentries) : WFb s' = WFb s := by
  unfold WFb
  have h1 : rootOkb s' = rootOkb s := by
    unfold rootOkb
    rw [dent?_congr_dentries h]
  have h2 : childrenOkb s' = childrenOkb s := by
    unfold childrenOkb
    rw [dentries_length_congr h]
    simp only [childrenOf_congr h, childOkAt_congr h]
  have h3 : memChildb s' = memChildb s := by
    unfold memChildb
    rw [dentries_length_congr h]
    simp only [dent?_congr_dentries h, childrenOf_congr h]
  have h4 : nodupb s' = nodupb s := by
    unfold nodupb
    rw [dentries_length_congr h]
    simp only [childrenOf_congr h]
  have h5 : rootedb s' = rootedb s :=
    rootedb_congr (dentries_length_congr h) (parent_shape_congr h)
  have h6 : dirChildrenb s' = dirChildrenb s := by
    unfold dirChildrenb
    rw [dentries_length_congr h]
    simp only [childrenOf_congr h, isDirAt_congr h]
  rw [h1, h2, h3, h4, h5, h6]

theorem linkb_congr {s s' : FS} (h : s'.dentries = s.dentries) :
    linkb s' = linkb s := by
  unfold linkb linkOkAt
  rw [dentries_length_congr h]
  simp only [inode?_congr_dentries h, childrenOf_congr h, isDirAt_congr h]

theorem posUnder_congr {s s' : FS} (h : s'.dentries = s.dentries) (t : Nat) :
    posUnder s' t = posUnder s t := by
  unfold posUnder
  rw [dentries_length_congr h]
  refine countP_congr_mem fun a _ => ?_
  rw [positive_eq_of_dentries h,
    Descb_congr (dentries_length_congr h) (parent_shape_congr h) t a]

theorem Descb_of_iter {s : FS} {t x n : Nat}
    (hroot : rootedb s = true) (hx : x < s.dentries.length)
    (hit : parentIter s n x = some t) : Descb s t x = true := by
  obtain ⟨k, r, hk, hkit, hr⟩ :=
    chainToRoot_dist s.dentries.length x ((rootedb_iff s).mp hroot x hx)
  have hle : n ≤ k := parentIter_le_dist hit hkit hr
  exact inSub_of_parentIter n x t s.dentries.length hit (Nat.lt_of_le_of_lt hle hk)

theorem parentOf_ne_self {s : FS} {j p : Nat}
    (hroot : rootedb s = true) (hj : j < s.dentries.length)
    (hp : parentOf s j = some p) : j ≠ p := by
  intro hjp
  have hit : parentIter s 1 j = some j := by
    rw [parentIter_succ, hp, ← hjp]
    rfl
  exact not_self_iter hroot hj hit

theorem parent_dent? {s : FS} {j p : Nat}
    (hroot : rootedb s = true) (hj : j < s.dentries.length)
    (hp : parentOf s j = some p) :
    ∃ pd, dent? s p = some pd ∧ p < s.dentries.length := by
  have hcr : chainToRoot s s.dentries.length j = true :=
    (rootedb_iff s).mp hroot j hj
  obtain ⟨f, hf⟩ := Nat.exists_eq_succ_of_ne_zero
    (Nat.pos_iff_ne_zero.mp (Nat.lt_of_le_of_lt (Nat.zero_le j) hj))
  rw [hf, chainToRoot_succ] at hcr
  cases hd : dent? s j with
  | none =>
    rw [hd] at hcr
    exact absurd hcr (by simp)
  | some d =>
    rw [hd] at hcr
    simp only [] at hcr
    have hpd : d.parent = some p := by
      have := parentOf_eq_of_dent? hd
      rw [this] at hp
      exact hp
    rw [hpd] at hcr
    simp only [] at hcr
    cases f with
    | zero => simp [chainToRoot] at hcr
    | succ f' =>
      rw [chainToRoot_succ] at hcr
      cases hdp : dent? s p with
      | none =>
        rw [hdp] at hcr
        exact absurd hcr (by simp)
      | some pd => exact ⟨pd, rfl, lt_of_dent?_eq_some hdp⟩

/-- A childless node has no positive strict descendant. -/
theorem no_strict_desc_of_childless {s : FS} {x : Nat} {xd : Dentry}
    (hw : WFb s = true)
    (hx : dent? s x = some xd) (hleaf : xd.children = []) :
    ∀ n b, parentIter s n b = some x → debugfs_positive s b = true →
      b = x := by
  obtain ⟨hroot, hcok, hmem, hnd, hrtd, hdc⟩ := (WFb_iff s).mp hw
  intro n
  induction n with
  | zero =>
    intro b hit _
    exact Option.some.inj hit
  | succ n ih =>
    intro b hit hpos
    rw [parentIter_succ] at hit
    cases hp : parentOf s b with
    | none =>
      rw [hp] at hit
      exact Option.noConfusion hit
    | some p =>
      rw [hp] at hit
      simp only [] at hit
      cases hbd : dent? s b with
      | none =>
        unfold debugfs_positive inode? at hpos
        rw [hbd] at hpos
        exact absurd hpos (by simp)
      | some bd =>
      have hbpos : bd.inode.isSome = true := by
        unfold debugfs_positive at hpos
        rw [inode?_eq_of_dent? hbd] at hpos
        exact hpos
      have hbp : bd.parent = some p := by
        have := parentOf_eq_of_dent? hbd
        rw [this] at hp
        exact hp
      have hbmem : b ∈ childrenOf s p :=
        mem_children_of_positive hmem hbd hbpos hbp
      by_cases hpx : p = x
      · rw [hpx, childrenOf_eq_of_dent? hx, hleaf] at hbmem
        exact absurd hbmem (List.not_mem_nil b)
      · have hpne : childrenOf s p ≠ [] := by
          intro hnil
          rw [hnil] at hbmem
          exact absurd hbmem (List.not_mem_nil b)
        have hpdir : isDirAt s p = true := (dirChildrenb_iff s).mp hdc p hpne
        have hppos : debugfs_positive s p = true := by
          unfold debugfs_positive
          unfold isDirAt at hpdir
          cases hip : inode? s p with
          | none =>
            rw [hip] at hpdir
            simp at hpdir
          | some i => rfl
        exact absurd (ih p hit hppos) hpx

/-! ### Chain invariant of the loop -/

theorem IsChain_mem {s : FS} {t : Nat} :
    ∀ {chain : List Nat} {c : Nat}, IsChain s t c chain →
      ∀ x ∈ chain, (∃ n, 0 < n ∧ parentIter s n c = some x) ∧
        debugfs_positive s x = true := by
  intro chain
  induction chain with
  | nil =>
    intro c _ x hx
    exact absurd hx (List.not_mem_nil x)
  | cons p rest ih =>
    intro c h x hx
    obtain ⟨hp, _, hpos, hrest⟩ := h
    rcases List.mem_cons.mp hx with hxp | hxr
    · refine ⟨⟨1, Nat.one_pos, ?_⟩, by rw [hxp]; exact hpos⟩
      rw [parentIter_succ, hp, hxp]
      rfl
    · obtain ⟨⟨n, hn, hit⟩, hxpos⟩ := ih hrest x hxr
      refine ⟨⟨n + 1, Nat.succ_pos n, ?_⟩, hxpos⟩
      have : n + 1 = 1 + n := by omega
      rw [this, parentIter_add]
      have h1 : parentIter s 1 c = some p := by
        rw [parentIter_succ, hp]
        rfl
      rw [h1]
      exact hit

theorem IsChain_nodup {s : FS} {t : Nat} :
    ∀ {chain : List Nat} {c : Nat}, rootedb s = true →
      IsChain s t c chain → debugfs_positive s c = true →
      (c :: chain).Nodup := by
  intro chain
  induction chain with
  | nil =>
    intro c _ _ _
    simp
  | cons p rest ih =>
    intro c hroot h hposc
    have h' := h
    obtain ⟨hp, _, hpos, hrest⟩ := h
    have hclt : c < s.dentries.length := by
      unfold debugfs_positive inode? at hposc
      cases hd : dent? s c with
      | none => rw [hd] at hposc; exact absurd hposc (by simp)
      | some d => exact lt_of_dent?_eq_some hd
    have hnotmem : c ∉ p :: rest := by
      intro hmem
      obtain ⟨⟨n, hn, hit⟩, _⟩ := IsChain_mem h' c hmem
      obtain ⟨m, hm⟩ := Nat.exists_eq_succ_of_ne_zero (Nat.pos_iff_ne_zero.mp hn)
      rw [hm] at hit
      exact not_self_iter hroot hclt hit
    exact List.nodup_cons.mpr ⟨hnotmem, ih hroot hrest hpos⟩

theorem IsChain_iter_t {s : FS} {t : Nat} :
    ∀ {chain : List Nat} {c : Nat}, IsChain s t c chain →
      parentIter s chain.length c = some t := by
  intro chain
  induction chain with
  | nil =>
    intro c h
    rw [List.length_nil, parentIter_zero, h]
  | cons p rest ih =>
    intro c h
    obtain ⟨hp, _, _, hrest⟩ := h
    have : (p :: rest).length = 1 + rest.length := by simp; omega
    rw [this, parentIter_add]
    have h1 : parentIter s 1 c = some p := by
      rw [parentIter_succ, hp]
      rfl
    rw [h1]
    exact ih hrest

theorem lt_of_positive {s : FS} {c : Nat}
    (h : debugfs_positive s c = true) : c < s.dentries.length := by
  unfold debugfs_positive inode? at h
  cases hd : dent? s c with
  | none => rw [hd] at h; exact absurd h (by simp)
  | some d => exact lt_of_dent?_eq_some hd

theorem IsChain_t_pos {s : FS} {t : Nat} :
    ∀ {chain : List Nat} {c : Nat}, IsChain s t c chain →
      debugfs_positive s c = true → debugfs_positive s t = true := by
  intro chain
  induction chain with
  | nil =>
    intro c h hpos
    rw [← h]
    exact hpos
  | cons p rest ih =>
    intro c h _
    obtain ⟨_, _, hpos, hrest⟩ := h
    exact ih hrest hpos

theorem IsChain_all_descb {s : FS} {t : Nat}
    (hroot : rootedb s = true) :
    ∀ {chain : List Nat} {c : Nat}, IsChain s t c chain →
      debugfs_positive s c = true →
      ∀ x ∈ c :: chain, Descb s t x = true := by
  intro chain
  induction chain with
  | nil =>
    intro c h hpos x hx
    have hx' : x = c := by
      rcases List.mem_cons.mp hx with h' | h'
      · exact h'
      · exact absurd h' (List.not_mem_nil x)
    rw [hx', ← h]
    exact Descb_refl (Nat.lt_of_le_of_lt (Nat.zero_le c) (lt_of_positive hpos)) c
  | cons p rest ih =>
    intro c h hpos x hx
    have h' := h
    obtain ⟨hp, ht, hppos, hrest⟩ := h
    rcases List.mem_cons.mp hx with hxc | hxr
    · rw [hxc]
      exact Descb_of_iter hroot (lt_of_positive hpos) (IsChain_iter_t h')
    · exact ih hrest hppos x hxr

theorem chain_le_posUnder {s : FS} {t c : Nat} {chain : List Nat}
    (hw : WFb s = true) (h : IsChain s t c chain)
    (hpos : debugfs_positive s c = true) :
    chain.length + 1 ≤ posUnder s t := by
  obtain ⟨_, _, _, _, hroot, _⟩ := (WFb_iff s).mp hw
  have hnd : (c :: chain).Nodup := IsChain_nodup hroot h hpos
  have hdesc := IsChain_all_descb hroot h hpos
  have hposall : ∀ x ∈ c :: chain, debugfs_positive s x = true := by
    intro x hx
    rcases List.mem_cons.mp hx with hxc | hxr
    · rw [hxc]; exact hpos
    · exact (IsChain_mem h x hxr).2
  have hsub : (c :: chain) ⊆ (List.range s.dentries.length).filter
      (fun j => debugfs_positive s j && Descb s t j) := by
    intro x hx
    rw [List.mem_filter, List.mem_range]
    refine ⟨lt_of_positive (hposall x hx), ?_⟩
    rw [Bool.and_eq_true]
    exact ⟨hposall x hx, hdesc x hx⟩
  have hle := (List.subperm_of_subset hnd hsub).length_le
  rw [List.length_cons] at hle
  unfold posUnder
  rw [List.countP_eq_length_filter]
  exact hle

theorem IsChain_congr' {s s2 : FS} {t : Nat}
    (hsh : ∀ j, (dent? s2 j).map Dentry.parent = (dent? s j).map Dentry.parent) :
    ∀ {chain : List Nat} {c : Nat},
      (∀ j ∈ chain, childrenOf s2 j = childrenOf s j ∧
        debugfs_positive s2 j = debugfs_positive s j) →
      IsChain s t c chain → IsChain s2 t c chain := by
  intro chain
  induction chain with
  | nil =>
    intro c _ h
    exact h
  | cons p rest ih =>
    intro c hpre h
    obtain ⟨hp, ⟨tail, htail⟩, hpos, hrest⟩ := h
    have hj := hpre p (List.mem_cons_self p rest)
    refine ⟨?_, ⟨tail, ?_⟩, ?_, ih (fun j hj' => hpre j (List.mem_cons_of_mem p hj')) hrest⟩
    · rw [parentOf_congr hsh]
      exact hp
    · rw [hj.1, htail]
    · rw [hj.2]
      exact hpos

/-- Composing one removal step (of node `x` from its parent `y`, both in
the subtree of `t`) with the loop postcondition of the rest. -/
theorem MLPost_step {s s2 : FS} {t pt x y : Nat} {out : FS × List Nat}
    (hlen : s2.dentries.length = s.dentries.length)
    (hsh : ∀ j, (dent? s2 j).map Dentry.parent = (dent? s j).map Dentry.parent)
    (hposf : ∀ j, debugfs_positive s2 j =
      if j = x then false else debugfs_positive s j)
    (hfr : ∀ j, j ≠ x → j ≠ y → dent? s2 j = dent? s j)
    (hdirt : isDirAt s2 t = isDirAt s t)
    (hposx : debugfs_positive s x = true)
    (hdx : Descb s t x = true) (hdy : Descb s t y = true)
    (hpt : Descb s t pt = false)
    (hnodesc : ∀ b, b ≠ x → Descb s x b = true →
      debugfs_positive s b = true → False)
    (hpost : MLPost s2 t pt out) :
    MLPost s t pt (out.1, x :: out.2) := by
  have hD : ∀ a b, Descb s2 a b = Descb s a b := Descb_congr hlen hsh
  obtain ⟨p1, p2, p3, p4, p5, p6, p7, p8, p9⟩ := hpost
  have hxne : ∀ j, Descb s t j = false → j ≠ x := by
    intro j hj hjx
    rw [hjx, hdx] at hj
    exact Bool.noConfusion hj
  have hyne : ∀ j, Descb s t j = false → j ≠ y := by
    intro j hj hjy
    rw [hjy, hdy] at hj
    exact Bool.noConfusion hj
  have hpos2 : ∀ z, debugfs_positive s2 z = true →
      z ≠ x ∧ debugfs_positive s z = true := by
    intro z hz
    rw [hposf z] at hz
    by_cases hzx : z = x
    · rw [if_pos hzx] at hz
      exact Bool.noConfusion hz
    · rw [if_neg hzx] at hz
      exact ⟨hzx, hz⟩
  refine ⟨?_, ?_, ?_, ?_, ?_, ?_, ?_, ?_, ?_⟩
  · show out.1.dentries.length = s.dentries.length
    rw [p1, hlen]
  · show ∀ j, (dent? out.1 j).map Dentry.parent = (dent? s j).map Dentry.parent
    intro j
    rw [p2 j, hsh j]
  · show ∀ j, debugfs_positive s j = false → debugfs_positive out.1 j = false
    intro j hj
    refine p3 j ?_
    rw [hposf j]
    by_cases hjx : j = x
    · rw [if_pos hjx]
    · rw [if_neg hjx]
      exact hj
  · show ∀ j, Descb s t j = true → debugfs_positive out.1 j = false
    intro j hj
    refine p4 j ?_
    rw [hD]
    exact hj
  · show ∀ j, Descb s t j = false → j ≠ pt → dent? out.1 j = dent? s j
    intro j hj hjpt
    rw [p5 j (by rw [hD]; exact hj) hjpt]
    exact hfr j (hxne j hj) (hyne j hj)
  · show ∃ pd, dent? s pt = some pd ∧ dent? out.1 pt = some { pd with
      children := pd.children.erase t,
      inode := pd.inode.map fun i =>
        if isDirAt s t then { i with nlink := i.nlink - 1 } else i }
    obtain ⟨pd, hpd1, hpd2⟩ := p6
    refine ⟨pd, ?_, ?_⟩
    · rw [← hpd1]
      exact (hfr pt (hxne pt hpt) (hyne pt hpt)).symm
    · rw [hpd2, hdirt]
  · exact p7
  · show ∀ z ∈ x :: out.2, Descb s t z = true ∧ debugfs_positive s z = true
    intro z hz
    rcases List.mem_cons.mp hz with hzx | hzr
    · rw [hzx]
      exact ⟨hdx, hposx⟩
    · obtain ⟨hd2, hp2⟩ := p8 z hzr
      refine ⟨by rw [← hD]; exact hd2, (hpos2 z hp2).2⟩
  · show (x :: out.2).Pairwise fun a b => ¬(Descb s a b = true ∧ a ≠ b)
    refine List.pairwise_cons.mpr ⟨?_, ?_⟩
    · intro b hb hc
      obtain ⟨hdxb, hxb⟩ := hc
      obtain ⟨hbx, hbpos⟩ := hpos2 b (p8 b hb).2
      exact hnodesc b hbx hdxb hbpos
    · refine p9.imp ?_
      intro a b h hc
      exact h ⟨by rw [hD]; exact hc.1, hc.2⟩

/-- The facts the loop proof needs about the state after removing the
childless positive node `x` from its parent `y` and releasing a pin (any
`s2` sharing the removal result's dentry store). -/
theorem remove_then_facts {s s1 s2 : FS} {x y : Nat} {xd : Dentry}
    (hw : WFb s = true) (hl : linkb s = true)
    (hx : dent? s x = some xd) (hpar : xd.parent = some y)
    (hino : xd.inode.isSome = true) (hleaf : xd.children = [])
    (hxy : x ≠ y)
    (hrs : RemovedState s x y xd s1)
    (hd2 : s2.dentries = s1.dentries) :
    s2.dentries.length = s.dentries.length ∧
    (∀ j, (dent? s2 j).map Dentry.parent = (dent? s j).map Dentry.parent) ∧
    (∀ j, debugfs_positive s2 j = if j = x then false else debugfs_positive s j) ∧
    (∀ j, j ≠ x → j ≠ y → dent? s2 j = dent? s j) ∧
    (∀ j, childrenOf s2 j = if j = x then xd.children
       else if j = y then (childrenOf s y).erase x else childrenOf s j) ∧
    (∀ j, isDirAt s2 j = if j = x then false else isDirAt s j) ∧
    WFb s2 = true ∧ linkb s2 = true := by
  have hlen1 : s1.dentries.length = s.dentries.length := hrs.1
  have hlen2 : s2.dentries.length = s.dentries.length := by
    rw [dentries_length_congr hd2, hlen1]
  have hsh1 := RemovedState_parent_shape hrs hx
  refine ⟨hlen2, ?_, ?_, ?_, ?_, ?_, ?_, ?_⟩
  · intro j
    rw [parent_shape_congr hd2 j, hsh1 j]
  · intro j
    rw [positive_eq_of_dentries hd2 j, RemovedState_positive hrs j]
  · intro j hjx hjy
    rw [dent?_congr_dentries hd2 j]
    have hchar := hrs.2.2.2.2.2 j
    rw [hchar, if_neg hjx, if_neg hjy]
  · intro j
    rw [childrenOf_congr hd2 j, RemovedState_children hrs hx j]
  · intro j
    rw [isDirAt_congr hd2 j, RemovedState_isDir hrs j]
  · rw [WFb_congr hd2]
    exact RemovedState_WF hw hrs hx hpar hino hleaf hxy
  · rw [linkb_congr hd2]
    exact RemovedState_linkb hw hl hrs hx hpar hino hleaf hxy

/-- Master lemma for the `down`/`up` loop of `debugfs_remove_recursive`:
from a well-formed state with the cursor chain invariant and enough fuel,
the loop empties the subtree of `t`, touches nothing else except `t`'s
parent, keeps the store well formed, and removes descendants before
ancestors. -/
theorem ML {t pt : Nat} : ∀ (fuel : Nat) (s : FS) (c : Nat) (chain : List Nat),
    WFb s = true → linkb s = true →
    IsChain s t c chain →
    debugfs_positive s c = true →
    parentOf s t = some pt →
    2 * posUnder s t ≤ fuel + chain.length →
    MLPost s t pt (drr_loop t fuel s c (childrenOf s c)) := by
  intro fuel
  induction fuel with
  | zero =>
    intro s c chain hw hl hch hposc hpt hfuel
    have hbound := chain_le_posUnder hw hch hposc
    omega
  | succ fuel ih =>
    intro s c chain hw hl hch hposc hpt hfuel
    obtain ⟨hro, hcok, hmem, hnd, hrtd, hdc⟩ := (WFb_iff s).mp hw
    have hclt : c < s.dentries.length := lt_of_positive hposc
    have h0 : 0 < s.dentries.length := Nat.lt_of_le_of_lt (Nat.zero_le c) hclt
    have htpos : debugfs_positive s t = true := IsChain_t_pos hch hposc
    have htlt : t < s.dentries.length := lt_of_positive htpos
    have hdesct : ∀ x ∈ c :: chain, Descb s t x = true :=
      IsChain_all_descb hrtd hch hposc
    have hdc' : Descb s t c = true := hdesct c (List.mem_cons_self c chain)
    have hptf : Descb s t pt = false := parent_not_descb hrtd htlt hpt
    cases hwork : childrenOf s c with
    | cons child next =>
      rw [drr_loop_cons]
      have hchmem : child ∈ childrenOf s c := by
        rw [hwork]
        exact List.mem_cons_self child next
      obtain ⟨chd, hchd, hchdpar, hchdino⟩ := child_facts hcok hchmem
      have hchpos : debugfs_positive s child = true := by
        unfold debugfs_positive
        rw [inode?_eq_of_dent? hchd]
        exact hchdino
      have hchparent : parentOf s child = some c := by
        rw [parentOf_eq_of_dent? hchd]
        exact hchdpar
      have hdescchild : Descb s t child = true :=
        Descb_step hrtd (lt_of_positive hchpos) hchparent hdc'
      simp only [hchpos, Bool.not_true, Bool.false_eq_true, if_false]
      cases hemp : (childrenOf s child).isEmpty with
      | false =>
        simp only [hemp, Bool.not_false, if_true]
        have hchchain : IsChain s t child (c :: chain) :=
          ⟨hchparent, ⟨next, hwork⟩, hposc, hch⟩
        refine ih s child (c :: chain) hw hl hchchain hchpos hpt ?_
        rw [List.length_cons]
        omega
      | true =>
        simp only [hemp, Bool.not_true, Bool.false_eq_true, if_false]
        have hchnil : childrenOf s child = [] := by
          cases hcc : childrenOf s child with
          | nil => rfl
          | cons a l =>
            rw [hcc] at hemp
            exact absurd hemp (by simp)
        have hchdnil : chd.children = [] := by
          rw [childrenOf_eq_of_dent? hchd] at hchnil
          exact hchnil
        have hchc : child ≠ c :=
          parentOf_ne_self hrtd (lt_of_positive hchpos) hchparent
        obtain ⟨hret, hrs⟩ := __debugfs_remove_spec hchd hchdpar hchdino hchdnil hchc
        have hpair : __debugfs_remove s child c =
            ((__debugfs_remove s child c).1, 0) := by
          rw [← hret]
        rw [hpair]
        simp only [reduceIte]
        obtain ⟨flen, fsh, fpos, ffr, fch, fdir, fwf, flk⟩ :=
          remove_then_facts hw hl hchd hchdpar hchdino hchdnil hchc hrs
            (rfl : (simple_release_fs (__debugfs_remove s child c).1).dentries =
              (__debugfs_remove s child c).1.dentries)
        set s2v := simple_release_fs (__debugfs_remove s child c).1 with hs2v
        have hchainmem : ∀ j ∈ chain, j ≠ child ∧ j ≠ c := by
          intro j hj
          constructor
          · intro hjch
            obtain ⟨⟨n, hn, hit⟩, _⟩ := IsChain_mem hch j hj
            rw [hjch] at hit
            have hcyc : parentIter s (n + 1) child = some child := by
              have : n + 1 = 1 + n := by omega
              rw [this, parentIter_add, parentIter_succ, hchparent]
              exact hit
            exact not_self_iter hrtd (lt_of_positive hchpos) hcyc
          · intro hjc
            have hnodup := IsChain_nodup hrtd hch hposc
            have hcnot := (List.nodup_cons.mp hnodup).1
            rw [hjc] at hj
            exact hcnot hj
        have hch2 : IsChain s2v t c chain := by
          refine IsChain_congr' fsh ?_ hch
          intro j hj
          obtain ⟨hjch, hjc⟩ := hchainmem j hj
          constructor
          · rw [fch j, if_neg hjch, if_neg hjc]
          · rw [fpos j, if_neg hjch]
        have hpos2c : debugfs_positive s2v c = true := by
          rw [fpos c, if_neg (Ne.symm hchc)]
          exact hposc
        have hpt2 : parentOf s2v t = some pt := by
          rw [parentOf_congr fsh]
          exact hpt
        have hwork2 : childrenOf s2v c = next := by
          rw [fch c, if_neg (Ne.symm hchc), if_pos rfl, hwork,
            List.erase_cons_head]
        have hpustep : posUnder s t = posUnder (__debugfs_remove s child c).1 t + 1 :=
          RemovedState_posUnder hrs hchd hchdino hdescchild
        have hpu2 : posUnder s2v t = posUnder (__debugfs_remove s child c).1 t :=
          posUnder_congr (show s2v.dentries = (__debugfs_remove s child c).1.dentries from rfl) t
        have hpost := ih s2v c chain fwf flk hch2 hpos2c hpt2 (by omega)
        rw [hwork2] at hpost
        rcases hout : drr_loop t fuel s2v c next with ⟨s3, tr⟩
        rw [hout] at hpost
        simp only [List.singleton_append]
        have hcht : child ≠ t := by
          intro he
          have hpc := hchparent
          rw [he, hpt] at hpc
          have hptc : pt = c := Option.some.inj hpc
          rw [hptc] at hptf
          rw [hdc'] at hptf
          exact Bool.noConfusion hptf
        have hdirt : isDirAt s2v t = isDirAt s t := by
          rw [fdir t, if_neg (Ne.symm hcht)]
        refine MLPost_step flen fsh fpos ffr hdirt hchpos hdescchild hdc' hptf
          ?_ hpost
        intro b hb hdb hpb
        obtain ⟨n, _, hit⟩ := parentIter_of_inSub _ _ _ hdb
        exact hb (no_strict_desc_of_childless hw hchd hchdnil n b hit hpb)
    | nil =>
      rw [drr_loop_nil]
      cases hcd : dent? s c with
      | none =>
        unfold debugfs_positive inode? at hposc
        rw [hcd] at hposc
        exact absurd hposc (by simp)
      | some cd =>
      simp only []
      have hcdnil : cd.children = [] := by
        rw [childrenOf_eq_of_dent? hcd] at hwork
        exact hwork
      have hcdino : cd.inode.isSome = true := by
        unfold debugfs_positive at hposc
        rw [inode?_eq_of_dent? hcd] at hposc
        exact hposc
      cases hchaincase : chain with
      | nil =>
        have hct : c = t := by
          rw [hchaincase] at hch
          exact hch
        subst hct
        have hcdp : cd.parent = some pt := by
          have := parentOf_eq_of_dent? hcd
          rw [this] at hpt
          exact hpt
        rw [hcdp]
        simp only []
        rw [if_neg (fun h : ¬c = c => h rfl)]
        have hcpt : c ≠ pt := by
          intro he
          rw [← he] at hptf
          rw [Descb_refl h0 c] at hptf
          exact Bool.noConfusion hptf
        obtain ⟨hret, hrs⟩ := __debugfs_remove_spec hcd hcdp hcdino hcdnil hcpt
        have hpair : __debugfs_remove s c pt =
            ((__debugfs_remove s c pt).1, 0) := by
          rw [← hret]
        rw [hpair]
        simp only [reduceIte, hposc, beq_self_eq_true, Bool.and_self, if_true]
        obtain ⟨flen, fsh, fpos, ffr, fch, fdir, fwf, flk⟩ :=
          remove_then_facts hw hl hcd hcdp hcdino hcdnil hcpt hrs
            (rfl : (simple_release_fs (__debugfs_remove s c pt).1).dentries =
              (__debugfs_remove s c pt).1.dentries)
        set s2v := simple_release_fs (__debugfs_remove s c pt).1 with hs2v
        refine ⟨flen, fsh, ?_, ?_, ?_, ?_, ⟨fwf, flk⟩, ?_, ?_⟩
        · intro j hj
          rw [fpos j]
          by_cases hjc : j = c
          · rw [if_pos hjc]
          · rw [if_neg hjc]
            exact hj
        · intro j hj
          rw [fpos j]
          by_cases hjc : j = c
          · rw [if_pos hjc]
          · rw [if_neg hjc]
            cases hpj : debugfs_positive s j with
            | false => rfl
            | true =>
              obtain ⟨n, _, hit⟩ := parentIter_of_inSub _ _ _ hj
              exact absurd (no_strict_desc_of_childless hw hcd hcdnil n j hit hpj) hjc
        · intro j hj hjpt
          have hjc : j ≠ c := by
            intro he
            rw [he, Descb_refl h0 c] at hj
            exact Bool.noConfusion hj
          exact ffr j hjc hjpt
        · obtain ⟨pd, hpd, hptlt⟩ := parent_dent? hrtd hclt hpt
          refine ⟨pd, hpd, ?_⟩
          show dent? s2v pt = some { pd with
            children := pd.children.erase c,
            inode := pd.inode.map fun i =>
              if isDirAt s c then { i with nlink := i.nlink - 1 } else i }
          have hdpt : dent? s2v pt = dent? (__debugfs_remove s c pt).1 pt := rfl
          have hchar := hrs.2.2.2.2.2 pt
          rw [hdpt, hchar, if_neg (Ne.symm hcpt), if_pos rfl, hpd]
          rfl
        · intro z hz
          have hzc : z = c := by
            rcases List.mem_cons.mp hz with h' | h'
            · exact h'
            · exact absurd h' (List.not_mem_nil z)
          rw [hzc]
          exact ⟨Descb_refl h0 c, hposc⟩
        · simp
      | cons gp rest =>
        rw [hchaincase] at hch
        have hch' := hch
        obtain ⟨hpgp, ⟨tail, htail⟩, hgppos, hrest⟩ := hch'
        have hcdp : cd.parent = some gp := by
          have := parentOf_eq_of_dent? hcd
          rw [this] at hpgp
          exact hpgp
        rw [hcdp]
        simp only []
        have hct : c ≠ t := by
          intro he
          have hiter := IsChain_iter_t hch
          rw [List.length_cons, he] at hiter
          exact not_self_iter hrtd htlt hiter
        rw [if_pos hct]
        rw [htail, afterElem_cons_self]
        have hcgp : c ≠ gp := parentOf_ne_self hrtd hclt hpgp
        obtain ⟨hret, hrs⟩ := __debugfs_remove_spec hcd hcdp hcdino hcdnil hcgp
        have hpair : __debugfs_remove s c gp =
            ((__debugfs_remove s c gp).1, 0) := by
          rw [← hret]
        rw [hpair]
        simp only [reduceIte, hposc, beq_self_eq_true, Bool.and_self, if_true]
        obtain ⟨flen, fsh, fpos, ffr, fch, fdir, fwf, flk⟩ :=
          remove_then_facts hw hl hcd hcdp hcdino hcdnil hcgp hrs
            (rfl : (simple_release_fs (__debugfs_remove s c gp).1).dentries =
              (__debugfs_remove s c gp).1.dentries)
        set s2v := simple_release_fs (__debugfs_remove s c gp).1 with hs2v
        have hnodup : (c :: gp :: rest).Nodup := IsChain_nodup hrtd hch hposc
        have hrestmem : ∀ j ∈ rest, j ≠ c ∧ j ≠ gp := by
          intro j hj
          constructor
          · intro he
            have hcnot := (List.nodup_cons.mp hnodup).1
            rw [← he] at hcnot
            exact hcnot (List.mem_cons_of_mem gp hj)
          · intro he
            have hgpnot := (List.nodup_cons.mp (List.nodup_cons.mp hnodup).2).1
            rw [← he] at hgpnot
            exact hgpnot hj
        have hch2 : IsChain s2v t gp rest := by
          refine IsChain_congr' fsh ?_ hrest
          intro j hj
          obtain ⟨hjc, hjgp⟩ := hrestmem j hj
          constructor
          · rw [fch j, if_neg hjc, if_neg hjgp]
          · rw [fpos j, if_neg hjc]
        have hpos2gp : debugfs_positive s2v gp = true := by
          rw [fpos gp, if_neg (Ne.symm hcgp)]
          exact hgppos
        have hpt2 : parentOf s2v t = some pt := by
          rw [parentOf_congr fsh]
          exact hpt
        have hwork2 : childrenOf s2v gp = tail := by
          rw [fch gp, if_neg (Ne.symm hcgp), if_pos rfl, htail,
            List.erase_cons_head]
        have hpustep : posUnder s t = posUnder (__debugfs_remove s c gp).1 t + 1 :=
          RemovedState_posUnder hrs hcd hcdino hdc'
        have hpu2 : posUnder s2v t = posUnder (__debugfs_remove s c gp).1 t :=
          posUnder_congr (show s2v.dentries = (__debugfs_remove s c gp).1.dentries from rfl) t
        have hpost := ih s2v gp rest fwf flk hch2 hpos2gp hpt2 (by
          rw [hchaincase, List.length_cons] at hfuel
          omega)
        rw [hwork2] at hpost
        rcases hout : drr_loop t fuel s2v gp tail with ⟨s3, tr⟩
        rw [hout] at hpost
        simp only [List.singleton_append]
        have hdirt : isDirAt s2v t = isDirAt s t := by
          rw [fdir t, if_neg (Ne.symm hct)]
        have hdgp : Descb s t gp = true := by
          refine hdesct gp ?_
          rw [hchaincase]
          exact List.mem_cons_of_mem c (List.mem_cons_self gp rest)
        refine MLPost_step flen fsh fpos ffr hdirt hposc hdc' hdgp hptf ?_ hpost
        intro b hb hdb hpb
        obtain ⟨n, _, hit⟩ := parentIter_of_inSub _ _ _ hdb
        exact hb (no_strict_desc_of_childless hw hcd hcdnil n b hit hpb)

/-- C1: for every well-formed tree, `debugfs_remove_recursive` on a
positive dentry `t` empties the subtree of `t` (no node of it stays
positive), leaves every node outside the subtree untouched except `t`'s
parent — which loses exactly the child entry `t` (and one link when `t`
was a directory, exactly as in the concrete d, c, b, a scenario) — and
the removal trace visits descendants before ancestors: no removed node
precedes one of its own strict descendants. -/
theorem C1_remove_recursive (s : FS) (t pt : Nat)
    (hw : WFb s = true) (hl : linkb s = true)
    (hpos : debugfs_positive s t = true)
    (hpar : parentOf s t = some pt) :
    MLPost s t pt (debugfs_remove_recursive_trace s (Ref.ptr t)) ∧
    debugfs_remove_recursive s (Ref.ptr t) =
      (debugfs_remove_recursive_trace s (Ref.ptr t)).1 := by
  obtain ⟨hro, hcok, hmem, hnd, hrtd, hdcb⟩ := (WFb_iff s).mp hw
  cases htd : dent? s t with
  | none =>
    unfold debugfs_positive inode? at hpos
    rw [htd] at hpos
    exact absurd hpos (by simp)
  | some td =>
  have htdino : td.inode.isSome = true := by
    unfold debugfs_positive at hpos
    rw [inode?_eq_of_dent? htd] at hpos
    exact hpos
  have htdpar : td.parent = some pt := by
    have := parentOf_eq_of_dent? htd
    rw [this] at hpar
    exact hpar
  have htmem : t ∈ childrenOf s pt :=
    mem_children_of_positive hmem htd htdino htdpar
  have hptne : childrenOf s pt ≠ [] := by
    intro hnil
    rw [hnil] at htmem
    exact absurd htmem (List.not_mem_nil t)
  have hptdir : isDirAt s pt = true := (dirChildrenb_iff s).mp hdcb pt hptne
  obtain ⟨i, hipt⟩ : ∃ i, inode? s pt = some i := by
    unfold isDirAt at hptdir
    cases hip : inode? s pt with
    | none =>
      rw [hip] at hptdir
      exact absurd hptdir (by simp)
    | some i => exact ⟨i, rfl⟩
  have hmain : debugfs_remove_recursive_trace s (Ref.ptr t) =
      drr_loop t (drrFuel s) s t (childrenOf s t) := by
    unfold debugfs_remove_recursive_trace
    simp only []
    rw [htd]
    simp only []
    rw [htdpar]
    simp only []
    rw [hipt]
  have hpu : posUnder s t ≤ s.dentries.length := by
    have hle := List.countP_le_length
      (fun j => debugfs_positive s j && Descb s t j)
      (l := List.range s.dentries.length)
    rw [List.length_range] at hle
    exact hle
  have hfuel : 2 * posUnder s t ≤ drrFuel s + ([] : List Nat).length := by
    unfold drrFuel
    rw [List.length_nil]
    omega
  refine ⟨?_, rfl⟩
  rw [hmain]
  exact ML (drrFuel s) s t [] hw hl rfl hpos hpar hfuel

theorem C1_witness :
    WFb stABCD = true ∧ linkb stABCD = true ∧
    debugfs_positive stABCD 1 = true ∧ parentOf stABCD 1 = some 0 ∧
    (debugfs_remove_recursive_trace stABCD (Ref.ptr 1)).2 = [4, 3, 2, 1] ∧
    MLPost stABCD 1 0 (debugfs_remove_recursive_trace stABCD (Ref.ptr 1)) := by
  refine ⟨by decide, by decide, by decide, by decide, by decide, ?_⟩
  exact (C1_remove_recursive stABCD 1 0 (by decide) (by decide) (by decide)
    (by decide)).1

/-! ### Rename: the success path (C8) -/

theorem inode?_mapInodeAt_self (s : FS) (x : Nat) (f : Inode → Inode) :
    inode? (mapInodeAt s x f) x = (inode? s x).map f := by
  unfold inode?
  rw [dent?_mapInodeAt_self]
  cases dent? s x with
  | none => rfl
  | some d => cases d.inode <;> rfl

theorem inode?_mapInodeAt_ne (s : FS) {x j : Nat} (f : Inode → Inode)
    (h : j ≠ x) : inode? (mapInodeAt s x f) j = inode? s j := by
  unfold inode?
  rw [dent?_mapInodeAt_ne _ _ h]

theorem childrenOf_mapInodeAt (s : FS) (x : Nat) (f : Inode → Inode) (j : Nat) :
    childrenOf (mapInodeAt s x f) j = childrenOf s j := by
  unfold childrenOf
  by_cases hj : j = x
  · rw [hj, dent?_mapInodeAt_self]
    cases dent? s x <;> rfl
  · rw [dent?_mapInodeAt_ne _ _ hj]

/-- What `d_move` does: rename and re-parent the moved dentry, erase it
from the old parent's child list, cons it onto the new parent's, touch
nothing else (and no inode at all). -/
theorem d_move_effects {s1 : FS} {oldId oldDir newDir : Nat} {od odd ndd : Dentry}
    (newName : String)
    (hod : dent? s1 oldId = some od) (hpar : od.parent = some oldDir)
    (hne1 : oldId ≠ oldDir) (hne2 : oldId ≠ newDir)
    (hODd : dent? s1 oldDir = some odd) (hNDd : dent? s1 newDir = some ndd) :
    dent? (d_move s1 oldId newDir newName) oldId =
      some { od with name := newName, parent := some newDir } ∧
    (oldDir ≠ newDir →
      childrenOf (d_move s1 oldId newDir newName) oldDir =
        (childrenOf s1 oldDir).erase oldId ∧
      childrenOf (d_move s1 oldId newDir newName) newDir =
        oldId :: childrenOf s1 newDir) ∧
    (oldDir = newDir →
      childrenOf (d_move s1 oldId newDir newName) newDir =
        oldId :: (childrenOf s1 newDir).erase oldId) ∧
    (∀ j, j ≠ oldId → j ≠ oldDir → j ≠ newDir →
      dent? (d_move s1 oldId newDir newName) j = dent? s1 j) ∧
    (∀ j, inode? (d_move s1 oldId newDir newName) j =
      if j = oldId then od.inode else inode? s1 j) := by
  have hmove : d_move s1 oldId newDir newName =
      modifyDent
        (modifyDent
          (modifyDent s1 oldDir
            (fun pd => { pd with children := pd.children.erase oldId }))
          oldId
          (fun dd => { dd with name := newName, parent := some newDir }))
        newDir
        (fun nd => { nd with children := oldId :: nd.children }) := by
    unfold d_move
    rw [hod]
    simp only []
    rw [hpar]
  rw [hmove]
  set sA := modifyDent s1 oldDir
    (fun pd => { pd with children := pd.children.erase oldId }) with hsA
  set sB := modifyDent sA oldId
    (fun dd => { dd with name := newName, parent := some newDir }) with hsB
  have hAoldId : dent? sA oldId = some od := by
    rw [hsA, dent?_modifyDent_ne _ _ hne1, hod]
  have hBoldId : dent? sB oldId =
      some { od with name := newName, parent := some newDir } := by
    rw [hsB, dent?_modifyDent_self, hAoldId]
    rfl
  refine ⟨?_, ?_, ?_, ?_, ?_⟩
  · rw [dent?_modifyDent_ne _ _ hne2, hBoldId]
  · intro hODND
    constructor
    · unfold childrenOf
      rw [dent?_modifyDent_ne _ _ hODND, hsB,
        dent?_modifyDent_ne _ _ (Ne.symm hne1), hsA, dent?_modifyDent_self,
        hODd]
      rfl
    · unfold childrenOf
      rw [dent?_modifyDent_self, hsB,
        dent?_modifyDent_ne _ _ (Ne.symm hne2), hsA,
        dent?_modifyDent_ne _ _ (Ne.symm hODND), hNDd]
      rfl
  · intro hODND
    unfold childrenOf
    rw [dent?_modifyDent_self, hsB,
      dent?_modifyDent_ne _ _ (Ne.symm hne2), hsA, ← hODND,
      dent?_modifyDent_self, hODd]
    rfl
  · intro j hj1 hj2 hj3
    rw [dent?_modifyDent_ne _ _ hj3, hsB, dent?_modifyDent_ne _ _ hj1, hsA,
      dent?_modifyDent_ne _ _ hj2]
  · intro j
    by_cases hj1 : j = oldId
    · rw [if_pos hj1, hj1]
      unfold inode?
      rw [dent?_modifyDent_ne _ _ hne2, hBoldId]
      rfl
    · rw [if_neg hj1]
      by_cases hj3 : j = newDir
      · rw [hj3]
        unfold inode?
        rw [dent?_modifyDent_self, hsB,
          dent?_modifyDent_ne _ _ (Ne.symm hne2)]
        by_cases hj2 : newDir = oldDir
        · rw [hsA, hj2, dent?_modifyDent_self, ← hj2, hNDd]
          rfl
        · rw [hsA, dent?_modifyDent_ne _ _ hj2, hNDd]
          rfl
      · by_cases hj2 : j = oldDir
        · rw [hj2]
          unfold inode?
          rw [dent?_modifyDent_ne _ _ (fun h => hj3 (hj2.trans h)),
            hsB, dent?_modifyDent_ne _ _ (Ne.symm hne1), hsA,
            dent?_modifyDent_self, hODd]
          rfl
        · unfold inode?
          rw [dent?_modifyDent_ne _ _ hj3, hsB, dent?_modifyDent_ne _ _ hj1,
            hsA, dent?_modifyDent_ne _ _ hj2]

/-- C8: a successful `debugfs_rename` (live parents, positive non-trap
non-mountpoint source, no positive target of the new name) detaches the
source from the old parent's child list, renames and re-parents it onto
the head of the new parent's child list, moves one link from the old to
the new parent when the source is a directory and the parents differ,
touches nothing else, and returns the mutated dentry. -/
theorem C8_rename_success (s : FS) (oldDir oldId newDir : Nat) (newName : String)
    (od : Dentry)
    (hw : WFb s = true)
    (hod : dent? s oldId = some od)
    (hpar : od.parent = some oldDir)
    (hpos : od.inode.isSome = true)
    (hmnt : od.mnt = false)
    (hiOD : (inode? s oldDir).isSome = true)
    (hiND : (inode? s newDir).isSome = true)
    (htrap : lock_rename_trap s newDir oldDir ≠ some oldId)
    (hlk : lookup_one_len s newDir newName = none) :
    (debugfs_rename s oldDir oldId newDir newName).2 = some oldId ∧
    dent? (debugfs_rename s oldDir oldId newDir newName).1 oldId =
      some { od with name := newName, parent := some newDir } ∧
    (oldDir ≠ newDir →
      childrenOf (debugfs_rename s oldDir oldId newDir newName).1 oldDir =
        (childrenOf s oldDir).erase oldId ∧
      childrenOf (debugfs_rename s oldDir oldId newDir newName).1 newDir =
        oldId :: childrenOf s newDir) ∧
    (oldDir = newDir →
      childrenOf (debugfs_rename s oldDir oldId newDir newName).1 newDir =
        oldId :: (childrenOf s newDir).erase oldId) ∧
    (isDirAt s oldId = true → oldDir ≠ newDir →
      ∃ io ni, inode? s oldDir = some io ∧ inode? s newDir = some ni ∧
        inode? (debugfs_rename s oldDir oldId newDir newName).1 oldDir =
          some { io with nlink := io.nlink - 1 } ∧
        inode? (debugfs_rename s oldDir oldId newDir newName).1 newDir =
          some { ni with nlink := ni.nlink + 1 }) ∧
    (∀ j, j ≠ oldId → j ≠ oldDir → j ≠ newDir →
      dent? (debugfs_rename s oldDir oldId newDir newName).1 j = dent? s j) := by
  obtain ⟨hro, hcok, hmem, hnd, hrtd, hdcb⟩ := (WFb_iff s).mp hw
  have hoidlt : oldId < s.dentries.length := lt_of_dent?_eq_some hod
  have h0 : 0 < s.dentries.length := Nat.lt_of_le_of_lt (Nat.zero_le oldId) hoidlt
  have hparOf : parentOf s oldId = some oldDir := by
    rw [parentOf_eq_of_dent? hod]
    exact hpar
  have hne1 : oldId ≠ oldDir := parentOf_ne_self hrtd hoidlt hparOf
  have hne2 : oldId ≠ newDir := by
    intro he
    apply htrap
    unfold lock_rename_trap
    by_cases heq : newDir = oldDir
    · exfalso
      apply hne1
      rw [he, heq]
    · rw [if_neg heq]
      have hda : d_ancestor s s.dentries.length oldDir newDir = some oldId := by
        obtain ⟨f, hf⟩ := Nat.exists_eq_succ_of_ne_zero (Nat.pos_iff_ne_zero.mp h0)
        rw [hf, d_ancestor_succ, ← he, hparOf]
        simp
      rw [hda]
  obtain ⟨oi, hoi⟩ := Option.isSome_iff_exists.mp hpos
  obtain ⟨io, hio⟩ := Option.isSome_iff_exists.mp hiOD
  obtain ⟨ni, hind⟩ := Option.isSome_iff_exists.mp hiND
  have hrr : debugfs_rename s oldDir oldId newDir newName =
      (d_move (if isDirAt s oldId = true then
          incNlinkAt (dropNlinkAt s oldDir) newDir else s)
        oldId newDir newName, some oldId) := by
    unfold debugfs_rename
    simp only []
    have g1 : ((inode? s oldDir).isNone || (inode? s newDir).isNone) = false := by
      rw [hio, hind]
      rfl
    rw [g1]
    simp only [Bool.false_eq_true, if_false]
    have e1 : inode? s oldId = some oi := by
      rw [inode?_eq_of_dent? hod]
      exact hoi
    have e2 : (lock_rename_trap s newDir oldDir == some oldId) = false :=
      beq_eq_false_iff_ne.mpr htrap
    have e3 : d_mountpoint s oldId = false := by
      unfold d_mountpoint
      rw [hod]
      exact hmnt
    rw [e1, e2, e3]
    simp only [Option.isNone_some, Bool.or_self, Bool.or_false,
      Bool.false_eq_true, if_false]
    rw [hlk]
    simp only []
    have hsr : simple_rename s oldDir oldId newDir =
        ((if isDirAt s oldId = true then
           incNlinkAt (dropNlinkAt s oldDir) newDir else s), 0) := rfl
    rw [hsr]
    simp only []
    rw [if_neg (fun h : (0 : Int) ≠ 0 => h rfl)]
  have hsome : ∀ (X : FS) (x : Nat) (f : Inode → Inode) (j : Nat),
      (dent? (mapInodeAt X x f) j).isSome = (dent? X j).isSome := by
    intro X x f j
    by_cases hj : j = x
    · rw [hj, dent?_mapInodeAt_self]
      cases dent? X x <;> rfl
    · rw [dent?_mapInodeAt_ne _ _ hj]
  have hODsome : (dent? s oldDir).isSome = true := by
    unfold inode? at hio
    cases hd : dent? s oldDir with
    | none => rw [hd] at hio; exact Option.noConfusion hio
    | some d => rfl
  have hNDsome : (dent? s newDir).isSome = true := by
    unfold inode? at hind
    cases hd : dent? s newDir with
    | none => rw [hd] at hind; exact Option.noConfusion hind
    | some d => rfl
  cases hdirs : isDirAt s oldId with
  | false =>
    have hcond : ¬ isDirAt s oldId = true := by
      rw [hdirs]
      exact Bool.false_ne_true
    rw [if_neg hcond] at hrr
    rw [hrr]
    obtain ⟨odd, hODd⟩ := Option.isSome_iff_exists.mp hODsome
    obtain ⟨ndd, hNDd⟩ := Option.isSome_iff_exists.mp hNDsome
    obtain ⟨m1, m2, m3, m4, m5⟩ :=
      d_move_effects newName hod hpar hne1 hne2 hODd hNDd
    refine ⟨rfl, m1, ?_, m3, ?_, m4⟩
    · intro hODND
      exact m2 hODND
    · intro hdirs' _
      exact absurd hdirs' Bool.false_ne_true
  | true =>
    rw [if_pos hdirs] at hrr
    rw [hrr]
    set s1v := incNlinkAt (dropNlinkAt s oldDir) newDir with hs1v
    have hod1 : dent? s1v oldId = some od := by
      rw [hs1v, incNlinkAt_eq, dent?_mapInodeAt_ne _ _ hne2]
      unfold dropNlinkAt
      rw [dent?_mapInodeAt_ne _ _ hne1, hod]
    have hODsome1 : (dent? s1v oldDir).isSome = true := by
      rw [hs1v, incNlinkAt_eq, hsome]
      unfold dropNlinkAt
      rw [hsome]
      exact hODsome
    have hNDsome1 : (dent? s1v newDir).isSome = true := by
      rw [hs1v, incNlinkAt_eq, hsome]
      unfold dropNlinkAt
      rw [hsome]
      exact hNDsome
    obtain ⟨odd1, hODd1⟩ := Option.isSome_iff_exists.mp hODsome1
    obtain ⟨ndd1, hNDd1⟩ := Option.isSome_iff_exists.mp hNDsome1
    have hch1 : ∀ j, childrenOf s1v j = childrenOf s j := by
      intro j
      rw [hs1v, incNlinkAt_eq, childrenOf_mapInodeAt]
      unfold dropNlinkAt
      rw [childrenOf_mapInodeAt]
    have hfr1 : ∀ j, j ≠ oldDir → j ≠ newDir → dent? s1v j = dent? s j := by
      intro j hj1 hj2
      rw [hs1v, incNlinkAt_eq, dent?_mapInodeAt_ne _ _ hj2]
      unfold dropNlinkAt
      rw [dent?_mapInodeAt_ne _ _ hj1]
    obtain ⟨m1, m2, m3, m4, m5⟩ :=
      d_move_effects newName hod1 hpar hne1 hne2 hODd1 hNDd1
    refine ⟨rfl, m1, ?_, ?_, ?_, ?_⟩
    · intro hODND
      obtain ⟨c1, c2⟩ := m2 hODND
      constructor
      · rw [c1, hch1]
      · rw [c2, hch1]
    · intro hODND
      rw [m3 hODND, hch1]
    · intro _ hODND
      refine ⟨io, ni, hio, hind, ?_, ?_⟩
      · rw [m5 oldDir, if_neg (Ne.symm hne1), hs1v, incNlinkAt_eq,
          inode?_mapInodeAt_ne _ _ hODND]
        unfold dropNlinkAt
        rw [inode?_mapInodeAt_self, hio]
        rfl
      · rw [m5 newDir, if_neg (Ne.symm hne2), hs1v, incNlinkAt_eq,
          inode?_mapInodeAt_self]
        unfold dropNlinkAt
        rw [inode?_mapInodeAt_ne _ _ (Ne.symm hODND), hind]
        rfl
    · intro j hj1 hj2 hj3
      rw [m4 j hj1 hj2 hj3, hfr1 j hj2 hj3]

theorem C8_witness :
    WFb stXZ = true ∧
    (debugfs_rename stXZ 0 1 2 "y").2 = some 1 ∧
    dent? (debugfs_rename stXZ 0 1 2 "y").1 1 =
      some { name := "y", parent := some 2,
             inode := some { kind := IKind.dir, nlink := 2, perm := 0o755,
                             uid := 0, gid := 0 },
             children := [], mnt := false } ∧
    childrenOf (debugfs_rename stXZ 0 1 2 "y").1 0 =
      (childrenOf stXZ 0).erase 1 ∧
    childrenOf (debugfs_rename stXZ 0 1 2 "y").1 2 =
      1 :: childrenOf stXZ 2 ∧
    (∃ io ni, inode? stXZ 0 = some io ∧ inode? stXZ 2 = some ni ∧
      inode? (debugfs_rename stXZ 0 1 2 "y").1 0 =
        some { io with nlink := io.nlink - 1 } ∧
      inode? (debugfs_rename stXZ 0 1 2 "y").1 2 =
        some { ni with nlink := ni.nlink + 1 }) := by
  have h := C8_rename_success stXZ 0 1 2 "y"
    { name := "x", parent := some 0,
      inode := some { kind := IKind.dir, nlink := 2, perm := 0o755,
                      uid := 0, gid := 0 },
      children := [], mnt := false }
    (by decide) (by decide) rfl rfl rfl (by decide) (by decide)
    (by decide) (by decide)
  refine ⟨by decide, h.1, h.2.1, (h.2.2.1 (by decide)).1,
    (h.2.2.1 (by decide)).2, h.2.2.2.2.1 (by decide) (by decide)⟩

/-! ### The privileged flag gates nothing (C9 toolkit) -/

theorem dent?_priv (s : FS) (b : Bool) (j : Nat) :
    dent? (setPrivilege s b) j = dent? s j := rfl

theorem positive_priv (s : FS) (b : Bool) (j : Nat) :
    debugfs_positive (setPrivilege s b) j = debugfs_positive s j := rfl

theorem isDirAt_priv (s : FS) (b : Bool) (j : Nat) :
    isDirAt (setPrivilege s b) j = isDirAt s j := rfl

theorem childrenOf_priv (s : FS) (b : Bool) (j : Nat) :
    childrenOf (setPrivilege s b) j = childrenOf s j := rfl

theorem inode?_priv (s : FS) (b : Bool) (j : Nat) :
    inode? (setPrivilege s b) j = inode? s j := rfl

theorem d_mountpoint_priv (s : FS) (b : Bool) (j : Nat) :
    d_mountpoint (setPrivilege s b) j = d_mountpoint s j := rfl

theorem lookup_priv (s : FS) (b : Bool) (dirId : Nat) (name : String) :
    lookup_one_len (setPrivilege s b) dirId name = lookup_one_len s dirId name := rfl

theorem modifyDent_priv (s : FS) (b : Bool) (id : Nat) (f : Dentry → Dentry) :
    modifyDent (setPrivilege s b) id f = setPrivilege (modifyDent s id f) b := by
  unfold modifyDent
  have he : (setPrivilege s b).dentries.get? id = s.dentries.get? id := rfl
  rw [he]
  cases s.dentries.get? id with
  | none => rfl
  | some d => rfl

theorem mapInodeAt_priv (s : FS) (b : Bool) (x : Nat) (f : Inode → Inode) :
    mapInodeAt (setPrivilege s b) x f = setPrivilege (mapInodeAt s x f) b :=
  modifyDent_priv s b x _

theorem simple_release_priv (s : FS) (b : Bool) :
    simple_release_fs (setPrivilege s b) = setPrivilege (simple_release_fs s) b := rfl

theorem simple_pin_priv (a : Bool) (s : FS) (b : Bool) :
    simple_pin_fs a (setPrivilege s b) =
      (setPrivilege (simple_pin_fs a s).1 b, (simple_pin_fs a s).2) := by
  unfold simple_pin_fs
  by_cases h : s.mountCount = 0
  · have h' : (setPrivilege s b).mountCount = 0 := h
    simp only [setPrivilege] at *
    cases a <;> simp [h, h']
  · have h' : ¬(setPrivilege s b).mountCount = 0 := h
    simp only [setPrivilege] at *
    simp [h, h']

theorem d_delete_priv (s : FS) (b : Bool) (id : Nat) :
    d_delete (setPrivilege s b) id = setPrivilege (d_delete s id) b := by
  unfold d_delete
  rw [dent?_priv]
  cases hd : dent? s id with
  | none => rfl
  | some d =>
    simp only []
    cases d.parent with
    | none =>
      simp only []
      rw [modifyDent_priv]
    | some p =>
      simp only []
      rw [modifyDent_priv, modifyDent_priv]

theorem dropNlinkAt_priv (s : FS) (b : Bool) (x : Nat) :
    dropNlinkAt (setPrivilege s b) x = setPrivilege (dropNlinkAt s x) b :=
  mapInodeAt_priv s b x _

theorem incNlinkAt_priv (s : FS) (b : Bool) (x : Nat) :
    incNlinkAt (setPrivilege s b) x = setPrivilege (incNlinkAt s x) b :=
  mapInodeAt_priv s b x _

theorem simple_unlink_priv (s : FS) (b : Bool) (p c : Nat) :
    simple_unlink (setPrivilege s b) p c =
      ((setPrivilege (simple_unlink s p c).1 b), (simple_unlink s p c).2) := by
  unfold simple_unlink
  rw [dropNlinkAt_priv]

theorem simple_rmdir_priv (s : FS) (b : Bool) (p c : Nat) :
    simple_rmdir (setPrivilege s b) p c =
      ((setPrivilege (simple_rmdir s p c).1 b), (simple_rmdir s p c).2) := by
  unfold simple_rmdir
  have he : simple_empty (setPrivilege s b) c = simple_empty s c := rfl
  rw [he]
  cases hse : simple_empty s c with
  | false => simp
  | true =>
    simp only [Bool.not_true, Bool.false_eq_true, if_false]
    unfold simple_unlink
    simp only []
    rw [dropNlinkAt_priv, dropNlinkAt_priv, dropNlinkAt_priv]

theorem __debugfs_remove_priv (s : FS) (b : Bool) (id p : Nat) :
    __debugfs_remove (setPrivilege s b) id p =
      (setPrivilege (__debugfs_remove s id p).1 b, (__debugfs_remove s id p).2) := by
  unfold __debugfs_remove
  rw [positive_priv, isDirAt_priv]
  by_cases hpos : debugfs_positive s id = true
  · simp only [hpos, if_true]
    by_cases hdir : isDirAt s id = true
    · simp only [hdir, if_true]
      rw [simple_rmdir_priv]
      rcases hr : simple_rmdir s p id with ⟨s1, ret⟩
      simp only []
      by_cases hret : ret = 0
      · simp only [hret, if_true]
        rw [d_delete_priv]
      · simp only [hret, if_false]
    · simp only [hdir, Bool.false_eq_true, if_false]
      simp only [simple_unlink]
      simp [dropNlinkAt_priv, d_delete_priv]
  · simp only [hpos, Bool.false_eq_true, if_false]

theorem debugfs_remove_priv (s : FS) (b : Bool) (r : Ref) :
    debugfs_remove (setPrivilege s b) r = setPrivilege (debugfs_remove s r) b := by
  unfold debugfs_remove
  cases r with
  | null => rfl
  | err e => rfl
  | ptr id =>
    simp only []
    rw [dent?_priv]
    cases hd : dent? s id with
    | none => rfl
    | some d =>
      simp only []
      cases d.parent with
      | none => rfl
      | some p =>
        simp only []
        rw [inode?_priv]
        cases hip : inode? s p with
        | none => rfl
        | some i =>
          simp only []
          rw [__debugfs_remove_priv]
          rcases hr : __debugfs_remove s id p with ⟨s1, ret⟩
          simp only []
          by_cases hret : ret = 0
          · simp only [hret, if_true]
            rw [simple_release_priv]
          · simp only [hret, if_false]

theorem debugfs_mknod_priv (s : FS) (b : Bool) (dirId : Nat) (found : Option Nat)
    (name : String) (kind : IKind) (perm : Nat) (aOk : Bool) :
    debugfs_mknod (setPrivilege s b) dirId found name kind perm aOk =
      ((setPrivilege (debugfs_mknod s dirId found name kind perm aOk).1 b),
       (debugfs_mknod s dirId found name kind perm aOk).2.1,
       (debugfs_mknod s dirId found name kind perm aOk).2.2) := by
  unfold debugfs_mknod
  cases found with
  | some c => rfl
  | none =>
    cases aOk with
    | false => rfl
    | true =>
      simp only [reduceIte]
      have key : ∀ (L : List Dentry) (f : Dentry → Dentry),
          modifyDent { setPrivilege s b with dentries := L } dirId f =
            setPrivilege (modifyDent { s with dentries := L } dirId f) b :=
        fun L f => modifyDent_priv { s with dentries := L } b dirId f
      rw [show (setPrivilege s b).dentries = s.dentries from rfl, key]

theorem debugfs_mkdir_priv (s : FS) (b : Bool) (dirId : Nat) (found : Option Nat)
    (name : String) (perm : Nat) (aOk : Bool) :
    debugfs_mkdir (setPrivilege s b) dirId found name perm aOk =
      ((setPrivilege (debugfs_mkdir s dirId found name perm aOk).1 b),
       (debugfs_mkdir s dirId found name perm aOk).2.1,
       (debugfs_mkdir s dirId found name perm aOk).2.2) := by
  unfold debugfs_mkdir
  rw [debugfs_mknod_priv]
  rcases hr : debugfs_mknod s dirId found name IKind.dir perm aOk with ⟨s1, res, newId⟩
  simp only []
  by_cases hres : res = 0
  · simp only [if_pos hres]
    rw [incNlinkAt_priv]
  · simp only [if_neg hres]

theorem __create_file_priv (s : FS) (b : Bool) (name : String) (kind : IKind)
    (perm : Nat) (parent : Option Nat) (aOk tOk : Bool) :
    __create_file (setPrivilege s b) name kind perm parent aOk tOk =
      ((setPrivilege (__create_file s name kind perm parent aOk tOk).1 b),
       (__create_file s name kind perm parent aOk tOk).2) := by
  unfold __create_file
  rw [simple_pin_priv]
  rcases hp : simple_pin_fs tOk s with ⟨s1, err⟩
  simp only []
  by_cases herr : err ≠ 0
  · simp only [if_pos herr]
  · simp only [if_neg herr]
    rw [lookup_priv]
    cases kind with
    | dir =>
      rw [debugfs_mkdir_priv]
      rcases hm : debugfs_mkdir s1 (parent.getD 0)
        (lookup_one_len s1 (parent.getD 0) name) name perm aOk with ⟨s2, res, newId⟩
      simp only []
      by_cases hres : res ≠ 0
      · simp only [if_pos hres]
        rw [simple_release_priv]
      · simp only [if_neg hres]
    | lnk =>
      have hl : ∀ X, debugfs_link X (parent.getD 0)
          (lookup_one_len s1 (parent.getD 0) name) name perm aOk =
          debugfs_mknod X (parent.getD 0)
            (lookup_one_len s1 (parent.getD 0) name) name IKind.lnk perm aOk :=
        fun X => rfl
      rw [hl, hl, debugfs_mknod_priv]
      rcases hm : debugfs_mknod s1 (parent.getD 0)
        (lookup_one_len s1 (parent.getD 0) name) name IKind.lnk perm aOk with
        ⟨s2, res, newId⟩
      simp only []
      by_cases hres : res ≠ 0
      · simp only [if_pos hres]
        rw [simple_release_priv]
      · simp only [if_neg hres]
    | reg =>
      have hl : ∀ X, debugfs_create X (parent.getD 0)
          (lookup_one_len s1 (parent.getD 0) name) name perm aOk =
          debugfs_mknod X (parent.getD 0)
            (lookup_one_len s1 (parent.getD 0) name) name IKind.reg perm aOk :=
        fun X => rfl
      rw [hl, hl, debugfs_mknod_priv]
      rcases hm : debugfs_mknod s1 (parent.getD 0)
        (lookup_one_len s1 (parent.getD 0) name) name IKind.reg perm aOk with
        ⟨s2, res, newId⟩
      simp only []
      by_cases hres : res ≠ 0
      · simp only [if_pos hres]
        rw [simple_release_priv]
      · simp only [if_neg hres]
    | special =>
      have hl : ∀ X, debugfs_create X (parent.getD 0)
          (lookup_one_len s1 (parent.getD 0) name) name perm aOk =
          debugfs_mknod X (parent.getD 0)
            (lookup_one_len s1 (parent.getD 0) name) name IKind.reg perm aOk :=
        fun X => rfl
      rw [hl, hl, debugfs_mknod_priv]
      rcases hm : debugfs_mknod s1 (parent.getD 0)
        (lookup_one_len s1 (parent.getD 0) name) name IKind.reg perm aOk with
        ⟨s2, res, newId⟩
      simp only []
      by_cases hres : res ≠ 0
      · simp only [if_pos hres]
        rw [simple_release_priv]
      · simp only [if_neg hres]

theorem runOp_priv (s : FS) (b : Bool) (op : COp) :
    runOp (setPrivilege s b) op = setPrivilege (runOp s op) b := by
  cases op with
  | cfile name perm parent aOk tOk =>
    show (__create_file (setPrivilege s b) name IKind.reg perm parent aOk tOk).1 =
      setPrivilege (__create_file s name IKind.reg perm parent aOk tOk).1 b
    rw [__create_file_priv]
  | cdir name parent aOk tOk =>
    show (__create_file (setPrivilege s b) name IKind.dir 0o755 parent aOk tOk).1 =
      setPrivilege (__create_file s name IKind.dir 0o755 parent aOk tOk).1 b
    rw [__create_file_priv]
  | clink name parent sOk aOk tOk =>
    cases sOk with
    | false => rfl
    | true =>
      show (__create_file (setPrivilege s b) name IKind.lnk 0o777 parent aOk tOk).1 =
        setPrivilege (__create_file s name IKind.lnk 0o777 parent aOk tOk).1 b
      rw [__create_file_priv]
  | rm id => exact debugfs_remove_priv s b (Ref.ptr id)

theorem drr_loop_priv (t : Nat) : ∀ (fuel : Nat) (s : FS) (pid : Nat)
    (work : List Nat) (b : Bool),
    drr_loop t fuel (setPrivilege s b) pid work =
      (setPrivilege (drr_loop t fuel s pid work).1 b,
       (drr_loop t fuel s pid work).2) := by
  intro fuel
  induction fuel with
  | zero =>
    intro s pid work b
    rfl
  | succ fuel ih =>
    intro s pid work b
    cases work with
    | cons child next =>
      rw [drr_loop_cons, drr_loop_cons, positive_priv, childrenOf_priv]
      cases hpos : debugfs_positive s child with
      | false =>
        simp only [Bool.not_false, if_true]
        exact ih s pid next b
      | true =>
        simp only [Bool.not_true, Bool.false_eq_true, if_false]
        cases hemp : (childrenOf s child).isEmpty with
        | false =>
          simp only [Bool.not_false, if_true]
          exact ih s child (childrenOf s child) b
        | true =>
          simp only [Bool.not_true, Bool.false_eq_true, if_false]
          rw [__debugfs_remove_priv]
          rcases hr : __debugfs_remove s child pid with ⟨s1, ret⟩
          simp only []
          by_cases hret : ret = 0
          · simp only [if_pos hret]
            rw [simple_release_priv, ih]
          · simp only [if_neg hret]
            rw [ih]
    | nil =>
      rw [drr_loop_nil, drr_loop_nil, dent?_priv]
      cases hd : dent? s pid with
      | none => rfl
      | some cd =>
        simp only []
        cases cd.parent with
        | none => rfl
        | some gp =>
          simp only []
          by_cases hpt : pid ≠ t
          · simp only [if_pos hpt]
            rw [childrenOf_priv, positive_priv, __debugfs_remove_priv]
            rcases hr : __debugfs_remove s pid gp with ⟨s1, ret⟩
            simp only []
            by_cases hret : ret = 0
            · simp only [if_pos hret]
              rw [simple_release_priv, ih]
            · simp only [if_neg hret]
              rw [ih]
          · simp only [if_neg hpt]
            rw [positive_priv, __debugfs_remove_priv]
            rcases hr : __debugfs_remove s pid gp with ⟨s1, ret⟩
            simp only []
            by_cases hret : ret = 0
            · simp only [if_pos hret]
              rw [simple_release_priv]
            · simp only [if_neg hret]

theorem debugfs_remove_recursive_priv (s : FS) (b : Bool) (r : Ref) :
    debugfs_remove_recursive (setPrivilege s b) r =
      setPrivilege (debugfs_remove_recursive s r) b := by
  unfold debugfs_remove_recursive debugfs_remove_recursive_trace
  cases r with
  | null => rfl
  | err e => rfl
  | ptr id =>
    simp only []
    rw [dent?_priv]
    cases hd : dent? s id with
    | none => rfl
    | some d =>
      simp only []
      cases d.parent with
      | none => rfl
      | some p =>
        simp only []
        rw [inode?_priv]
        cases hip : inode? s p with
        | none => rfl
        | some i =>
          simp only []
          have hfe : drrFuel (setPrivilege s b) = drrFuel s := rfl
          rw [hfe, childrenOf_priv, drr_loop_priv]

theorem d_ancestor_priv (s : FS) (b : Bool) :
    ∀ (f : Nat) (a c : Nat), d_ancestor (setPrivilege s b) f a c = d_ancestor s f a c := by
  intro f
  induction f with
  | zero =>
    intro a c
    rfl
  | succ f ih =>
    intro a c
    rw [d_ancestor_succ, d_ancestor_succ]
    cases hp : parentOf s c with
    | none =>
      have hp' : parentOf (setPrivilege s b) c = none := hp
      rw [hp']
    | some p =>
      have hp' : parentOf (setPrivilege s b) c = some p := hp
      rw [hp']
      simp only []
      by_cases hpa : p = a
      · simp only [if_pos hpa]
      · simp only [if_neg hpa]
        exact ih a p

theorem lock_rename_trap_priv (s : FS) (b : Bool) (newDir oldDir : Nat) :
    lock_rename_trap (setPrivilege s b) newDir oldDir =
      lock_rename_trap s newDir oldDir := by
  unfold lock_rename_trap
  by_cases h : newDir = oldDir
  · simp only [if_pos h]
  · simp only [if_neg h]
    rw [show (setPrivilege s b).dentries.length = s.dentries.length from rfl,
      d_ancestor_priv, d_ancestor_priv]

theorem d_move_priv (s : FS) (b : Bool) (id nd : Nat) (nm : String) :
    d_move (setPrivilege s b) id nd nm = setPrivilege (d_move s id nd nm) b := by
  unfold d_move
  rw [dent?_priv]
  cases hd : dent? s id with
  | none => rfl
  | some d =>
    simp only []
    cases d.parent with
    | none =>
      simp only []
      rw [modifyDent_priv, modifyDent_priv]
    | some p =>
      simp only []
      rw [modifyDent_priv, modifyDent_priv, modifyDent_priv]

theorem debugfs_rename_priv (s : FS) (b : Bool) (oldDir oldId newDir : Nat)
    (newName : String) :
    debugfs_rename (setPrivilege s b) oldDir oldId newDir newName =
      (setPrivilege (debugfs_rename s oldDir oldId newDir newName).1 b,
       (debugfs_rename s oldDir oldId newDir newName).2) := by
  unfold debugfs_rename
  simp only []
  rw [lock_rename_trap_priv, inode?_priv, inode?_priv, inode?_priv,
    d_mountpoint_priv]
  by_cases g1 : ((inode? s oldDir).isNone || (inode? s newDir).isNone) = true
  · simp only [g1, if_true]
  · simp only [g1, Bool.false_eq_true, if_false]
    by_cases g2 : ((inode? s oldId).isNone ||
        (lock_rename_trap s newDir oldDir == some oldId) ||
        d_mountpoint s oldId) = true
    · simp only [g2, if_true]
    · simp only [g2, Bool.false_eq_true, if_false]
      rw [lookup_priv]
      cases hlk : lookup_one_len s newDir newName with
      | some c => rfl
      | none =>
        simp only []
        have hsr : ∀ X : FS, simple_rename X oldDir oldId newDir =
            ((if isDirAt X oldId = true then
               incNlinkAt (dropNlinkAt X oldDir) newDir else X), 0) :=
          fun X => rfl
        rw [hsr, hsr]
        simp only []
        simp only [if_neg (fun h : (0 : Int) ≠ 0 => h rfl)]
        rw [isDirAt_priv]
        by_cases hdirs : isDirAt s oldId = true
        · simp only [if_pos hdirs]
          rw [dropNlinkAt_priv, incNlinkAt_priv, d_move_priv]
        · simp only [if_neg hdirs]
          rw [d_move_priv]

theorem check_passwd_iff (cfg : Digest) (p : String) :
    debugfs_check_passwd cfg p = true ↔
      (cfg.d0 = 0 ∨ sha_model p = (cfg.d0, cfg.d1, cfg.d2, cfg.d3, cfg.d4)) := by
  unfold debugfs_check_passwd
  by_cases h0 : cfg.d0 = 0
  · simp [h0]
  · rw [if_neg h0]
    rcases hs : sha_model p with ⟨g0, g1, g2, g3, g4⟩
    simp only []
    constructor
    · intro h
      right
      have e0 : g0 = cfg.d0 := by
        by_contra hne
        rw [if_pos hne] at h
        exact Bool.noConfusion h
      rw [if_neg (fun hh => hh e0)] at h
      have e1 : g1 = cfg.d1 := by
        by_contra hne
        rw [if_pos hne] at h
        exact Bool.noConfusion h
      rw [if_neg (fun hh => hh e1)] at h
      have e2 : g2 = cfg.d2 := by
        by_contra hne
        rw [if_pos hne] at h
        exact Bool.noConfusion h
      rw [if_neg (fun hh => hh e2)] at h
      have e3 : g3 = cfg.d3 := by
        by_contra hne
        rw [if_pos hne] at h
        exact Bool.noConfusion h
      rw [if_neg (fun hh => hh e3)] at h
      have e4 : g4 = cfg.d4 := by
        by_contra hne
        rw [if_pos hne] at h
        exact Bool.noConfusion h
      rw [e0, e1, e2, e3, e4]
    · intro h
      rcases h with h | h
      · exact absurd h h0
      · simp only [Prod.mk.injEq] at h
        obtain ⟨e0, e1, e2, e3, e4⟩ := h
        simp [e0, e1, e2, e3, e4]

/-- C9 counterexample to the literal claim: with the compiled-in digest
left at its default (all `CONFIG_DEBUG_FS_DIGEST` words 0, as when the
config options are unset), mounting with the passwd `"wrong"` sets
`privilege = true` even though the hash of `"wrong"` differs from the
reference digest — the check is disabled rather than compared. -/
theorem C9_counterexample :
    (debugfs_apply_options ⟨0, 0, 0, 0, 0⟩
      { initFS with opts := { initFS.opts with passwd := "wrong" } }).opts.privilege
        = true ∧
    sha_model "wrong" ≠ (0, 0, 0, 0, 0) := by
  constructor
  · decide
  · decide

/-- C9 (amended): `debugfs_apply_options` sets the privileged flag to
true exactly when the digest check passes, which — because every
`CONFIG_DEBUG_FS_DIGEST` word defaults to 0 — means: either no digest is
compiled in (`d0 = 0`, check disabled, everything accepted) or the hash
of the passwd equals the compiled-in digest.  The flag gates nothing:
every core operation (create file/dir/symlink, remove, recursive
removal, rename) commutes with flipping it, acting identically on
stores that differ only in the flag. -/
theorem C9_passwd_privilege (cfg : Digest) (s : FS) :
    ((debugfs_apply_options cfg s).opts.privilege = true ↔
      (cfg.d0 = 0 ∨ sha_model s.opts.passwd =
        (cfg.d0, cfg.d1, cfg.d2, cfg.d3, cfg.d4))) ∧
    (∀ b op, runOp (setPrivilege s b) op = setPrivilege (runOp s op) b) ∧
    (∀ b r, debugfs_remove (setPrivilege s b) r =
      setPrivilege (debugfs_remove s r) b) ∧
    (∀ b r, debugfs_remove_recursive (setPrivilege s b) r =
      setPrivilege (debugfs_remove_recursive s r) b) ∧
    (∀ b oldDir oldId newDir newName,
      debugfs_rename (setPrivilege s b) oldDir oldId newDir newName =
        (setPrivilege (debugfs_rename s oldDir oldId newDir newName).1 b,
         (debugfs_rename s oldDir oldId newDir newName).2)) := by
  refine ⟨?_, ?_, ?_, ?_, ?_⟩
  · have hpriv : (debugfs_apply_options cfg s).opts.privilege =
        debugfs_check_passwd cfg s.opts.passwd := by
      unfold debugfs_apply_options
      simp only []
      rw [mapInodeAt_opts]
    rw [hpriv]
    exact check_passwd_iff cfg s.opts.passwd
  · intro b op
    exact runOp_priv s b op
  · intro b r
    exact debugfs_remove_priv s b r
  · intro b r
    exact debugfs_remove_recursive_priv s b r
  · intro b oldDir oldId newDir newName
    exact debugfs_rename_priv s b oldDir oldId newDir newName

/-! ### Parent-chain counting (for the rename preservation proof) -/

theorem iterList_zero (s : FS) (x : Nat) : iterList s 0 x = [x] := rfl

theorem iterList_succ (s : FS) (k x : Nat) :
    iterList s (k + 1) x =
      x :: (match parentOf s x with
            | some p => iterList s k p
            | none => []) := rfl

theorem chainToRoot_mono {s : FS} :
    ∀ f {g j}, f ≤ g → chainToRoot s f j = true → chainToRoot s g j = true := by
  intro f
  induction f with
  | zero =>
    intro g j _ h
    simp [chainToRoot] at h
  | succ f ih =>
    intro g j hle h
    obtain ⟨g', rfl⟩ := Nat.exists_eq_succ_of_ne_zero
      (Nat.pos_iff_ne_zero.mp (Nat.lt_of_lt_of_le (Nat.succ_pos f) hle))
    rw [chainToRoot_succ] at h
    rw [chainToRoot_succ]
    cases hd : dent? s j with
    | none =>
      rw [hd] at h
      exact absurd h (by simp)
    | some d =>
      rw [hd] at h
      simp only [] at h
      simp only []
      cases hp : d.parent with
      | none => rfl
      | some p =>
        rw [hp] at h
        simp only [] at h
        simp only []
        exact ih (Nat.le_of_succ_le_succ hle) h

theorem chain_step_facts {s : FS} {x p : Nat}
    (hcr : chainToRoot s s.dentries.length x = true)
    (hp : parentOf s x = some p) :
    p < s.dentries.length ∧ chainToRoot s s.dentries.length p = true := by
  have h0 : s.dentries.length ≠ 0 := by
    intro h0
    rw [h0] at hcr
    simp [chainToRoot] at hcr
  obtain ⟨f, hlen⟩ := Nat.exists_eq_succ_of_ne_zero h0
  rw [hlen, chainToRoot_succ] at hcr
  cases hd : dent? s x with
  | none =>
    rw [hd] at hcr
    exact absurd hcr (by simp)
  | some d =>
    rw [hd] at hcr
    simp only [] at hcr
    have hdp : d.parent = some p := by
      have := parentOf_eq_of_dent? hd
      rw [this] at hp
      exact hp
    rw [hdp] at hcr
    simp only [] at hcr
    have hcrp : chainToRoot s s.dentries.length p = true := by
      rw [hlen]
      exact chainToRoot_mono f (Nat.le_succ f) hcr
    have hplt : p < s.dentries.length := by
      cases f with
      | zero => simp [chainToRoot] at hcr
      | succ f' =>
        rw [chainToRoot_succ] at hcr
        cases hdp' : dent? s p with
        | none =>
          rw [hdp'] at hcr
          exact absurd hcr (by simp)
        | some dp => exact lt_of_dent?_eq_some hdp'
    exact ⟨hplt, hcrp⟩

theorem chain_facts' {s : FS} (hroot : rootedb s = true) :
    ∀ (i : Nat) {x y : Nat}, x < s.dentries.length →
      parentIter s i x = some y →
      y < s.dentries.length ∧ chainToRoot s s.dentries.length y = true := by
  intro i
  induction i with
  | zero =>
    intro x y hx h
    rw [parentIter_zero] at h
    have := Option.some.inj h
    rw [← this]
    exact ⟨hx, (rootedb_iff s).mp hroot x hx⟩
  | succ i ih =>
    intro x y hx h
    rw [parentIter_succ] at h
    cases hp : parentOf s x with
    | none =>
      rw [hp] at h
      exact Option.noConfusion h
    | some p =>
      rw [hp] at h
      simp only [] at h
      obtain ⟨hplt, _⟩ := chain_step_facts ((rootedb_iff s).mp hroot x hx) hp
      exact ih hplt h

theorem iterList_length {s : FS} :
    ∀ (k : Nat) {x r : Nat}, parentIter s k x = some r →
      (iterList s k x).length = k + 1 := by
  intro k
  induction k with
  | zero =>
    intro x r _
    rfl
  | succ k ih =>
    intro x r h
    rw [parentIter_succ] at h
    cases hp : parentOf s x with
    | none =>
      rw [hp] at h
      exact Option.noConfusion h
    | some p =>
      rw [hp] at h
      simp only [] at h
      rw [iterList_succ, hp]
      simp only [List.length_cons]
      rw [ih h]

theorem iterList_mem {s : FS} :
    ∀ (k : Nat) {x r : Nat}, parentIter s k x = some r →
      ∀ y, y ∈ iterList s k x ↔ ∃ i, i ≤ k ∧ parentIter s i x = some y := by
  intro k
  induction k with
  | zero =>
    intro x r _ y
    rw [iterList_zero]
    constructor
    · intro hy
      have : y = x := by
        rcases List.mem_cons.mp hy with h' | h'
        · exact h'
        · exact absurd h' (List.not_mem_nil y)
      exact ⟨0, Nat.le_refl 0, by rw [parentIter_zero, this]⟩
    · intro ⟨i, hi, hit⟩
      have hi0 : i = 0 := Nat.le_zero.mp hi
      rw [hi0, parentIter_zero] at hit
      have hxy : x = y := Option.some.inj hit
      rw [← hxy]
      exact List.mem_cons_self x []
  | succ k ih =>
    intro x r h y
    rw [parentIter_succ] at h
    cases hp : parentOf s x with
    | none =>
      rw [hp] at h
      exact Option.noConfusion h
    | some p =>
      rw [hp] at h
      simp only [] at h
      rw [iterList_succ, hp]
      simp only []
      rw [List.mem_cons]
      constructor
      · intro hy
        rcases hy with hy | hy
        · exact ⟨0, Nat.zero_le _, by rw [parentIter_zero, hy]⟩
        · obtain ⟨i, hi, hit⟩ := (ih h y).mp hy
          refine ⟨i + 1, Nat.succ_le_succ hi, ?_⟩
          rw [parentIter_succ, hp]
          exact hit
      · intro ⟨i, hi, hit⟩
        cases i with
        | zero =>
          rw [parentIter_zero] at hit
          exact Or.inl (Option.some.inj hit).symm
        | succ i =>
          rw [parentIter_succ, hp] at hit
          simp only [] at hit
          exact Or.inr ((ih h y).mpr ⟨i, Nat.le_of_succ_le_succ hi, hit⟩)

theorem iterList_nodup {s : FS} (hroot : rootedb s = true) :
    ∀ (k : Nat) {x r : Nat}, x < s.dentries.length →
      parentIter s k x = some r → (iterList s k x).Nodup := by
  intro k
  induction k with
  | zero =>
    intro x r _ _
    simp [iterList_zero]
  | succ k ih =>
    intro x r hx h
    have h' := h
    rw [parentIter_succ] at h'
    cases hp : parentOf s x with
    | none =>
      rw [hp] at h'
      exact Option.noConfusion h'
    | some p =>
      rw [hp] at h'
      simp only [] at h'
      rw [iterList_succ, hp]
      simp only []
      refine List.nodup_cons.mpr ⟨?_, ?_⟩
      · intro hmem
        obtain ⟨i, hi, hit⟩ := (iterList_mem k h' x).mp hmem
        have hcyc : parentIter s (i + 1) x = some x := by
          rw [parentIter_succ, hp]
          exact hit
        exact not_self_iter hroot hx hcyc
      · obtain ⟨hplt, _⟩ := chain_step_facts ((rootedb_iff s).mp hroot x hx) hp
        exact ih hplt h'

theorem iter_le_len {s : FS} (hroot : rootedb s = true) {k x r : Nat}
    (hx : x < s.dentries.length) (h : parentIter s k x = some r) :
    k + 1 ≤ s.dentries.length := by
  have hnd := iterList_nodup hroot k hx h
  have hsub : iterList s k x ⊆ List.range s.dentries.length := by
    intro y hy
    obtain ⟨i, _, hit⟩ := (iterList_mem k h y).mp hy
    rw [List.mem_range]
    exact (chain_facts' hroot i hx hit).1
  have hle := (List.subperm_of_subset hnd hsub).length_le
  rw [iterList_length k h, List.length_range] at hle
  exact hle

theorem chainToRoot_of_iter {s : FS} :
    ∀ (n : Nat) {j r : Nat} {f : Nat},
      parentIter s n j = some r → parentOf s r = none →
      (∀ i y, i ≤ n → parentIter s i j = some y → (dent? s y).isSome = true) →
      n < f → chainToRoot s f j = true := by
  intro n
  induction n with
  | zero =>
    intro j r f hit hr hdent hf
    rw [parentIter_zero] at hit
    have hjr : j = r := Option.some.inj hit
    obtain ⟨f', rfl⟩ := Nat.exists_eq_succ_of_ne_zero
      (Nat.pos_iff_ne_zero.mp hf)
    rw [chainToRoot_succ]
    obtain ⟨d, hd⟩ := Option.isSome_iff_exists.mp
      (hdent 0 j (Nat.le_refl 0) (parentIter_zero s j))
    rw [hd]
    simp only []
    have hdp : d.parent = none := by
      have := parentOf_eq_of_dent? hd
      rw [hjr] at this
      rw [← this]
      exact hjr ▸ hr
    rw [hdp]
  | succ n ih =>
    intro j r f hit hr hdent hf
    have hit' := hit
    rw [parentIter_succ] at hit'
    cases hp : parentOf s j with
    | none =>
      rw [hp] at hit'
      exact Option.noConfusion hit'
    | some p =>
      rw [hp] at hit'
      simp only [] at hit'
      obtain ⟨f', rfl⟩ := Nat.exists_eq_succ_of_ne_zero
        (Nat.pos_iff_ne_zero.mp (Nat.lt_of_le_of_lt (Nat.zero_le (n + 1)) hf))
      rw [chainToRoot_succ]
      obtain ⟨d, hd⟩ := Option.isSome_iff_exists.mp
        (hdent 0 j (Nat.zero_le _) (parentIter_zero s j))
      rw [hd]
      simp only []
      have hdp : d.parent = some p := by
        have := parentOf_eq_of_dent? hd
        rw [← this]
        exact hp
      rw [hdp]
      simp only []
      refine ih hit' hr ?_ (Nat.lt_of_succ_lt_succ hf)
      intro i y hi hity
      refine hdent (i + 1) y (Nat.succ_le_succ hi) ?_
      rw [parentIter_succ, hp]
      exact hity

/-- Chains that cannot visit `bad` (a free slot) survive a modification
that only touches `bad` and parent-preserving rewrites elsewhere. -/
theorem chainToRoot_congr_cond {s s' : FS} {bad : Nat}
    (hsh : ∀ x, x ≠ bad →
      (dent? s' x).map Dentry.parent = (dent? s x).map Dentry.parent)
    (hbad : dent? s bad = none) :
    ∀ (f : Nat) (j : Nat), chainToRoot s f j = true → chainToRoot s' f j = true := by
  intro f
  induction f with
  | zero =>
    intro j h
    simp [chainToRoot] at h
  | succ f ih =>
    intro j h
    rw [chainToRoot_succ] at h
    rw [chainToRoot_succ]
    cases hd : dent? s j with
    | none =>
      rw [hd] at h
      exact absurd h (by simp)
    | some d =>
      rw [hd] at h
      simp only [] at h
      have hjb : j ≠ bad := by
        intro he
        rw [he, hbad] at hd
        exact Option.noConfusion hd
      have hsh' := hsh j hjb
      rw [hd] at hsh'
      cases hd' : dent? s' j with
      | none =>
        rw [hd'] at hsh'
        exact Option.noConfusion hsh'
      | some d' =>
        rw [hd'] at hsh'
        simp only [Option.map_some'] at hsh'
        have hpp : d'.parent = d.parent := Option.some.inj hsh'
        simp only []
        rw [hpp]
        cases hp : d.parent with
        | none => rfl
        | some p =>
          rw [hp] at h
          simp only [] at h
          exact ih p h

/-- A successful creation — a fresh positive childless node appended at
the first free slot under a directory parent, the parent gaining that
node at the head of its child list and one extra link exactly when the
new node is a directory — preserves well-formedness and the link-count
invariant. -/
theorem WF_create {s s' : FS} {pid : Nat} {name : String} {kind : IKind}
    {perm : Nat}
    (hw : WFb s = true) (hl : linkb s = true)
    (hpdir : isDirAt s pid = true)
    (hlen : s'.dentries.length = s.dentries.length + 1)
    (hchar : ∀ j, dent? s' j =
      if j = s.dentries.length then some (newDentry pid name kind perm)
      else if j = pid then
        (dent? s j).map fun d =>
          { d with
            children := s.dentries.length :: d.children,
            inode := if kind = IKind.dir then
                d.inode.map (fun i => { i with nlink := i.nlink + 1 })
              else d.inode }
      else dent? s j) :
    WFb s' = true ∧ linkb s' = true := by
  obtain ⟨hro, hcok, hmem, hnd, hrtd, hdcb⟩ := (WFb_iff s).mp hw
  have hpiE : ∃ pi, inode? s pid = some pi ∧ pi.kind = IKind.dir := by
    unfold isDirAt at hpdir
    cases hi : inode? s pid with
    | none => rw [hi] at hpdir; exact absurd hpdir (by simp)
    | some i =>
      rw [hi] at hpdir
      simp only [] at hpdir
      exact ⟨i, rfl, by rwa [beq_iff_eq] at hpdir⟩
  obtain ⟨pi, hpi, hpik⟩ := hpiE
  have hpdE : ∃ pd, dent? s pid = some pd ∧ pd.inode = some pi := by
    unfold inode? at hpi
    cases hd : dent? s pid with
    | none => rw [hd] at hpi; exact Option.noConfusion hpi
    | some pd => rw [hd] at hpi; exact ⟨pd, rfl, hpi⟩
  obtain ⟨pd, hpd, hpdi⟩ := hpdE
  have hpidlt : pid < s.dentries.length := lt_of_dent?_eq_some hpd
  have hpidne : pid ≠ s.dentries.length := Nat.ne_of_lt hpidlt
  have hfresh : dent? s s.dentries.length = none :=
    dent?_eq_none_of_le (Nat.le_refl _)
  have hnew : dent? s' s.dentries.length = some (newDentry pid name kind perm) := by
    rw [hchar, if_pos rfl]
  have hP : dent? s' pid = some { pd with
      children := s.dentries.length :: pd.children,
      inode := if kind = IKind.dir then
          pd.inode.map (fun i => { i with nlink := i.nlink + 1 })
        else pd.inode } := by
    rw [hchar, if_neg hpidne, if_pos rfl, hpd]
    rfl
  have hFr : ∀ j, j ≠ s.dentries.length → j ≠ pid → dent? s' j = dent? s j := by
    intro j h1 h2
    rw [hchar, if_neg h1, if_neg h2]
  have hshape : ∀ x, x ≠ s.dentries.length →
      (dent? s' x).map Dentry.parent = (dent? s x).map Dentry.parent := by
    intro x h1
    by_cases h2 : x = pid
    · rw [h2, hP, hpd]
      rfl
    · rw [hFr x h1 h2]
  have hchildren : ∀ j, childrenOf s' j =
      if j = s.dentries.length then []
      else if j = pid then s.dentries.length :: childrenOf s pid
      else childrenOf s j := by
    intro j
    by_cases h1 : j = s.dentries.length
    · rw [if_pos h1, h1]
      exact childrenOf_eq_of_dent? hnew
    · rw [if_neg h1]
      by_cases h2 : j = pid
      · rw [if_pos h2, h2]
        rw [childrenOf_eq_of_dent? hpd]
        exact childrenOf_eq_of_dent? hP
      · rw [if_neg h2]
        unfold childrenOf
        rw [hFr j h1 h2]
  have hdirL : isDirAt s' s.dentries.length = decide (kind = IKind.dir) := by
    unfold isDirAt
    rw [inode?_eq_of_dent? hnew]
    cases kind <;> rfl
  have hdirf : ∀ j, j ≠ s.dentries.length → isDirAt s' j = isDirAt s j := by
    intro j h1
    by_cases h2 : j = pid
    · rw [h2]
      unfold isDirAt
      rw [inode?_eq_of_dent? hP, inode?_eq_of_dent? hpd, hpdi]
      cases kind <;> rfl
    · unfold isDirAt inode?
      rw [hFr j h1 h2]
  have hmemlt : ∀ p c, c ∈ childrenOf s p → c < s.dentries.length := by
    intro p c hc
    obtain ⟨cd, hcd, _, _⟩ := child_facts hcok hc
    exact lt_of_dent?_eq_some hcd
  have hchildok : ∀ p c, childOkAt s p c = true → childOkAt s' p c = true := by
    intro p c h
    obtain ⟨cd, hcd, hcp, hcpos⟩ := (childOkAt_iff s p c).mp h
    have hcne : c ≠ s.dentries.length := Nat.ne_of_lt (lt_of_dent?_eq_some hcd)
    by_cases h2 : c = pid
    · refine (childOkAt_iff s' p c).mpr ⟨{ pd with
          children := s.dentries.length :: pd.children,
          inode := if kind = IKind.dir then
              pd.inode.map (fun i => { i with nlink := i.nlink + 1 })
            else pd.inode }, ?_, ?_, ?_⟩
      · rw [h2]
        exact hP
      · have hcdpd : cd = pd := by
          rw [h2] at hcd
          rw [hcd] at hpd
          exact Option.some.inj hpd
        show pd.parent = some p
        rw [← hcdpd]
        exact hcp
      · show (if kind = IKind.dir then
            pd.inode.map (fun i => { i with nlink := i.nlink + 1 })
          else pd.inode).isSome = true
        rw [hpdi]
        cases kind <;> rfl
    · refine (childOkAt_iff s' p c).mpr ⟨cd, ?_, hcp, hcpos⟩
      rw [hFr c hcne h2]
      exact hcd
  have hsup : ∀ q x, x ∈ childrenOf s q → x ∈ childrenOf s' q := by
    intro q x hx
    rw [hchildren q]
    by_cases e1 : q = s.dentries.length
    · rw [e1] at hx
      rw [childrenOf_eq_nil_of_none hfresh] at hx
      exact absurd hx (List.not_mem_nil x)
    · rw [if_neg e1]
      by_cases e2 : q = pid
      · rw [if_pos e2]
        rw [e2] at hx
        exact List.mem_cons_of_mem _ hx
      · rw [if_neg e2]
        exact hx
  have hro' : rootOkb s' = true := by
    obtain ⟨rd, ri, hrd, hrp, hri, hrk⟩ := (rootOkb_iff s).mp hro
    have h0ne : (0 : Nat) ≠ s.dentries.length := Nat.ne_of_lt (lt_of_dent?_eq_some hrd)
    by_cases h2 : (0 : Nat) = pid
    · have hpdrd : pd = rd := by
        rw [← h2] at hpd
        rw [hpd] at hrd
        exact Option.some.inj hrd
      refine (rootOkb_iff s').mpr
        ⟨{ pd with
            children := s.dentries.length :: pd.children,
            inode := if kind = IKind.dir then
                pd.inode.map (fun i => { i with nlink := i.nlink + 1 })
              else pd.inode },
          if kind = IKind.dir then { ri with nlink := ri.nlink + 1 } else ri,
          ?_, ?_, ?_, ?_⟩
      · rw [h2]
        exact hP
      · show pd.parent = none
        rw [hpdrd]
        exact hrp
      · show (if kind = IKind.dir then
            pd.inode.map (fun i => { i with nlink := i.nlink + 1 })
          else pd.inode) =
          some (if kind = IKind.dir then { ri with nlink := ri.nlink + 1 } else ri)
        rw [hpdrd, hri]
        cases kind <;> rfl
      · show (if kind = IKind.dir then { ri with nlink := ri.nlink + 1 } else ri).kind =
          IKind.dir
        cases kind <;> exact hrk
    · refine (rootOkb_iff s').mpr ⟨rd, ri, ?_, hrp, hri, hrk⟩
      rw [hFr 0 h0ne h2]
      exact hrd
  have hcok' : childrenOkb s' = true := by
    refine (childrenOkb_iff s').mpr ?_
    intro p c hc
    rw [hchildren p] at hc
    by_cases h1 : p = s.dentries.length
    · rw [if_pos h1] at hc
      exact absurd hc (List.not_mem_nil c)
    · rw [if_neg h1] at hc
      by_cases h2 : p = pid
      · rw [if_pos h2] at hc
        rcases List.mem_cons.mp hc with hcL | hcold
        · refine (childOkAt_iff s' p c).mpr ⟨newDentry pid name kind perm, ?_, ?_, ?_⟩
          · rw [hcL]
            exact hnew
          · show some pid = some p
            rw [h2]
          · rfl
        · rw [h2]
          exact hchildok pid c ((childrenOkb_iff s).mp hcok pid c hcold)
      · rw [if_neg h2] at hc
        exact hchildok p c ((childrenOkb_iff s).mp hcok p c hc)
  have hmem' : memChildb s' = true := by
    refine (memChildb_iff s').mpr ?_
    intro c cd hc hcpos
    by_cases h1 : c = s.dentries.length
    · rw [h1, hnew] at hc
      have hcd : cd = newDentry pid name kind perm := (Option.some.inj hc).symm
      rw [hcd]
      show c ∈ childrenOf s' pid
      rw [hchildren pid, if_neg hpidne, if_pos (rfl : pid = pid), h1]
      exact List.mem_cons_self _ _
    · by_cases h2 : c = pid
      · rw [h2, hP] at hc
        have hcd : cd = { pd with
            children := s.dentries.length :: pd.children,
            inode := if kind = IKind.dir then
                pd.inode.map (fun i => { i with nlink := i.nlink + 1 })
              else pd.inode } := (Option.some.inj hc).symm
        have hpidpos : pd.inode.isSome = true := by
          rw [hpdi]
          rfl
        have hs := (memChildb_iff s).mp hmem pid pd hpd hpidpos
        rw [hcd]
        show (match pd.parent with
              | some p => c ∈ childrenOf s' p
              | none => c = 0)
        cases hpp : pd.parent with
        | some q =>
          rw [hpp] at hs
          simp only [] at hs
          simp only []
          rw [h2]
          exact hsup q pid hs
        | none =>
          rw [hpp] at hs
          simp only [] at hs
          simp only []
          rw [h2]
          exact hs
      · rw [hFr c h1 h2] at hc
        have hs := (memChildb_iff s).mp hmem c cd hc hcpos
        cases hpp : cd.parent with
        | some q =>
          rw [hpp] at hs
          simp only [] at hs
          simp only []
          exact hsup q c hs
        | none =>
          rw [hpp] at hs
          simp only [] at hs
          simp only []
          exact hs
  have hnd' : nodupb s' = true := by
    refine (nodupb_iff s').mpr ?_
    intro p
    rw [hchildren p]
    by_cases h1 : p = s.dentries.length
    · rw [if_pos h1]
      exact List.nodup_nil
    · rw [if_neg h1]
      by_cases h2 : p = pid
      · rw [if_pos h2]
        refine List.nodup_cons.mpr ⟨?_, (nodupb_iff s).mp hnd pid⟩
        intro hmemL
        exact absurd (hmemlt pid _ hmemL) (Nat.lt_irrefl _)
      · rw [if_neg h2]
        exact (nodupb_iff s).mp hnd p
  have hrtd' : rootedb s' = true := by
    refine (rootedb_iff s').mpr ?_
    intro j hj
    rw [hlen] at hj
    have hcong := chainToRoot_congr_cond hshape hfresh
    by_cases h1 : j = s.dentries.length
    · rw [hlen, h1, chainToRoot_succ, hnew]
      exact hcong s.dentries.length pid ((rootedb_iff s).mp hrtd pid hpidlt)
    · have hjlt : j < s.dentries.length := Nat.lt_of_le_of_ne (Nat.le_of_lt_succ hj) h1
      rw [hlen]
      exact chainToRoot_mono s.dentries.length (Nat.le_succ _)
        (hcong s.dentries.length j ((rootedb_iff s).mp hrtd j hjlt))
  have hdcb' : dirChildrenb s' = true := by
    refine (dirChildrenb_iff s').mpr ?_
    intro j hne
    rw [hchildren j] at hne
    by_cases h1 : j = s.dentries.length
    · rw [if_pos h1] at hne
      exact absurd rfl hne
    · rw [if_neg h1] at hne
      rw [hdirf j h1]
      by_cases h2 : j = pid
      · rw [h2]
        exact hpdir
      · rw [if_neg h2] at hne
        exact (dirChildrenb_iff s).mp hdcb j hne
  have hl' : linkb s' = true := by
    refine (linkb_iff s').mpr ?_
    intro id
    by_cases h1 : id = s.dentries.length
    · refine linkOkAt_intro ?_
      intro i hi hk
      rw [h1] at hi ⊢
      rw [inode?_eq_of_dent? hnew] at hi
      have hieq : debugfs_get_inode (effectiveKind kind) perm = i := Option.some.inj hi
      rw [← hieq] at hk
      rw [hchildren, if_pos (rfl : s.dentries.length = s.dentries.length),
        List.countP_nil]
      rw [← hieq]
      cases kind with
      | dir => rfl
      | reg => exact IKind.noConfusion hk
      | lnk => exact IKind.noConfusion hk
      | special => exact IKind.noConfusion hk
    · by_cases h2 : id = pid
      · refine linkOkAt_intro ?_
        intro i hi hk
        rw [h2] at hi ⊢
        rw [inode?_eq_of_dent? hP] at hi
        have hcnt : List.countP (fun x => isDirAt s' x) (childrenOf s pid)
            = List.countP (fun x => isDirAt s x) (childrenOf s pid) :=
          countP_congr_mem (fun a ha => hdirf a (Nat.ne_of_lt (hmemlt pid a ha)))
        have hold : pi.nlink = 2 + (childrenOf s pid).countP (fun x => isDirAt s x) :=
          linkOkAt_dir ((linkb_iff s).mp hl pid) hpi hpik
        by_cases hk2 : kind = IKind.dir
        · have hdL : isDirAt s' s.dentries.length = true := by
            rw [hdirL, hk2]
            rfl
          rw [if_pos hk2, hpdi] at hi
          have hieq : ({ pi with nlink := pi.nlink + 1 } : Inode) = i := Option.some.inj hi
          have hin : i.nlink = pi.nlink + 1 := by
            rw [← hieq]
          have hc2 : List.countP (fun x => isDirAt s' x) (childrenOf s' pid)
              = List.countP (fun x => isDirAt s x) (childrenOf s pid) + 1 := by
            rw [hchildren, if_neg hpidne, if_pos (rfl : pid = pid),
              List.countP_cons, hcnt]
            simp [hdL]
          rw [hc2, hin, hold]
          omega
        · have hdL : isDirAt s' s.dentries.length = false := by
            rw [hdirL]
            simp [hk2]
          rw [if_neg hk2, hpdi] at hi
          have hieq : pi = i := Option.some.inj hi
          have hc2 : List.countP (fun x => isDirAt s' x) (childrenOf s' pid)
              = List.countP (fun x => isDirAt s x) (childrenOf s pid) := by
            rw [hchildren, if_neg hpidne, if_pos (rfl : pid = pid),
              List.countP_cons, hcnt]
            simp [hdL]
          rw [hc2, ← hieq]
          exact hold
      · refine linkOkAt_intro ?_
        intro i hi hk
        have hinoeq : inode? s' id = inode? s id := by
          unfold inode?
          rw [hFr id h1 h2]
        rw [hinoeq] at hi
        have hc2 : List.countP (fun x => isDirAt s' x) (childrenOf s' id)
            = List.countP (fun x => isDirAt s x) (childrenOf s id) := by
          rw [hchildren, if_neg h1, if_neg h2]
          exact countP_congr_mem (fun a ha => hdirf a (Nat.ne_of_lt (hmemlt id a ha)))
        rw [hc2]
        exact linkOkAt_dir ((linkb_iff s).mp hl id) hi hk
  exact ⟨(WFb_iff s').mpr ⟨hro', hcok', hmem', hnd', hrtd', hdcb'⟩, hl'⟩

/-- A `rmdir` attempt on a non-empty directory fails with `-ENOTEMPTY`
and leaves the state untouched. -/
theorem __debugfs_remove_nonempty {s : FS} {id p : Nat}
    (hdir : isDirAt s id = true) (hne : (childrenOf s id).isEmpty = false) :
    __debugfs_remove s id p = (s, -ENOTEMPTY) := by
  have hpos : debugfs_positive s id = true := by
    unfold debugfs_positive
    unfold isDirAt at hdir
    cases hi : inode? s id with
    | none =>
      rw [hi] at hdir
      exact absurd hdir (by simp)
    | some i => rfl
  simp only [__debugfs_remove, simple_rmdir, simple_empty, hpos, hdir, hne,
    Bool.not_false, if_true, ite_true, ite_false]
  rw [if_neg (by decide : ¬(-ENOTEMPTY : Int) = 0)]

/-- `debugfs_remove` preserves well-formedness and the link invariant on
every path. -/
theorem WF_remove {s : FS} (r : Ref)
    (hw : WFb s = true) (hl : linkb s = true) :
    WFb (debugfs_remove s r) = true ∧ linkb (debugfs_remove s r) = true := by
  obtain ⟨hro, hcok, hmem, hnd, hrtd, hdcb⟩ := (WFb_iff s).mp hw
  cases r with
  | null => exact ⟨hw, hl⟩
  | err e => exact ⟨hw, hl⟩
  | ptr id =>
    unfold debugfs_remove
    simp only []
    cases hd : dent? s id with
    | none => exact ⟨hw, hl⟩
    | some d =>
      simp only []
      cases hp : d.parent with
      | none => exact ⟨hw, hl⟩
      | some p =>
        simp only []
        cases hip : inode? s p with
        | none => exact ⟨hw, hl⟩
        | some pin0 =>
          simp only []
          have hpar' : parentOf s id = some p := by
            rw [parentOf_eq_of_dent? hd, hp]
          have hcp : id ≠ p :=
            parentOf_ne_self hrtd (lt_of_dent?_eq_some hd) hpar'
          by_cases hpos : debugfs_positive s id = true
          · have hino : d.inode.isSome = true := by
              unfold debugfs_positive at hpos
              rw [inode?_eq_of_dent? hd] at hpos
              exact hpos
            have hremove : d.children = [] →
                WFb (match __debugfs_remove s id p with
                     | (s, ret) => if ret = 0 then simple_release_fs s else s) = true ∧
                linkb (match __debugfs_remove s id p with
                     | (s, ret) => if ret = 0 then simple_release_fs s else s) = true := by
              intro hleaf
              obtain ⟨hret, hrem⟩ := __debugfs_remove_spec hd hp hino hleaf hcp
              have hpair : __debugfs_remove s id p =
                  ((__debugfs_remove s id p).1, 0) := by
                rw [← hret]
              rw [hpair]
              simp only []
              rw [if_pos trivial]
              have hwf1 := RemovedState_WF hw hrem hd hp hino hleaf hcp
              have hlb1 := RemovedState_linkb hw hl hrem hd hp hino hleaf hcp
              have hdrel : (simple_release_fs (__debugfs_remove s id p).1).dentries =
                  (__debugfs_remove s id p).1.dentries := rfl
              rw [WFb_congr hdrel, linkb_congr hdrel]
              exact ⟨hwf1, hlb1⟩
            by_cases hdir : isDirAt s id = true
            · by_cases hemp : (childrenOf s id).isEmpty = true
              · refine hremove ?_
                rw [childrenOf_eq_of_dent? hd] at hemp
                exact List.isEmpty_iff.mp hemp
              · have hne : (childrenOf s id).isEmpty = false := by
                  cases h : (childrenOf s id).isEmpty with
                  | true => exact absurd h hemp
                  | false => rfl
                rw [__debugfs_remove_nonempty hdir hne]
                simp only []
                rw [if_neg (by decide : ¬(-ENOTEMPTY : Int) = 0)]
                exact ⟨hw, hl⟩
            · refine hremove ?_
              by_contra hnnil
              have hch : childrenOf s id ≠ [] := by
                rw [childrenOf_eq_of_dent? hd]
                exact hnnil
              exact hdir ((dirChildrenb_iff s).mp hdcb id hch)
          · have hposf : debugfs_positive s id = false := by
              cases h : debugfs_positive s id with
              | true => exact absurd h hpos
              | false => rfl
            rw [__debugfs_remove_negative hposf]
            simp only []
            rw [if_pos trivial]
            have hdrel : (simple_release_fs s).dentries = s.dentries := rfl
            rw [WFb_congr hdrel, linkb_congr hdrel]
            exact ⟨hw, hl⟩

/-- `debugfs_remove_recursive` preserves well-formedness and the link
invariant on every path. -/
theorem WF_remove_recursive {s : FS} (r : Ref)
    (hw : WFb s = true) (hl : linkb s = true) :
    WFb (debugfs_remove_recursive s r) = true ∧
    linkb (debugfs_remove_recursive s r) = true := by
  obtain ⟨hro, hcok, hmem, hnd, hrtd, hdcb⟩ := (WFb_iff s).mp hw
  cases r with
  | null => exact ⟨hw, hl⟩
  | err e => exact ⟨hw, hl⟩
  | ptr t =>
    unfold debugfs_remove_recursive debugfs_remove_recursive_trace
    simp only []
    cases htd : dent? s t with
    | none => exact ⟨hw, hl⟩
    | some td =>
      simp only []
      cases htp : td.parent with
      | none => exact ⟨hw, hl⟩
      | some pt =>
        simp only []
        cases hip : inode? s pt with
        | none => exact ⟨hw, hl⟩
        | some pin0 =>
          simp only []
          by_cases hpos : debugfs_positive s t = true
          · have hpar : parentOf s t = some pt := by
              rw [parentOf_eq_of_dent? htd, htp]
            have hpu : posUnder s t ≤ s.dentries.length := by
              have hle := List.countP_le_length
                (fun j => debugfs_positive s j && Descb s t j)
                (l := List.range s.dentries.length)
              rw [List.length_range] at hle
              exact hle
            have hfuel : 2 * posUnder s t ≤ drrFuel s + ([] : List Nat).length := by
              unfold drrFuel
              rw [List.length_nil]
              omega
            exact (ML (drrFuel s) s t [] hw hl rfl hpos hpar hfuel).2.2.2.2.2.2.1
          · have hposf : debugfs_positive s t = false := by
              cases h : debugfs_positive s t with
              | true => exact absurd h hpos
              | false => rfl
            have hch : childrenOf s t = [] := by
              by_contra hne
              have hdir := (dirChildrenb_iff s).mp hdcb t hne
              unfold isDirAt at hdir
              unfold debugfs_positive at hposf
              cases hi : inode? s t with
              | none =>
                rw [hi] at hdir
                exact absurd hdir (by simp)
              | some i =>
                rw [hi] at hposf
                exact absurd hposf (by simp)
            have hrm := __debugfs_remove_negative (p := pt) hposf
            have hdf : drrFuel s = 3 * s.dentries.length + 2 + 1 := by
              unfold drrFuel
              omega
            have hcomp : drr_loop t (drrFuel s) s t (childrenOf s t) =
                (simple_release_fs s, []) := by
              rw [hch, hdf, drr_loop_nil, htd]
              simp only []
              rw [htp]
              simp only []
              rw [if_neg (fun h : t ≠ t => h rfl), hrm]
              simp [hposf]
            rw [hcomp]
            have hdrel : (simple_release_fs s).dentries = s.dentries := rfl
            rw [WFb_congr hdrel, linkb_congr hdrel]
            exact ⟨hw, hl⟩

/-- Every creation call (`__create_file`, any kind, any failure
non-determinism) preserves well-formedness and the link invariant, when
invoked per the API contract (the defaulted parent is a directory). -/
theorem WF_create_file {s : FS} (name : String) (kind : IKind) (perm : Nat)
    (parent : Option Nat) (aOk tOk : Bool)
    (hw : WFb s = true) (hl : linkb s = true)
    (hpdir : isDirAt s (parent.getD 0) = true) :
    WFb (__create_file s name kind perm parent aOk tOk).1 = true ∧
    linkb (__create_file s name kind perm parent aOk tOk).1 = true := by
  have hsame : ∀ s2 : FS, s2.dentries = s.dentries →
      WFb s2 = true ∧ linkb s2 = true := by
    intro s2 h
    rw [WFb_congr h, linkb_congr h]
    exact ⟨hw, hl⟩
  by_cases hpin : s.mountCount = 0 → tOk = true
  · cases hlk : lookup_one_len s (parent.getD 0) name with
    | some c =>
      rw [__create_file_exists kind perm aOk hpin hlk]
      exact hsame _ rfl
    | none =>
      cases aOk with
      | false =>
        rw [__create_file_nomem kind perm hpin hlk]
        exact hsame _ rfl
      | true =>
        have hplt : parent.getD 0 < s.dentries.length := by
          unfold isDirAt inode? at hpdir
          cases hd : dent? s (parent.getD 0) with
          | none =>
            rw [hd] at hpdir
            exact absurd hpdir (by simp)
          | some d => exact lt_of_dent?_eq_some hd
        obtain ⟨_, _, _, _, _, hlen6, hchar7⟩ :=
          __create_file_success kind perm hpin hlk hplt
        exact WF_create hw hl hpdir hlen6 hchar7
  · have hm0 : s.mountCount = 0 := by
      by_contra hm
      exact hpin (fun h => absurd h hm)
    have hf : tOk = false := by
      cases htk : tOk with
      | true => exact absurd (fun _ => htk) hpin
      | false => rfl
    rw [hf, __create_file_pin_fail s name kind perm parent aOk hm0]
    exact hsame _ rfl

/-- Extract an explicit root-reaching iterate (with live dentries along
the way) from `chainToRoot`. -/
theorem iter_of_chainToRoot {s : FS} :
    ∀ (f j : Nat), chainToRoot s f j = true →
      ∃ n r, n < f ∧ parentIter s n j = some r ∧ parentOf s r = none ∧
        ∀ i y, i ≤ n → parentIter s i j = some y → (dent? s y).isSome = true := by
  intro f
  induction f with
  | zero =>
    intro j h
    simp [chainToRoot] at h
  | succ f ih =>
    intro j h
    rw [chainToRoot_succ] at h
    cases hd : dent? s j with
    | none =>
      rw [hd] at h
      exact absurd h (by simp)
    | some d =>
      rw [hd] at h
      simp only [] at h
      cases hp : d.parent with
      | none =>
        refine ⟨0, j, Nat.succ_pos f, parentIter_zero s j, ?_, ?_⟩
        · rw [parentOf_eq_of_dent? hd, hp]
        · intro i y hi hit
          have hi0 : i = 0 := Nat.le_zero.mp hi
          rw [hi0, parentIter_zero] at hit
          rw [← Option.some.inj hit, hd]
          rfl
      | some p =>
        rw [hp] at h
        simp only [] at h
        obtain ⟨n, r, hn, hit, hr, hdent⟩ := ih p h
        have hpj : parentOf s j = some p := by
          rw [parentOf_eq_of_dent? hd, hp]
        refine ⟨n + 1, r, Nat.succ_lt_succ hn, ?_, hr, ?_⟩
        · rw [parentIter_succ, hpj]
          exact hit
        · intro i y hi hit'
          cases i with
          | zero =>
            rw [parentIter_zero] at hit'
            rw [← Option.some.inj hit', hd]
            rfl
          | succ i =>
            rw [parentIter_succ, hpj] at hit'
            simp only [] at hit'
            exact hdent i y (Nat.le_of_succ_le_succ hi) hit'

/-- Pointwise version of `parentOf_congr`. -/
theorem parentOf_eq_of_shape {s s' : FS} {x : Nat}
    (h : (dent? s' x).map Dentry.parent = (dent? s x).map Dentry.parent) :
    parentOf s' x = parentOf s x := by
  unfold parentOf
  cases h1 : dent? s' x <;> cases h2 : dent? s x <;>
    rw [h1, h2] at h <;> simp_all

/-- A parent iteration that avoids the only modified slot is unchanged. -/
theorem parentIter_avoid {s s' : FS} {bad : Nat}
    (hsh : ∀ x, x ≠ bad →
      (dent? s' x).map Dentry.parent = (dent? s x).map Dentry.parent) :
    ∀ (k j : Nat), (∀ i y, i < k → parentIter s i j = some y → y ≠ bad) →
      parentIter s' k j = parentIter s k j := by
  intro k
  induction k with
  | zero =>
    intro j _
    rfl
  | succ k ih =>
    intro j hav
    have hjb : j ≠ bad := hav 0 j (Nat.succ_pos k) (parentIter_zero s j)
    rw [parentIter_succ, parentIter_succ, parentOf_eq_of_shape (hsh j hjb)]
    cases hp : parentOf s j with
    | none => rfl
    | some p =>
      simp only []
      refine ih p ?_
      intro i y hi hit
      refine hav (i + 1) y (Nat.succ_lt_succ hi) ?_
      rw [parentIter_succ, hp]
      exact hit

/-- `d_ancestor` finds a node that is genuinely on the target's parent
chain with the requested parent (the chain cannot pass the ancestor
earlier, by acyclicity). -/
theorem d_ancestor_of_iter {s : FS} (hroot : rootedb s = true) :
    ∀ (k : Nat) {f a b x : Nat}, b < s.dentries.length →
      parentIter s k b = some x → parentOf s x = some a → k < f →
      d_ancestor s f a b = some x := by
  intro k
  induction k with
  | zero =>
    intro f a b x hb hit hpx hf
    obtain ⟨g, rfl⟩ := Nat.exists_eq_succ_of_ne_zero (Nat.pos_iff_ne_zero.mp hf)
    rw [parentIter_zero] at hit
    have hbx : b = x := Option.some.inj hit
    have hpb : parentOf s b = some a := by
      rw [hbx]
      exact hpx
    rw [d_ancestor_succ, hpb]
    simp only []
    rw [if_pos trivial, hbx]
  | succ k ih =>
    intro f a b x hb hit hpx hf
    obtain ⟨g, rfl⟩ := Nat.exists_eq_succ_of_ne_zero
      (Nat.pos_iff_ne_zero.mp (Nat.lt_of_le_of_lt (Nat.zero_le _) hf))
    have hit' := hit
    rw [parentIter_succ] at hit'
    cases hp : parentOf s b with
    | none =>
      rw [hp] at hit'
      exact Option.noConfusion hit'
    | some p =>
      rw [hp] at hit'
      simp only [] at hit'
      obtain ⟨hax, hcrx⟩ := chain_facts' hroot (k + 1) hb hit
      obtain ⟨halt, _⟩ := chain_step_facts hcrx hpx
      have hpa : p ≠ a := by
        intro he
        have h2 : parentIter s 1 x = some a := by
          rw [parentIter_succ, hpx]
          rfl
        have h1 : parentIter s (k + 1 + 1) b = some a := by
          rw [parentIter_add, hit]
          exact h2
        have hb1 : parentIter s 1 b = some p := by
          rw [parentIter_succ, hp]
          rfl
        have h4 : parentIter s (1 + (k + 1)) b = parentIter s (k + 1) p := by
          rw [parentIter_add, hb1]
          rfl
        rw [he] at h4
        have h1' : parentIter s (1 + (k + 1)) b = some a := by
          rw [Nat.add_comm]
          exact h1
        exact not_self_iter hroot halt (h4.symm.trans h1')
      rw [d_ancestor_succ, hp]
      simp only []
      rw [if_neg hpa]
      obtain ⟨hplt, _⟩ := chain_step_facts ((rootedb_iff s).mp hroot b hb) hp
      exact ih hplt hit' hpx (Nat.lt_of_succ_lt_succ hf)

/-- When the rename guards accept (the trap is not the source), the
source is not an ancestor of the new parent — re-parenting cannot create
a cycle. -/
theorem trap_not_ancestor {s : FS} {oldDir oldId newDir : Nat} {od : Dentry}
    (hroot : rootedb s = true)
    (hod : dent? s oldId = some od) (hpar : od.parent = some oldDir)
    (htrap : lock_rename_trap s newDir oldDir ≠ some oldId) :
    ∀ k, parentIter s k newDir ≠ some oldId := by
  intro k hit
  have hoi : parentOf s oldId = some oldDir := by
    rw [parentOf_eq_of_dent? hod, hpar]
  have holt : oldId < s.dentries.length := lt_of_dent?_eq_some hod
  have hndlt : newDir < s.dentries.length := by
    cases k with
    | zero =>
      rw [parentIter_zero] at hit
      rw [Option.some.inj hit]
      exact holt
    | succ m =>
      rw [parentIter_succ] at hit
      cases hp : parentOf s newDir with
      | none =>
        rw [hp] at hit
        exact Option.noConfusion hit
      | some p =>
        unfold parentOf at hp
        cases hd : dent? s newDir with
        | none =>
          rw [hd] at hp
          exact Option.noConfusion hp
        | some d => exact lt_of_dent?_eq_some hd
  have h1 : parentIter s (k + 1) newDir = some oldDir := by
    rw [parentIter_add, hit]
    show parentIter s 1 oldId = some oldDir
    rw [parentIter_succ, hoi]
    rfl
  have hndod : newDir ≠ oldDir := by
    intro he
    have h1' := h1
    rw [← he] at h1'
    exact not_self_iter hroot hndlt h1'
  have hk1 : k + 1 + 1 ≤ s.dentries.length := iter_le_len hroot hndlt h1
  have hda : d_ancestor s s.dentries.length oldDir newDir = some oldId :=
    d_ancestor_of_iter hroot k hndlt hit hoi (by omega)
  apply htrap
  unfold lock_rename_trap
  rw [if_neg hndod, hda]

/-- Per-slot effect of a `d_move`: the source is renamed and re-parented,
the old parent's list loses it, the new parent's list gains it at the
head, nothing else changes. -/
theorem d_move_char {s1 : FS} {oldId oldDir newDir : Nat} {od1 : Dentry}
    (newName : String)
    (hod : dent? s1 oldId = some od1) (hpar : od1.parent = some oldDir)
    (hne1 : oldId ≠ oldDir) (hne2 : oldId ≠ newDir) :
    (d_move s1 oldId newDir newName).dentries.length = s1.dentries.length ∧
    ∀ j, dent? (d_move s1 oldId newDir newName) j =
      if j = oldId then some { od1 with name := newName, parent := some newDir }
      else if j = newDir then
        (if newDir = oldDir then
          (dent? s1 j).map fun d =>
            { d with children := oldId :: d.children.erase oldId }
         else
          (dent? s1 j).map fun d => { d with children := oldId :: d.children })
      else if j = oldDir then
        (dent? s1 j).map fun d => { d with children := d.children.erase oldId }
      else dent? s1 j := by
  have hmove : d_move s1 oldId newDir newName =
      modifyDent (modifyDent (modifyDent s1 oldDir
        (fun pd => { pd with children := pd.children.erase oldId })) oldId
        (fun dd => { dd with name := newName, parent := some newDir })) newDir
        (fun nd => { nd with children := oldId :: nd.children }) := by
    unfold d_move
    rw [hod]
    simp only []
    rw [hpar]
  rw [hmove]
  refine ⟨by rw [modifyDent_dentries_length, modifyDent_dentries_length,
    modifyDent_dentries_length], ?_⟩
  intro j
  by_cases hj1 : j = oldId
  · rw [if_pos hj1, hj1, dent?_modifyDent_ne _ _ hne2, dent?_modifyDent_self,
      dent?_modifyDent_ne _ _ hne1, hod]
    rfl
  · rw [if_neg hj1]
    by_cases hj2 : j = newDir
    · rw [if_pos hj2, hj2, dent?_modifyDent_self,
        dent?_modifyDent_ne _ _ (Ne.symm hne2)]
      by_cases hj3 : newDir = oldDir
      · rw [if_pos hj3, hj3, dent?_modifyDent_self]
        cases dent? s1 oldDir with
        | none => rfl
        | some d => rfl
      · rw [if_neg hj3, dent?_modifyDent_ne _ _ hj3]
    · rw [if_neg hj2]
      by_cases hj3 : j = oldDir
      · have hODND : oldDir ≠ newDir := fun h => hj2 (hj3.trans h)
        rw [if_pos hj3, hj3, dent?_modifyDent_ne _ _ hODND,
          dent?_modifyDent_ne _ _ (Ne.symm hne1), dent?_modifyDent_self]
      · rw [if_neg hj3, dent?_modifyDent_ne _ _ hj2, dent?_modifyDent_ne _ _ hj1,
          dent?_modifyDent_ne _ _ hj3]

/-- Per-slot effect of `simple_rename`: for a moved directory the old
parent loses a link and the new one gains one (possibly the same slot);
otherwise nothing changes. -/
theorem simple_rename_char (s : FS) (oldDir oldId newDir : Nat) :
    (simple_rename s oldDir oldId newDir).2 = 0 ∧
    (simple_rename s oldDir oldId newDir).1.dentries.length = s.dentries.length ∧
    ∀ j, dent? (simple_rename s oldDir oldId newDir).1 j =
      if isDirAt s oldId = true then
        if j = newDir then
          if j = oldDir then
            (dent? s j).map fun d =>
              { d with inode :=
                  ((d.inode.map (fun i => { i with nlink := i.nlink - 1 })).map
                    (fun i => { i with nlink := i.nlink + 1 })) }
          else
            (dent? s j).map fun d =>
              { d with inode := d.inode.map (fun i => { i with nlink := i.nlink + 1 }) }
        else if j = oldDir then
          (dent? s j).map fun d =>
            { d with inode := d.inode.map (fun i => { i with nlink := i.nlink - 1 }) }
        else dent? s j
      else dent? s j := by
  by_cases hdirs : isDirAt s oldId = true
  · have hs1 : (simple_rename s oldDir oldId newDir).1 =
        incNlinkAt (dropNlinkAt s oldDir) newDir := by
      unfold simple_rename
      simp [hdirs]
    refine ⟨rfl, ?_, ?_⟩
    · rw [hs1, incNlinkAt_eq, mapInodeAt_dentries_length]
      unfold dropNlinkAt
      rw [mapInodeAt_dentries_length]
    · intro j
      rw [hs1, if_pos hdirs, incNlinkAt_eq]
      by_cases hj1 : j = newDir
      · rw [if_pos hj1, hj1, dent?_mapInodeAt_self]
        by_cases hj2 : newDir = oldDir
        · rw [if_pos hj2, hj2]
          unfold dropNlinkAt
          rw [dent?_mapInodeAt_self]
          cases dent? s oldDir with
          | none => rfl
          | some d => rfl
        · rw [if_neg hj2]
          unfold dropNlinkAt
          rw [dent?_mapInodeAt_ne _ _ hj2]
      · rw [if_neg hj1, dent?_mapInodeAt_ne _ _ hj1]
        by_cases hj2 : j = oldDir
        · rw [if_pos hj2, hj2]
          unfold dropNlinkAt
          rw [dent?_mapInodeAt_self]
        · rw [if_neg hj2]
          unfold dropNlinkAt
          rw [dent?_mapInodeAt_ne _ _ hj2]
  · have hs1 : (simple_rename s oldDir oldId newDir).1 = s := by
      unfold simple_rename
      simp [hdirs]
    have hdf : isDirAt s oldId = false := by
      cases h : isDirAt s oldId with
      | true => exact absurd h hdirs
      | false => rfl
    refine ⟨rfl, by rw [hs1], ?_⟩
    intro j
    rw [hs1, hdf]
    simp

/-! Slot-transfer helpers: a per-slot rewrite that only maps the stored
dentry leaves the derived views unchanged when the mapped fields are
untouched. -/

theorem map_parent_of_slot {o : Option Dentry} {g : Dentry → Dentry}
    (hg : ∀ d, (g d).parent = d.parent) :
    (o.map g).map Dentry.parent = o.map Dentry.parent := by
  cases o with
  | none => rfl
  | some d =>
    simp only [Option.map_some']
    rw [hg d]

theorem childrenOf_eq_of_slot {x y : FS} {j : Nat} {g : Dentry → Dentry}
    (h : dent? y j = (dent? x j).map g)
    (hg : ∀ d, (g d).children = d.children) :
    childrenOf y j = childrenOf x j := by
  unfold childrenOf
  rw [h]
  cases dent? x j with
  | none => rfl
  | some d =>
    simp only [Option.map_some']
    exact hg d

theorem isDirAt_eq_of_slot {x y : FS} {j : Nat} {g : Dentry → Dentry}
    (h : dent? y j = (dent? x j).map g)
    (hg : ∀ d, (g d).inode.map Inode.kind = d.inode.map Inode.kind) :
    isDirAt y j = isDirAt x j := by
  unfold isDirAt inode?
  rw [h]
  cases dent? x j with
  | none => rfl
  | some d =>
    have hgd := hg d
    show (match (g d).inode with
          | some i => i.kind == IKind.dir
          | none => false) =
        (match d.inode with
         | some i => i.kind == IKind.dir
         | none => false)
    cases h1 : (g d).inode with
    | none =>
      rw [h1] at hgd
      cases h2 : d.inode with
      | none => rfl
      | some i =>
        rw [h2] at hgd
        exact absurd hgd (by simp)
    | some b =>
      rw [h1] at hgd
      cases h2 : d.inode with
      | none =>
        rw [h2] at hgd
        exact absurd hgd (by simp)
      | some i =>
        rw [h2] at hgd
        simp only [Option.map_some'] at hgd
        have hbk : b.kind = i.kind := Option.some.inj hgd
        simp only []
        rw [hbk]

theorem positive_eq_of_slot {x y : FS} {j : Nat} {g : Dentry → Dentry}
    (h : dent? y j = (dent? x j).map g)
    (hg : ∀ d, (g d).inode.isSome = d.inode.isSome) :
    debugfs_positive y j = debugfs_positive x j := by
  unfold debugfs_positive inode?
  rw [h]
  cases dent? x j with
  | none => rfl
  | some d =>
    show (g d).inode.isSome = d.inode.isSome
    exact hg d

/-- The full per-slot characterization of a successful rename's state
(`simple_rename` then `d_move`): the source is renamed and re-parented
with its inode and children untouched, the old parent's child list loses
it, the new parent's gains it at the head, a moved directory transfers
one link from old to new parent, and every other slot is untouched. -/
theorem rename_char {s s2 : FS} {oldDir oldId newDir : Nat} {od : Dentry}
    (newName : String)
    (hs2 : s2 = d_move (simple_rename s oldDir oldId newDir).1 oldId newDir newName)
    (hod : dent? s oldId = some od) (hpar : od.parent = some oldDir)
    (hne1 : oldId ≠ oldDir) (hne2 : oldId ≠ newDir)
    (hODs : (dent? s oldDir).isSome = true)
    (hNDs : (dent? s newDir).isSome = true) :
    s2.dentries.length = s.dentries.length ∧
    dent? s2 oldId = some { od with name := newName, parent := some newDir } ∧
    (∀ j, j ≠ oldId →
      (dent? s2 j).map Dentry.parent = (dent? s j).map Dentry.parent) ∧
    (∀ j, childrenOf s2 j =
      if j = newDir then
        oldId :: (if newDir = oldDir then (childrenOf s oldDir).erase oldId
                  else childrenOf s newDir)
      else if j = oldDir then (childrenOf s oldDir).erase oldId
      else childrenOf s j) ∧
    (∀ j, isDirAt s2 j = isDirAt s j) ∧
    (∀ j, debugfs_positive s2 j = debugfs_positive s j) ∧
    inode? s2 oldId = od.inode ∧
    (oldDir ≠ newDir →
      inode? s2 oldDir =
        (if isDirAt s oldId then
          (inode? s oldDir).map (fun i => { i with nlink := i.nlink - 1 })
         else inode? s oldDir) ∧
      inode? s2 newDir =
        (if isDirAt s oldId then
          (inode? s newDir).map (fun i => { i with nlink := i.nlink + 1 })
         else inode? s newDir)) ∧
    (oldDir = newDir →
      inode? s2 newDir =
        (if isDirAt s oldId then
          (inode? s newDir).map (fun i => { i with nlink := i.nlink - 1 + 1 })
         else inode? s newDir)) ∧
    (∀ j, j ≠ oldId → j ≠ oldDir → j ≠ newDir → dent? s2 j = dent? s j) := by
  obtain ⟨hret0, hlen1, hB⟩ := simple_rename_char s oldDir oldId newDir
  obtain ⟨s1, hs1⟩ : ∃ x, (simple_rename s oldDir oldId newDir).1 = x := ⟨_, rfl⟩
  rw [hs1] at hs2 hlen1 hB
  have hs1od : dent? s1 oldId = some od := by
    rw [hB oldId]
    by_cases hdirs : isDirAt s oldId = true
    · rw [if_pos hdirs, if_neg hne2, if_neg hne1]
      exact hod
    · rw [if_neg hdirs]
      exact hod
  have hsh1 : ∀ j, (dent? s1 j).map Dentry.parent = (dent? s j).map Dentry.parent := by
    intro j
    rw [hB j]
    by_cases h1 : isDirAt s oldId = true
    · rw [if_pos h1]
      by_cases h2 : j = newDir
      · rw [if_pos h2]
        by_cases h3 : j = oldDir
        · rw [if_pos h3]
          exact map_parent_of_slot (fun d => rfl)
        · rw [if_neg h3]
          exact map_parent_of_slot (fun d => rfl)
      · rw [if_neg h2]
        by_cases h3 : j = oldDir
        · rw [if_pos h3]
          exact map_parent_of_slot (fun d => rfl)
        · rw [if_neg h3]
    · rw [if_neg h1]
  have hch1 : ∀ j, childrenOf s1 j = childrenOf s j := by
    intro j
    have hb := hB j
    by_cases h1 : isDirAt s oldId = true
    · rw [if_pos h1] at hb
      by_cases h2 : j = newDir
      · rw [if_pos h2] at hb
        by_cases h3 : j = oldDir
        · rw [if_pos h3] at hb
          exact childrenOf_eq_of_slot hb (fun d => rfl)
        · rw [if_neg h3] at hb
          exact childrenOf_eq_of_slot hb (fun d => rfl)
      · rw [if_neg h2] at hb
        by_cases h3 : j = oldDir
        · rw [if_pos h3] at hb
          exact childrenOf_eq_of_slot hb (fun d => rfl)
        · rw [if_neg h3] at hb
          unfold childrenOf
          rw [hb]
    · rw [if_neg h1] at hb
      unfold childrenOf
      rw [hb]
  have hdir1 : ∀ j, isDirAt s1 j = isDirAt s j := by
    intro j
    have hb := hB j
    by_cases h1 : isDirAt s oldId = true
    · rw [if_pos h1] at hb
      by_cases h2 : j = newDir
      · rw [if_pos h2] at hb
        by_cases h3 : j = oldDir
        · rw [if_pos h3] at hb
          refine isDirAt_eq_of_slot hb ?_
          intro d
          cases d.inode with
          | none => rfl
          | some i => rfl
        · rw [if_neg h3] at hb
          refine isDirAt_eq_of_slot hb ?_
          intro d
          cases d.inode with
          | none => rfl
          | some i => rfl
      · rw [if_neg h2] at hb
        by_cases h3 : j = oldDir
        · rw [if_pos h3] at hb
          refine isDirAt_eq_of_slot hb ?_
          intro d
          cases d.inode with
          | none => rfl
          | some i => rfl
        · rw [if_neg h3] at hb
          unfold isDirAt inode?
          rw [hb]
    · rw [if_neg h1] at hb
      unfold isDirAt inode?
      rw [hb]
  have hpos1 : ∀ j, debugfs_positive s1 j = debugfs_positive s j := by
    intro j
    have hb := hB j
    by_cases h1 : isDirAt s oldId = true
    · rw [if_pos h1] at hb
      by_cases h2 : j = newDir
      · rw [if_pos h2] at hb
        by_cases h3 : j = oldDir
        · rw [if_pos h3] at hb
          refine positive_eq_of_slot hb ?_
          intro d
          cases d.inode with
          | none => rfl
          | some i => rfl
        · rw [if_neg h3] at hb
          refine positive_eq_of_slot hb ?_
          intro d
          cases d.inode with
          | none => rfl
          | some i => rfl
      · rw [if_neg h2] at hb
        by_cases h3 : j = oldDir
        · rw [if_pos h3] at hb
          refine positive_eq_of_slot hb ?_
          intro d
          cases d.inode with
          | none => rfl
          | some i => rfl
        · rw [if_neg h3] at hb
          unfold debugfs_positive inode?
          rw [hb]
    · rw [if_neg h1] at hb
      unfold debugfs_positive inode?
      rw [hb]
  have hsome1 : ∀ j, (dent? s1 j).isSome = (dent? s j).isSome := by
    intro j
    rw [hB j]
    by_cases h1 : isDirAt s oldId = true
    · rw [if_pos h1]
      by_cases h2 : j = newDir
      · rw [if_pos h2]
        by_cases h3 : j = oldDir
        · rw [if_pos h3]
          cases dent? s j with
          | none => rfl
          | some d => rfl
        · rw [if_neg h3]
          cases dent? s j with
          | none => rfl
          | some d => rfl
      · rw [if_neg h2]
        by_cases h3 : j = oldDir
        · rw [if_pos h3]
          cases dent? s j with
          | none => rfl
          | some d => rfl
        · rw [if_neg h3]
    · rw [if_neg h1]
  have hfr1 : ∀ j, j ≠ newDir → j ≠ oldDir → dent? s1 j = dent? s j := by
    intro j h2 h3
    rw [hB j]
    by_cases h1 : isDirAt s oldId = true
    · rw [if_pos h1, if_neg h2, if_neg h3]
    · rw [if_neg h1]
  have hA := d_move_char newName hs1od hpar hne1 hne2
  rw [← hs2] at hA
  have hOld : dent? s2 oldId =
      some { od with name := newName, parent := some newDir } := by
    rw [hA.2 oldId, if_pos (rfl : oldId = oldId)]
  have hfr2 : ∀ j, j ≠ oldId → j ≠ oldDir → j ≠ newDir →
      dent? s2 j = dent? s j := by
    intro j h1 h3 h2
    rw [hA.2 j, if_neg h1, if_neg h2, if_neg h3]
    exact hfr1 j h2 h3
  have hNds1 : (dent? s1 newDir).isSome = true := by
    rw [hsome1 newDir]
    exact hNDs
  obtain ⟨ndr, hndr⟩ := Option.isSome_iff_exists.mp hNds1
  have hODs1 : (dent? s1 oldDir).isSome = true := by
    rw [hsome1 oldDir]
    exact hODs
  obtain ⟨odr, hodr⟩ := Option.isSome_iff_exists.mp hODs1
  have hndrc : ndr.children = childrenOf s newDir := by
    rw [← childrenOf_eq_of_dent? hndr, hch1]
  have hodrc : odr.children = childrenOf s oldDir := by
    rw [← childrenOf_eq_of_dent? hodr, hch1]
  have hio2 : ∀ j, j ≠ oldId → inode? s2 j = inode? s1 j := by
    intro j h1
    have hb2 := hA.2 j
    rw [if_neg h1] at hb2
    unfold inode?
    by_cases h2 : j = newDir
    · rw [if_pos h2] at hb2
      by_cases h3 : newDir = oldDir
      · rw [if_pos h3] at hb2
        rw [hb2]
        cases dent? s1 j with
        | none => rfl
        | some d => rfl
      · rw [if_neg h3] at hb2
        rw [hb2]
        cases dent? s1 j with
        | none => rfl
        | some d => rfl
    · rw [if_neg h2] at hb2
      by_cases h3 : j = oldDir
      · rw [if_pos h3] at hb2
        rw [hb2]
        cases dent? s1 j with
        | none => rfl
        | some d => rfl
      · rw [if_neg h3] at hb2
        rw [hb2]
  have hio1OD : oldDir ≠ newDir →
      inode? s1 oldDir =
        (if isDirAt s oldId then
          (inode? s oldDir).map (fun i => { i with nlink := i.nlink - 1 })
         else inode? s oldDir) := by
    intro hODND
    have hb := hB oldDir
    unfold inode?
    by_cases h1 : isDirAt s oldId = true
    · rw [if_pos h1, if_neg hODND, if_pos (rfl : oldDir = oldDir)] at hb
      rw [hb, if_pos h1]
      cases dent? s oldDir with
      | none => rfl
      | some d => rfl
    · rw [if_neg h1] at hb
      rw [hb, if_neg h1]
  have hio1ND : oldDir ≠ newDir →
      inode? s1 newDir =
        (if isDirAt s oldId then
          (inode? s newDir).map (fun i => { i with nlink := i.nlink + 1 })
         else inode? s newDir) := by
    intro hODND
    have hb := hB newDir
    unfold inode?
    by_cases h1 : isDirAt s oldId = true
    · rw [if_pos h1, if_pos (rfl : newDir = newDir),
        if_neg (fun h : newDir = oldDir => hODND h.symm)] at hb
      rw [hb, if_pos h1]
      cases dent? s newDir with
      | none => rfl
      | some d => rfl
    · rw [if_neg h1] at hb
      rw [hb, if_neg h1]
  have hio1EQ : oldDir = newDir →
      inode? s1 newDir =
        (if isDirAt s oldId then
          (inode? s newDir).map (fun i => { i with nlink := i.nlink - 1 + 1 })
         else inode? s newDir) := by
    intro hODEQ
    have hb := hB newDir
    unfold inode?
    by_cases h1 : isDirAt s oldId = true
    · rw [if_pos h1, if_pos (rfl : newDir = newDir), if_pos hODEQ.symm] at hb
      rw [hb, if_pos h1]
      cases dent? s newDir with
      | none => rfl
      | some d =>
        show @Option.map Inode Inode (fun i => { i with nlink := i.nlink + 1 })
            (@Option.map Inode Inode (fun i => { i with nlink := i.nlink - 1 }) d.inode) =
          @Option.map Inode Inode (fun i => { i with nlink := i.nlink - 1 + 1 }) d.inode
        cases d.inode with
        | none => rfl
        | some i => rfl
    · rw [if_neg h1] at hb
      rw [hb, if_neg h1]
  have hioOld := inode?_eq_of_dent? hOld
  refine ⟨hA.1.trans hlen1, hOld, ?_, ?_, ?_, ?_, hioOld,
    fun hODND => ⟨?_, ?_⟩, fun hODEQ => ?_, hfr2⟩
  · intro j hj1
    have hstep : (dent? s2 j).map Dentry.parent = (dent? s1 j).map Dentry.parent := by
      rw [hA.2 j, if_neg hj1]
      by_cases h2 : j = newDir
      · rw [if_pos h2]
        by_cases h3 : newDir = oldDir
        · rw [if_pos h3]
          exact map_parent_of_slot (fun d => rfl)
        · rw [if_neg h3]
          exact map_parent_of_slot (fun d => rfl)
      · rw [if_neg h2]
        by_cases h3 : j = oldDir
        · rw [if_pos h3]
          exact map_parent_of_slot (fun d => rfl)
        · rw [if_neg h3]
    exact hstep.trans (hsh1 j)
  · intro j
    by_cases h2 : j = newDir
    · rw [if_pos h2]
      unfold childrenOf
      rw [hA.2 j, if_neg (fun h : j = oldId => hne2 (h.symm.trans h2)), if_pos h2]
      by_cases h3 : newDir = oldDir
      · rw [if_pos h3, if_pos h3, h2, hndr]
        show oldId :: ndr.children.erase oldId =
          oldId :: (childrenOf s oldDir).erase oldId
        rw [hndrc, h3]
      · rw [if_neg h3, if_neg h3, h2, hndr]
        show oldId :: ndr.children = oldId :: childrenOf s newDir
        rw [hndrc]
    · rw [if_neg h2]
      by_cases h3 : j = oldDir
      · rw [if_pos h3]
        unfold childrenOf
        rw [hA.2 j, if_neg (fun h : j = oldId => hne1 (h.symm.trans h3)),
          if_neg h2, if_pos h3, h3, hodr]
        show odr.children.erase oldId = (childrenOf s oldDir).erase oldId
        rw [hodrc]
      · rw [if_neg h3]
        by_cases h1 : j = oldId
        · rw [h1, childrenOf_eq_of_dent? hOld, childrenOf_eq_of_dent? hod]
        · have hde : dent? s2 j = dent? s j := hfr2 j h1 h3 h2
          unfold childrenOf
          rw [hde]
  · intro j
    by_cases h1 : j = oldId
    · unfold isDirAt
      rw [h1, inode?_eq_of_dent? hOld, inode?_eq_of_dent? hod]
    · have hb2 := hA.2 j
      rw [if_neg h1] at hb2
      have hstep : isDirAt s2 j = isDirAt s1 j := by
        by_cases h2 : j = newDir
        · rw [if_pos h2] at hb2
          by_cases h3 : newDir = oldDir
          · rw [if_pos h3] at hb2
            exact isDirAt_eq_of_slot hb2 (fun d => rfl)
          · rw [if_neg h3] at hb2
            exact isDirAt_eq_of_slot hb2 (fun d => rfl)
        · rw [if_neg h2] at hb2
          by_cases h3 : j = oldDir
          · rw [if_pos h3] at hb2
            exact isDirAt_eq_of_slot hb2 (fun d => rfl)
          · rw [if_neg h3] at hb2
            unfold isDirAt inode?
            rw [hb2]
      rw [hstep, hdir1]
  · intro j
    by_cases h1 : j = oldId
    · unfold debugfs_positive
      rw [h1, inode?_eq_of_dent? hOld, inode?_eq_of_dent? hod]
    · have hb2 := hA.2 j
      rw [if_neg h1] at hb2
      have hstep : debugfs_positive s2 j = debugfs_positive s1 j := by
        by_cases h2 : j = newDir
        · rw [if_pos h2] at hb2
          by_cases h3 : newDir = oldDir
          · rw [if_pos h3] at hb2
            exact positive_eq_of_slot hb2 (fun d => rfl)
          · rw [if_neg h3] at hb2
            exact positive_eq_of_slot hb2 (fun d => rfl)
        · rw [if_neg h2] at hb2
          by_cases h3 : j = oldDir
          · rw [if_pos h3] at hb2
            exact positive_eq_of_slot hb2 (fun d => rfl)
          · rw [if_neg h3] at hb2
            unfold debugfs_positive inode?
            rw [hb2]
      rw [hstep, hpos1]
  · rw [hio2 oldDir (Ne.symm hne1)]
    exact hio1OD hODND
  · rw [hio2 newDir (Ne.symm hne2)]
    exact hio1ND hODND
  · rw [hio2 newDir (Ne.symm hne2)]
    exact hio1EQ hODEQ

/-- A positive slot decomposes into dentry and inode. -/
theorem positive_elim {x : FS} {j : Nat} (h : debugfs_positive x j = true) :
    ∃ d i, dent? x j = some d ∧ d.inode = some i := by
  unfold debugfs_positive at h
  obtain ⟨i, hi⟩ := Option.isSome_iff_exists.mp h
  unfold inode? at hi
  cases hd : dent? x j with
  | none =>
    rw [hd] at hi
    exact Option.noConfusion hi
  | some d =>
    rw [hd] at hi
    exact ⟨d, i, rfl, hi⟩

/-- A directory slot decomposes into dentry and directory inode. -/
theorem isDirAt_elim {x : FS} {j : Nat} (h : isDirAt x j = true) :
    ∃ d i, dent? x j = some d ∧ d.inode = some i ∧ i.kind = IKind.dir := by
  unfold isDirAt at h
  cases hi : inode? x j with
  | none =>
    rw [hi] at h
    exact absurd h (by simp)
  | some i =>
    rw [hi] at h
    simp only [] at h
    have hk : i.kind = IKind.dir := by rwa [beq_iff_eq] at h
    unfold inode? at hi
    cases hd : dent? x j with
    | none =>
      rw [hd] at hi
      exact Option.noConfusion hi
    | some d =>
      rw [hd] at hi
      exact ⟨d, i, rfl, hi, hk⟩

theorem isDirAt_intro {x : FS} {j : Nat} {d : Dentry} {i : Inode}
    (hd : dent? x j = some d) (hi : d.inode = some i) (hk : i.kind = IKind.dir) :
    isDirAt x j = true := by
  unfold isDirAt
  rw [inode?_eq_of_dent? hd, hi]
  simp [hk]

/-- A successful rename (per the slot characterization) preserves
well-formedness and the link invariant, when the guards hold and the
move does not put the source above itself. -/
theorem WF_rename_core {s s2 : FS} {oldDir oldId newDir : Nat} {od : Dentry}
    {newName : String}
    (hs2 : s2 = d_move (simple_rename s oldDir oldId newDir).1 oldId newDir newName)
    (hw : WFb s = true) (hl : linkb s = true)
    (hod : dent? s oldId = some od) (hpar : od.parent = some oldDir)
    (hodpos : od.inode.isSome = true)
    (hODdir : isDirAt s oldDir = true) (hNDdir : isDirAt s newDir = true)
    (htrap : lock_rename_trap s newDir oldDir ≠ some oldId) :
    WFb s2 = true ∧ linkb s2 = true := by
  obtain ⟨hro, hcokS, hmem, hndp, hrtd, hdcb⟩ := (WFb_iff s).mp hw
  have holt : oldId < s.dentries.length := lt_of_dent?_eq_some hod
  have hpOfS : parentOf s oldId = some oldDir := by
    rw [parentOf_eq_of_dent? hod, hpar]
  have hne1 : oldId ≠ oldDir := parentOf_ne_self hrtd holt hpOfS
  have hnoanc : ∀ k, parentIter s k newDir ≠ some oldId :=
    trap_not_ancestor hrtd hod hpar htrap
  have hne2 : oldId ≠ newDir := by
    intro he
    exact hnoanc 0 (by rw [parentIter_zero, he])
  obtain ⟨odd0, iOD, hODd0, hODi0, hODk0⟩ := isDirAt_elim hODdir
  obtain ⟨ndd0, iND, hNDd0, hNDi0, hNDk0⟩ := isDirAt_elim hNDdir
  have ndlt : newDir < s.dentries.length := lt_of_dent?_eq_some hNDd0
  obtain ⟨hlen, hOld, hshape, hchild, hdirq, hposq, hioOld, hioNE, hioEQ, hfr⟩ :=
    rename_char newName hs2 hod hpar hne1 hne2 (by rw [hODd0]; rfl)
      (by rw [hNDd0]; rfl)
  have hmemO : oldId ∈ childrenOf s oldDir :=
    mem_children_of_positive hmem hod hodpos hpar
  have hioOD : inode? s oldDir = some iOD := by
    rw [inode?_eq_of_dent? hODd0]
    exact hODi0
  have hioND : inode? s newDir = some iND := by
    rw [inode?_eq_of_dent? hNDd0]
    exact hNDi0
  have hODlink := linkOkAt_dir ((linkb_iff s).mp hl oldDir) hioOD hODk0
  have hNDlink := linkOkAt_dir ((linkb_iff s).mp hl newDir) hioND hNDk0
  have hcntEq : ∀ (l : List Nat),
      List.countP (fun x => isDirAt s2 x) l = List.countP (fun x => isDirAt s x) l :=
    fun l => countP_congr_mem (fun a _ => hdirq a)
  have hccons : ∀ (l : List Nat),
      List.countP (fun x => isDirAt s2 x) (oldId :: l) =
        List.countP (fun x => isDirAt s x) l +
          (if isDirAt s oldId = true then 1 else 0) := by
    intro l
    rw [List.countP_cons, hcntEq]
    congr 1
    simp only [hdirq]
  have hchildOk2 : ∀ p c, c ≠ oldId → childOkAt s p c = true →
      childOkAt s2 p c = true := by
    intro p c hco h
    obtain ⟨cd, hcd, hcp, hcpos⟩ := (childOkAt_iff s p c).mp h
    have hps2 : debugfs_positive s2 c = true := by
      rw [hposq c]
      unfold debugfs_positive
      rw [inode?_eq_of_dent? hcd]
      exact hcpos
    obtain ⟨cd2, i2, hcd2, hi2⟩ := positive_elim hps2
    refine (childOkAt_iff s2 p c).mpr ⟨cd2, hcd2, ?_, by rw [hi2]; rfl⟩
    have hsh := hshape c hco
    rw [hcd2, hcd] at hsh
    simp only [Option.map_some'] at hsh
    rw [Option.some.inj hsh, hcp]
  have hsup2 : ∀ q x, x ≠ oldId → x ∈ childrenOf s q → x ∈ childrenOf s2 q := by
    intro q x hxo hx
    rw [hchild q]
    by_cases h2 : q = newDir
    · rw [if_pos h2]
      refine List.mem_cons_of_mem _ ?_
      by_cases h3 : newDir = oldDir
      · rw [if_pos h3]
        rw [h2, h3] at hx
        exact (List.mem_erase_of_ne hxo).mpr hx
      · rw [if_neg h3]
        rw [h2] at hx
        exact hx
    · rw [if_neg h2]
      by_cases h3 : q = oldDir
      · rw [if_pos h3]
        rw [h3] at hx
        exact (List.mem_erase_of_ne hxo).mpr hx
      · rw [if_neg h3]
        exact hx
  have hro2 : rootOkb s2 = true := by
    obtain ⟨rd, ri, hrd, hrp, hri, hrk⟩ := (rootOkb_iff s).mp hro
    have h0old : (0 : Nat) ≠ oldId := by
      intro he
      rw [← he] at hod
      rw [hod] at hrd
      have hrdod : od = rd := Option.some.inj hrd
      rw [← hrdod, hpar] at hrp
      exact Option.noConfusion hrp
    have hdir0 : isDirAt s2 0 = true := by
      rw [hdirq 0]
      exact isDirAt_intro hrd hri hrk
    obtain ⟨d2, i2, hd2, hi2, hk2⟩ := isDirAt_elim hdir0
    refine (rootOkb_iff s2).mpr ⟨d2, i2, hd2, ?_, hi2, hk2⟩
    have hsh0 := hshape 0 h0old
    rw [hd2, hrd] at hsh0
    simp only [Option.map_some'] at hsh0
    rw [Option.some.inj hsh0, hrp]
  have hcok2 : childrenOkb s2 = true := by
    refine (childrenOkb_iff s2).mpr ?_
    intro p c hc
    rw [hchild p] at hc
    by_cases h2 : p = newDir
    · rw [if_pos h2] at hc
      rcases List.mem_cons.mp hc with hcO | hcrest
      · refine (childOkAt_iff s2 p c).mpr
          ⟨{ od with name := newName, parent := some newDir }, ?_, ?_, ?_⟩
        · rw [hcO]
          exact hOld
        · show some newDir = some p
          rw [h2]
        · show od.inode.isSome = true
          exact hodpos
      · by_cases h3 : newDir = oldDir
        · rw [if_pos h3] at hcrest
          have hcmem : c ∈ childrenOf s oldDir := List.mem_of_mem_erase hcrest
          have hco : c ≠ oldId := by
            intro he
            rw [he] at hcrest
            exact ((nodupb_iff s).mp hndp oldDir).not_mem_erase hcrest
          rw [h2, h3]
          exact hchildOk2 oldDir c hco ((childrenOkb_iff s).mp hcokS oldDir c hcmem)
        · rw [if_neg h3] at hcrest
          have hco : c ≠ oldId := by
            intro he
            rw [he] at hcrest
            obtain ⟨cd, hcd, hcp, _⟩ := child_facts hcokS hcrest
            rw [hod] at hcd
            rw [← Option.some.inj hcd, hpar] at hcp
            exact h3 (Option.some.inj hcp).symm
          rw [h2]
          exact hchildOk2 newDir c hco ((childrenOkb_iff s).mp hcokS newDir c hcrest)
    · rw [if_neg h2] at hc
      by_cases h3 : p = oldDir
      · rw [if_pos h3] at hc
        have hcmem : c ∈ childrenOf s oldDir := List.mem_of_mem_erase hc
        have hco : c ≠ oldId := by
          intro he
          rw [he] at hc
          exact ((nodupb_iff s).mp hndp oldDir).not_mem_erase hc
        rw [h3]
        exact hchildOk2 oldDir c hco ((childrenOkb_iff s).mp hcokS oldDir c hcmem)
      · rw [if_neg h3] at hc
        have hco : c ≠ oldId := by
          intro he
          rw [he] at hc
          obtain ⟨cd, hcd, hcp, _⟩ := child_facts hcokS hc
          rw [hod] at hcd
          rw [← Option.some.inj hcd, hpar] at hcp
          exact h3 (Option.some.inj hcp).symm
        exact hchildOk2 p c hco ((childrenOkb_iff s).mp hcokS p c hc)
  have hmem2 : memChildb s2 = true := by
    refine (memChildb_iff s2).mpr ?_
    intro c cd2 hc hcpos
    by_cases h1 : c = oldId
    · rw [h1, hOld] at hc
      have hcd2 : cd2 = { od with name := newName, parent := some newDir } :=
        (Option.some.inj hc).symm
      rw [hcd2]
      show c ∈ childrenOf s2 newDir
      rw [hchild newDir, if_pos (rfl : newDir = newDir), h1]
      exact List.mem_cons_self _ _
    · have hspos : debugfs_positive s c = true := by
        rw [← hposq c]
        unfold debugfs_positive
        rw [inode?_eq_of_dent? hc]
        exact hcpos
      obtain ⟨cd, i0, hcd, hci⟩ := positive_elim hspos
      have hss := (memChildb_iff s).mp hmem c cd hcd (by rw [hci]; rfl)
      have hsh := hshape c h1
      rw [hc, hcd] at hsh
      simp only [Option.map_some'] at hsh
      rw [Option.some.inj hsh]
      cases hq : cd.parent with
      | some q =>
        rw [hq] at hss
        simp only [] at hss
        simp only []
        exact hsup2 q c h1 hss
      | none =>
        rw [hq] at hss
        simp only [] at hss
        simp only []
        exact hss
  have hnd2 : nodupb s2 = true := by
    refine (nodupb_iff s2).mpr ?_
    intro p
    rw [hchild p]
    by_cases h2 : p = newDir
    · rw [if_pos h2]
      by_cases h3 : newDir = oldDir
      · rw [if_pos h3]
        refine List.nodup_cons.mpr ⟨?_, ?_⟩
        · exact ((nodupb_iff s).mp hndp oldDir).not_mem_erase
        · exact List.Nodup.erase oldId ((nodupb_iff s).mp hndp oldDir)
      · rw [if_neg h3]
        refine List.nodup_cons.mpr ⟨?_, (nodupb_iff s).mp hndp newDir⟩
        intro hmem0
        obtain ⟨cd, hcd, hcp, _⟩ := child_facts hcokS hmem0
        rw [hod] at hcd
        rw [← Option.some.inj hcd, hpar] at hcp
        exact h3 (Option.some.inj hcp).symm
    · rw [if_neg h2]
      by_cases h3 : p = oldDir
      · rw [if_pos h3]
        exact List.Nodup.erase oldId ((nodupb_iff s).mp hndp oldDir)
      · rw [if_neg h3]
        exact (nodupb_iff s).mp hndp p
  have hdc2 : dirChildrenb s2 = true := by
    refine (dirChildrenb_iff s2).mpr ?_
    intro j hne
    rw [hdirq j]
    rw [hchild j] at hne
    by_cases h2 : j = newDir
    · rw [h2]
      exact hNDdir
    · rw [if_neg h2] at hne
      by_cases h3 : j = oldDir
      · rw [h3]
        exact hODdir
      · rw [if_neg h3] at hne
        exact (dirChildrenb_iff s).mp hdcb j hne
  have hsome2 : ∀ x, (dent? s2 x).isSome = (dent? s x).isSome := by
    intro x
    by_cases h1 : x = oldId
    · rw [h1, hOld, hod]
      rfl
    · have hsh := hshape x h1
      cases ha : dent? s2 x <;> cases hb : dent? s x <;>
        rw [ha, hb] at hsh <;> simp_all
  have hpOf2O : parentOf s2 oldId = some newDir := by
    rw [parentOf_eq_of_dent? hOld]
  have hpOf2 : ∀ x, x ≠ oldId → parentOf s2 x = parentOf s x :=
    fun x hx => parentOf_eq_of_shape (hshape x hx)
  have hrt2 : rootedb s2 = true := by
    refine (rootedb_iff s2).mpr ?_
    intro j hj
    rw [hlen] at hj
    rw [hlen]
    obtain ⟨n, r, hnlt, hit, hr, hdent⟩ :=
      iter_of_chainToRoot s.dentries.length j ((rootedb_iff s).mp hrtd j hj)
    by_cases hvis : ∃ i, parentIter s i j = some oldId
    · -- the chain passes the moved node: splice in the new parent's chain
      have hk0ex := hvis
      have hk0it := Nat.find_spec hk0ex
      have hk0min : ∀ m, m < Nat.find hk0ex → parentIter s m j ≠ some oldId :=
        fun m hm => Nat.find_min hk0ex hm
      obtain ⟨k0, hk0e⟩ : ∃ k0, Nat.find hk0ex = k0 := ⟨_, rfl⟩
      rw [hk0e] at hk0it hk0min
      have hk0n : k0 ≤ n := by
        by_contra hgt
        push_neg at hgt
        have hdead : parentIter s (n + (k0 - n)) j = some oldId := by
          have he : n + (k0 - n) = k0 := by omega
          rw [he]
          exact hk0it
        rw [parentIter_add, hit] at hdead
        simp only [Option.some_bind] at hdead
        obtain ⟨m, hm⟩ : ∃ m, k0 - n = m + 1 := ⟨k0 - n - 1, by omega⟩
        rw [hm, parentIter_succ, hr] at hdead
        exact Option.noConfusion hdead
      have hprefav : ∀ i y, i < k0 → parentIter s i j = some y → y ≠ oldId := by
        intro i y hi hy he
        rw [he] at hy
        exact hk0min i hi hy
      have hpref : parentIter s2 k0 j = some oldId := by
        rw [parentIter_avoid hshape k0 j hprefav]
        exact hk0it
      have hstep : parentIter s2 (k0 + 1) j = some newDir := by
        rw [parentIter_add, hpref]
        show parentIter s2 1 oldId = some newDir
        rw [parentIter_succ, hpOf2O]
        rfl
      obtain ⟨n2, r2, hn2lt, hit2, hr2, hdent2⟩ :=
        iter_of_chainToRoot s.dentries.length newDir
          ((rootedb_iff s).mp hrtd newDir ndlt)
      have hndav : ∀ i y, parentIter s i newDir = some y → y ≠ oldId := by
        intro i y hy he
        rw [he] at hy
        exact hnoanc i hy
      have hnd2it : parentIter s2 n2 newDir = some r2 := by
        rw [parentIter_avoid hshape n2 newDir (fun i y hi hy => hndav i y hy)]
        exact hit2
      have hr2ne : r2 ≠ oldId := hndav n2 r2 hit2
      have hr2none : parentOf s2 r2 = none := by
        rw [hpOf2 r2 hr2ne]
        exact hr2
      have hfull : parentIter s2 (k0 + 1 + n2) j = some r2 := by
        rw [parentIter_add, hstep]
        simp only [Option.some_bind]
        exact hnd2it
      -- length bound via the two disjoint node lists
      have hnodup1 := iterList_nodup hrtd k0 hj hk0it
      have hnodup2 := iterList_nodup hrtd n2 ndlt hit2
      have hdisj : ∀ x ∈ iterList s k0 j, x ∉ iterList s n2 newDir := by
        intro x hx1 hx2
        obtain ⟨a, ha, hita⟩ := (iterList_mem k0 hk0it x).mp hx1
        obtain ⟨b, hb, hitb⟩ := (iterList_mem n2 hit2 x).mp hx2
        have hta : parentIter s (a + (k0 - a)) j = some oldId := by
          have he : a + (k0 - a) = k0 := by omega
          rw [he]
          exact hk0it
        rw [parentIter_add, hita] at hta
        simp only [Option.some_bind] at hta
        have htb : parentIter s (b + (k0 - a)) newDir = some oldId := by
          rw [parentIter_add, hitb]
          simp only [Option.some_bind]
          exact hta
        exact hnoanc (b + (k0 - a)) htb
      have hnodupA : (iterList s k0 j ++ iterList s n2 newDir).Nodup := by
        rw [List.nodup_append]
        exact ⟨hnodup1, hnodup2, fun a ha hb => hdisj a ha hb⟩
      have hsubA : (iterList s k0 j ++ iterList s n2 newDir) ⊆
          List.range s.dentries.length := by
        intro y hy
        rw [List.mem_range]
        rcases List.mem_append.mp hy with hy1 | hy2
        · obtain ⟨a, _, hita⟩ := (iterList_mem k0 hk0it y).mp hy1
          exact (chain_facts' hrtd a hj hita).1
        · obtain ⟨b, _, hitb⟩ := (iterList_mem n2 hit2 y).mp hy2
          exact (chain_facts' hrtd b ndlt hitb).1
      have hlenA := (List.subperm_of_subset hnodupA hsubA).length_le
      rw [List.length_append, iterList_length k0 hk0it, iterList_length n2 hit2,
        List.length_range] at hlenA
      refine chainToRoot_of_iter (k0 + 1 + n2) hfull hr2none ?_ (by omega)
      intro i y hi hy
      by_cases hik : i ≤ k0
      · have hy' : parentIter s i j = some y := by
          rw [← parentIter_avoid hshape i j
            (fun a z ha hz => hprefav a z (Nat.lt_of_lt_of_le ha hik) hz)]
          exact hy
        rw [hsome2 y]
        exact hdent i y (Nat.le_trans hik hk0n) hy'
      · push_neg at hik
        obtain ⟨m, rfl⟩ : ∃ m, i = k0 + 1 + m := ⟨i - (k0 + 1), by omega⟩
        rw [parentIter_add, hstep] at hy
        simp only [Option.some_bind] at hy
        rw [parentIter_avoid hshape m newDir (fun a z ha hz => hndav a z hz)] at hy
        rw [hsome2 y]
        exact hdent2 m y (by omega) hy
    · -- the chain avoids the moved node entirely
      push_neg at hvis
      have hav : ∀ i y, parentIter s i j = some y → y ≠ oldId := by
        intro i y hy he
        rw [he] at hy
        exact hvis i hy
      have hit2 : parentIter s2 n j = some r := by
        rw [parentIter_avoid hshape n j (fun a z _ hz => hav a z hz)]
        exact hit
      have hrne : r ≠ oldId := hav n r hit
      have hrnone : parentOf s2 r = none := by
        rw [hpOf2 r hrne]
        exact hr
      refine chainToRoot_of_iter n hit2 hrnone ?_ hnlt
      intro i y hi hy
      have hy' : parentIter s i j = some y := by
        rw [← parentIter_avoid hshape i j (fun a z _ hz => hav a z hz)]
        exact hy
      rw [hsome2 y]
      exact hdent i y hi hy'
  have hlk2 : linkb s2 = true := by
    refine (linkb_iff s2).mpr ?_
    intro id
    refine linkOkAt_intro ?_
    intro i2 hi2 hk2
    by_cases h1 : id = oldId
    · rw [h1] at hi2 ⊢
      rw [hioOld] at hi2
      have hioS : inode? s oldId = some i2 := by
        rw [inode?_eq_of_dent? hod]
        exact hi2
      have hold := linkOkAt_dir ((linkb_iff s).mp hl oldId) hioS hk2
      rw [hchild oldId, if_neg hne2, if_neg hne1, hcntEq]
      exact hold
    · by_cases h2 : id = newDir
      · rw [h2] at hi2 ⊢
        have hchN := hchild newDir
        rw [if_pos (rfl : newDir = newDir)] at hchN
        by_cases h3 : oldDir = newDir
        · rw [if_pos h3.symm] at hchN
          rw [hioEQ h3] at hi2
          rw [← h3] at hNDlink
          rw [hchN, hccons]
          by_cases hdirs : isDirAt s oldId = true
          · rw [if_pos hdirs] at hi2 ⊢
            rw [← h3, hioOD] at hi2
            have hieq : ({ iOD with nlink := iOD.nlink - 1 + 1 } : Inode) = i2 :=
              Option.some.inj hi2
            have hnl : i2.nlink = iOD.nlink - 1 + 1 := by
              rw [← hieq]
            have herase : (childrenOf s oldDir).countP (fun c => isDirAt s c) =
                ((childrenOf s oldDir).erase oldId).countP
                  (fun c => isDirAt s c) + 1 := by
              rw [countP_erase_mem (fun c => isDirAt s c) hmemO]
              simp [hdirs]
            rw [hnl]
            omega
          · rw [if_neg hdirs] at hi2 ⊢
            rw [← h3, hioOD] at hi2
            have hieq : iOD = i2 := Option.some.inj hi2
            have herase : (childrenOf s oldDir).countP (fun c => isDirAt s c) =
                ((childrenOf s oldDir).erase oldId).countP
                  (fun c => isDirAt s c) := by
              rw [countP_erase_mem (fun c => isDirAt s c) hmemO]
              simp [hdirs]
            rw [← hieq]
            omega
        · rw [if_neg (fun h : newDir = oldDir => h3 h.symm)] at hchN
          obtain ⟨hio2OD, hio2ND⟩ := hioNE h3
          rw [hio2ND] at hi2
          rw [hchN, hccons]
          by_cases hdirs : isDirAt s oldId = true
          · rw [if_pos hdirs] at hi2 ⊢
            rw [hioND] at hi2
            have hieq : ({ iND with nlink := iND.nlink + 1 } : Inode) = i2 :=
              Option.some.inj hi2
            have hnl : i2.nlink = iND.nlink + 1 := by
              rw [← hieq]
            rw [hnl]
            omega
          · rw [if_neg hdirs] at hi2 ⊢
            rw [hioND] at hi2
            have hieq : iND = i2 := Option.some.inj hi2
            rw [← hieq]
            omega
      · by_cases h3 : id = oldDir
        · have hODND : oldDir ≠ newDir := fun h => h2 (h3.trans h)
          rw [h3] at hi2 ⊢
          obtain ⟨hio2OD, hio2ND⟩ := hioNE hODND
          rw [hio2OD] at hi2
          have hchO := hchild oldDir
          rw [if_neg (fun h : oldDir = newDir => hODND h),
            if_pos (rfl : oldDir = oldDir)] at hchO
          rw [hchO, hcntEq]
          by_cases hdirs : isDirAt s oldId = true
          · rw [if_pos hdirs] at hi2
            rw [hioOD] at hi2
            have hieq : ({ iOD with nlink := iOD.nlink - 1 } : Inode) = i2 :=
              Option.some.inj hi2
            have hnl : i2.nlink = iOD.nlink - 1 := by
              rw [← hieq]
            have herase : (childrenOf s oldDir).countP (fun c => isDirAt s c) =
                ((childrenOf s oldDir).erase oldId).countP
                  (fun c => isDirAt s c) + 1 := by
              rw [countP_erase_mem (fun c => isDirAt s c) hmemO]
              simp [hdirs]
            rw [hnl]
            omega
          · rw [if_neg hdirs] at hi2
            rw [hioOD] at hi2
            have hieq : iOD = i2 := Option.some.inj hi2
            have herase : (childrenOf s oldDir).countP (fun c => isDirAt s c) =
                ((childrenOf s oldDir).erase oldId).countP
                  (fun c => isDirAt s c) := by
              rw [countP_erase_mem (fun c => isDirAt s c) hmemO]
              simp [hdirs]
            rw [← hieq]
            omega
        · have hde := hfr id h1 h3 h2
          have hioS : inode? s2 id = inode? s id := by
            unfold inode?
            rw [hde]
          rw [hioS] at hi2
          have hold := linkOkAt_dir ((linkb_iff s).mp hl id) hi2 hk2
          rw [hchild id, if_neg h2, if_neg h3, hcntEq]
          exact hold
  exact ⟨(WFb_iff s2).mpr ⟨hro2, hcok2, hmem2, hnd2, hrt2, hdc2⟩, hlk2⟩

/-- `debugfs_rename` preserves well-formedness and the link invariant on
every path, when invoked per the API contract (the true parent and two
directory dentries). -/
theorem WF_rename {s : FS} (oldDir oldId newDir : Nat) (newName : String)
    (hw : WFb s = true) (hl : linkb s = true)
    (hpar : parentOf s oldId = some oldDir)
    (hodir : isDirAt s oldDir = true) (hndir : isDirAt s newDir = true) :
    WFb (debugfs_rename s oldDir oldId newDir newName).1 = true ∧
    linkb (debugfs_rename s oldDir oldId newDir newName).1 = true := by
  unfold debugfs_rename
  simp only []
  by_cases hg1 : ((inode? s oldDir).isNone || (inode? s newDir).isNone) = true
  · rw [if_pos hg1]
    exact ⟨hw, hl⟩
  · rw [if_neg hg1]
    by_cases hg2 : ((inode? s oldId).isNone ||
        lock_rename_trap s newDir oldDir == some oldId ||
        d_mountpoint s oldId) = true
    · rw [if_pos hg2]
      exact ⟨hw, hl⟩
    · rw [if_neg hg2]
      cases hlk : lookup_one_len s newDir newName with
      | some c => exact ⟨hw, hl⟩
      | none =>
        simp only []
        have hsr : simple_rename s oldDir oldId newDir =
            ((simple_rename s oldDir oldId newDir).1, 0) := by
          have h0 := (simple_rename_char s oldDir oldId newDir).1
          rw [← h0]
        rw [hsr]
        simp only []
        rw [if_neg (fun h : (0 : Int) ≠ 0 => h rfl)]
        simp only [Bool.or_eq_true, not_or] at hg2
        obtain ⟨⟨hga, hgb⟩, hgc⟩ := hg2
        have hodS : (inode? s oldId).isSome = true := by
          cases hio : inode? s oldId with
          | none => exact absurd (by rw [hio]; rfl) hga
          | some i => rfl
        have htrap : lock_rename_trap s newDir oldDir ≠ some oldId := by
          intro he
          exact hgb (by rw [he]; exact beq_self_eq_true _)
        obtain ⟨od, hodD, hodpos⟩ :
            ∃ d, dent? s oldId = some d ∧ d.inode.isSome = true := by
          obtain ⟨i, hi⟩ := Option.isSome_iff_exists.mp hodS
          unfold inode? at hi
          cases hd : dent? s oldId with
          | none =>
            rw [hd] at hi
            exact Option.noConfusion hi
          | some d =>
            rw [hd] at hi
            refine ⟨d, rfl, ?_⟩
            rw [show d.inode = some i from hi]
            rfl
        have hparD : od.parent = some oldDir := by
          rw [parentOf_eq_of_dent? hodD] at hpar
          exact hpar
        exact WF_rename_core rfl hw hl hodD hparD hodpos hodir hndir htrap

/-- Well-formedness and the link invariant hold in every reachable
state. -/
theorem WF_reachable {s : FS} (h : Reachable s) :
    WFb s = true ∧ linkb s = true := by
  induction h with
  | init => exact ⟨by decide, by decide⟩
  | cfile s h name perm parent aOk tOk hp ih =>
    refine WF_create_file name IKind.reg perm parent aOk tOk ih.1 ih.2 ?_
    cases parent with
    | some p => exact hp
    | none =>
      obtain ⟨rd, ri, hrd, _, hri, hrk⟩ := (rootOkb_iff s).mp ((WFb_iff s).mp ih.1).1
      exact isDirAt_intro hrd hri hrk
  | cdir s h name parent aOk tOk hp ih =>
    refine WF_create_file name IKind.dir 0o755 parent aOk tOk ih.1 ih.2 ?_
    cases parent with
    | some p => exact hp
    | none =>
      obtain ⟨rd, ri, hrd, _, hri, hrk⟩ := (rootOkb_iff s).mp ((WFb_iff s).mp ih.1).1
      exact isDirAt_intro hrd hri hrk
  | clink s h name parent sOk aOk tOk hp ih =>
    unfold debugfs_create_symlink
    cases sOk with
    | false => exact ih
    | true =>
      refine WF_create_file name IKind.lnk 0o777 parent aOk tOk ih.1 ih.2 ?_
      cases parent with
      | some p => exact hp
      | none =>
        obtain ⟨rd, ri, hrd, _, hri, hrk⟩ := (rootOkb_iff s).mp ((WFb_iff s).mp ih.1).1
        exact isDirAt_intro hrd hri hrk
  | rm s h r ih => exact WF_remove r ih.1 ih.2
  | rmrec s h r ih => exact WF_remove_recursive r ih.1 ih.2
  | ren s h oldDir oldId newDir newName hpar hod hnd ih =>
    exact WF_rename oldDir oldId newDir newName ih.1 ih.2 hpar hod hnd

/-- The four-node tree (dir `a` holding file `b` and dir `c`, which
holds file `d`) is reachable through the public API. -/
theorem Reachable_stABCD : Reachable stABCD := by
  refine Reachable.cfile stABC ?_ "d" 0o644 (some 3) true true (by decide)
  refine Reachable.cdir stAB ?_ "c" (some 1) true true (by decide)
  refine Reachable.cfile stA ?_ "b" 0o644 (some 1) true true (by decide)
  exact Reachable.cdir initFS Reachable.init "a" none true true trivial

/-- C7: a fresh directory inode starts with link count 2; a successful
creation adds one link to the parent exactly when the new child is a
directory; a removal takes one away from the parent exactly when the
removed child was a directory; a cross-directory rename of a directory
moves one link from the old parent to the new one; and in every
reachable state every directory's link count equals 2 plus its number
of positive child directories (`linkb`, alongside well-formedness). -/
theorem C7_link_invariant (perm : Nat) (s : FS) (h : Reachable s) :
    (debugfs_get_inode IKind.dir perm).nlink = 2 ∧
    (∀ (name : String) (kind : IKind) (perm2 : Nat) (parent : Option Nat)
        (tOk : Bool) (d : Dentry),
      (s.mountCount = 0 → tOk = true) →
      lookup_one_len s (parent.getD 0) name = none →
      dent? s (parent.getD 0) = some d →
      dent? (__create_file s name kind perm2 parent true tOk).1 (parent.getD 0) =
        some { d with
          children := s.dentries.length :: d.children,
          inode := if kind = IKind.dir then
              d.inode.map (fun i => { i with nlink := i.nlink + 1 })
            else d.inode }) ∧
    (∀ (c p : Nat) (cd : Dentry),
      dent? s c = some cd → cd.parent = some p → cd.inode.isSome = true →
      cd.children = [] → c ≠ p →
      dent? (__debugfs_remove s c p).1 p =
        (dent? s p).map fun pd =>
          { pd with
            children := pd.children.erase c,
            inode := pd.inode.map fun i =>
              if isDirAt s c then { i with nlink := i.nlink - 1 } else i }) ∧
    (∀ oldDir oldId newDir : Nat, oldDir ≠ newDir → isDirAt s oldId = true →
      inode? (simple_rename s oldDir oldId newDir).1 oldDir =
        (inode? s oldDir).map (fun i => { i with nlink := i.nlink - 1 }) ∧
      inode? (simple_rename s oldDir oldId newDir).1 newDir =
        (inode? s newDir).map (fun i => { i with nlink := i.nlink + 1 })) ∧
    WFb s = true ∧ linkb s = true := by
  obtain ⟨hwf, hlk⟩ := WF_reachable h
  refine ⟨rfl, ?_, ?_, ?_, hwf, hlk⟩
  · intro name kind perm2 parent tOk d hp hlkp hd
    obtain ⟨_, _, _, _, _, _, hchar⟩ :=
      __create_file_success kind perm2 hp hlkp (lt_of_dent?_eq_some hd)
    rw [hchar (parent.getD 0), if_neg (Nat.ne_of_lt (lt_of_dent?_eq_some hd)),
      if_pos (rfl : parent.getD 0 = parent.getD 0), hd]
    rfl
  · intro c p cd hc hcp hci hch hcpne
    have hchar := ((__debugfs_remove_spec hc hcp hci hch hcpne).2).2.2.2.2.2 p
    rw [if_neg (Ne.symm hcpne), if_pos (rfl : p = p)] at hchar
    exact hchar
  · intro oldDir oldId newDir hne hdirs
    obtain ⟨_, _, hB⟩ := simple_rename_char s oldDir oldId newDir
    constructor
    · have hb := hB oldDir
      rw [if_pos hdirs, if_neg hne, if_pos (rfl : oldDir = oldDir)] at hb
      unfold inode?
      rw [hb]
      cases dent? s oldDir with
      | none => rfl
      | some d0 => rfl
    · have hb := hB newDir
      rw [if_pos hdirs, if_pos (rfl : newDir = newDir),
        if_neg (fun h2 : newDir = oldDir => hne h2.symm)] at hb
      unfold inode?
      rw [hb]
      cases dent? s newDir with
      | none => rfl
      | some d0 => rfl

/-- Witness for C7: the invariant at the concrete reachable four-node
tree, with the hypothesis discharged by `Reachable_stABCD`. -/
theorem C7_witness :
    (debugfs_get_inode IKind.dir DEBUGFS_DEFAULT_MODE).nlink = 2 ∧
    WFb stABCD = true ∧ linkb stABCD = true := by
  obtain ⟨h1, _, _, _, h5, h6⟩ :=
    C7_link_invariant DEBUGFS_DEFAULT_MODE stABCD Reachable_stABCD
  exact ⟨h1, h5, h6⟩

end Debugfs
